import Mathlib

/-!
# Cognitive Deduplication Engine — verification of the specification claims

Shallow embedding of the CDE core (`src/usc/cogdedup/`: hasher, LSH index,
store, codec, streaming encoder, predictor, anomaly detector) and proofs
settling the claims of the natural-language specification.

Modelling conventions:
* Bytes are `Nat`; byte strings are `List Nat`.  Arithmetic that wraps in the
  source (`& 0xFFFFFFFFFFFFFFFF`) is written with explicit `% 2^64`.
* Python dicts preserve insertion order, so they are modelled as association
  lists (`List (key × value)`); a Python `set` of chunk ids is modelled as a
  duplicate-free list kept in ascending order (Python set iteration order is
  unspecified; the model fixes ascending order).
* The external `zstandard` and `zlib` libraries and SHA-256 are out of the
  repository; they are modelled as an abstract `Ext` bundle of compression
  functions with round-trip laws, plus an injective hash.
* Reads of the wall clock (`time.time()`) are modelled by threading an
  explicit `now : Nat` through the store operations.
* Fallible operations (Python exceptions) return `Except String _`.
-/

namespace Cogdedup

/-! ## uvarint (LEB128)

Modelled from the spec: the module `usc.mem.varint` (`encode_uvarint`,
`decode_uvarint`) is imported by `codec.py` and `streaming.py` but its source
is not in the repository; the spec defines the format as "unsigned LEB128,
little-endian, 7 data bits per byte, high bit = continuation".
The decoder is written on the byte suffix rather than on (blob, offset);
`decode_uvarint blob off` in the source corresponds to `decodeUvarint
(blob.drop off)` here. -/

/-- Fuel-driven body of `encodeUvarint` (structural recursion so that the
kernel can evaluate it; the fuel `n + 1` always suffices because the value
shrinks by a factor of 128 per emitted byte). -/
def encodeUvarintGo (fuel n : Nat) : List Nat :=
  match fuel with
  | 0 => []
  | fuel + 1 => if n < 128 then [n] else (n % 128 + 128) :: encodeUvarintGo fuel (n / 128)

/-- Modelled from the spec: `encode_uvarint` of `usc.mem.varint` — unsigned
LEB128, little-endian, 7 data bits per byte, high bit = continuation. -/
def encodeUvarint (n : Nat) : List Nat := encodeUvarintGo (n + 1) n

/-- Modelled from the spec: `decode_uvarint` of `usc.mem.varint`, reading from
a byte suffix; returns the decoded value and the remaining bytes. -/
def decodeUvarint : List Nat → Option (Nat × List Nat)
  | [] => none
  | b :: rest =>
    if b < 128 then some (b, rest)
    else match decodeUvarint rest with
      | some (v, r) => some (v * 128 + (b - 128), r)
      | none => none

/-! ## Hasher: content-defined chunking (`hasher.py`)

`content_defined_chunks` / `_cdc_python`: rolling 1-bit-shift fingerprint,
boundary when `chunk_len ≥ MIN ∧ (chunk_len ≥ MAX ∨ fp &&& MASK = 0)`.
The C-accelerated path (`_cdc_native`) computes the same boundaries; the
Python fallback `_cdc_python` is the one embedded. -/

def MIN_CHUNK : Nat := 1024
def AVG_CHUNK : Nat := 4096
def MAX_CHUNK : Nat := 16384
def MASK : Nat := AVG_CHUNK - 1

/-- One step of the loop body of `_cdc_python`: state is
(chunks-so-far, bytes of the current partial chunk (reversed is avoided:
kept in order), rolling fingerprint). `buf` plays the role of
`data[start:i+1]`. -/
def cdcStep (st : List (List Nat) × List Nat × Nat) (b : Nat) :
    List (List Nat) × List Nat × Nat :=
  let (chunks, buf, fp) := st
  let fp' := (fp * 2 ^^^ b) % 2 ^ 64
  let buf' := buf ++ [b]
  if buf'.length < MIN_CHUNK then (chunks, buf', fp')
  else if buf'.length ≥ MAX_CHUNK ∨ fp' &&& MASK = 0 then
    (chunks ++ [buf'], [], 0)
  else (chunks, buf', fp')

/-- `_cdc_python` of `hasher.py`: fold the per-byte loop, then append the
trailing partial chunk if non-empty. -/
def cdcPython (data : List Nat) : List (List Nat) :=
  let (chunks, buf, _) := data.foldl cdcStep ([], [], 0)
  if buf.isEmpty then chunks else chunks ++ [buf]

/-- `content_defined_chunks` of `hasher.py`: inputs of length `≤ MIN` are a
single chunk (empty input: no chunks); otherwise run the CDC loop. -/
def content_defined_chunks (data : List Nat) : List (List Nat) :=
  if data.length ≤ MIN_CHUNK then (if data.isEmpty then [] else [data])
  else cdcPython data

/-! ## Hasher: SimHash and hamming distance (`hasher.py`)

`_simhash64_python` (the pure-Python fallback; the numpy path computes the
same bits) and `hamming_distance` (popcount of the XOR via `x &= x - 1`). -/

def FNV_OFFSET : Nat := 0xcbf29ce484222325
def FNV_PRIME : Nat := 0x100000001b3

/-- FNV-1a over one 4-byte shingle (`h ^= byte; h = h * prime mod 2^64`). -/
def fnv1a (w : List Nat) : Nat :=
  w.foldl (fun h b => ((h ^^^ b) * FNV_PRIME) % 2 ^ 64) FNV_OFFSET

/-- Sliding 4-byte windows (`data[i:i+4]` for `i in range(len(data)-3)`). -/
def windows4 : List Nat → List (List Nat)
  | a :: b :: c :: d :: rest => [a, b, c, d] :: windows4 (b :: c :: d :: rest)
  | _ => []

/-- The `counts[bit]` tally of `_simhash64_python`: +1 per shingle hash with
the bit set, −1 per hash with it clear. -/
def simhashCount (hs : List Nat) (bit : Nat) : Int :=
  hs.foldl (fun c h => if h &&& (1 <<< bit) ≠ 0 then c + 1 else c - 1) 0

/-- `simhash64` of `hasher.py`: 0 on inputs shorter than 4 bytes, else one
output bit per position with a positive tally. -/
def simhash64 (data : List Nat) : Nat :=
  if data.length < 4 then 0
  else
    let hs := (windows4 data).map fnv1a
    (List.range 64).foldl
      (fun res bit => if 0 < simhashCount hs bit then res ||| (1 <<< bit) else res) 0

/-- Fuel-driven popcount loop of `hamming_distance`
(`count += 1; x &= x - 1`); the fuel `x + 1` always suffices because each
iteration strictly decreases `x`. -/
def popcountGo (fuel x : Nat) : Nat :=
  match fuel with
  | 0 => 0
  | fuel + 1 => if x = 0 then 0 else 1 + popcountGo fuel (x &&& (x - 1))

def popcount (x : Nat) : Nat := popcountGo (x + 1) x

def hamming_distance (a b : Nat) : Nat := popcount (a ^^^ b)

def SIMILARITY_THRESHOLD : Nat := 8

/-! ## Association lists and ordered id sets

Python dicts preserve insertion order and are modelled as association lists;
`alistSet` overwrites in place or appends a new key at the end, exactly as a
Python dict assignment does.  Python `set`s of chunk ids are modelled as
duplicate-free ascending lists (`insertSorted` / `List.filter`). -/

def alistGet {α β : Type} [DecidableEq α] (l : List (α × β)) (k : α) : Option β :=
  (l.find? (fun p => p.1 = k)).map Prod.snd

def alistSet {α β : Type} [DecidableEq α] (l : List (α × β)) (k : α) (v : β) :
    List (α × β) :=
  match l with
  | [] => [(k, v)]
  | (k', v') :: rest =>
    if k' = k then (k, v) :: rest else (k', v') :: alistSet rest k v

def alistPop {α β : Type} [DecidableEq α] (l : List (α × β)) (k : α) : List (α × β) :=
  l.filter (fun p => p.1 ≠ k)

def alistKeys {α β : Type} (l : List (α × β)) : List α := l.map Prod.fst

/-- Insert into a duplicate-free ascending list (models Python `set.add`). -/
def insertSorted (x : Nat) : List Nat → List Nat
  | [] => [x]
  | y :: rest =>
    if x < y then x :: y :: rest
    else if x = y then y :: rest
    else y :: insertSorted x rest

/-- Set union as repeated insertion (models `set.update`). -/
def setUnion (acc : List Nat) (l : List Nat) : List Nat := l.foldl (fun a x => insertSorted x a) acc

/-- Stable insertion used by `stableSort`: `x` goes in front of the first
element `y` with `le x y` (so an element never jumps over an equal one). -/
def insertStable {α : Type} (le : α → α → Bool) (x : α) : List α → List α
  | [] => [x]
  | y :: rest => if le x y then x :: y :: rest else y :: insertStable le x rest

/-- Python's `sorted` is a stable sort, and a stable sort by a fixed key is
extensionally unique, so the model may use any stable sort; this is a
structural insertion sort (the kernel can evaluate it). -/
def stableSort {α : Type} (le : α → α → Bool) : List α → List α
  | [] => []
  | x :: rest => insertStable le x (stableSort le rest)

/-! ## LSH index (`lsh.py`) -/

def N_BANDS : Nat := 8
def BAND_WIDTH : Nat := 8

/-- `_extract_bands`: the 8 consecutive 8-bit slices of a 64-bit SimHash. -/
def extractBands (simhash : Nat) : List Nat :=
  (List.range N_BANDS).map fun i => (simhash >>> (i * BAND_WIDTH)) &&& ((1 <<< BAND_WIDTH) - 1)

/-- `LSHIndex`: per-(band, value) buckets of chunk ids plus the
`chunk_id → simhash` map used for exact hamming verification. -/
structure LSHIndex where
  buckets : List ((Nat × Nat) × List Nat)
  simhashes : List (Nat × Nat)
deriving Repr, DecidableEq

def LSHIndex.empty : LSHIndex := ⟨[], []⟩

/-- `LSHIndex.insert`. -/
def LSHIndex.insert (idx : LSHIndex) (chunkId simhash : Nat) : LSHIndex :=
  let simhashes := alistSet idx.simhashes chunkId simhash
  let buckets := ((extractBands simhash).enum).foldl
    (fun bs (bv : Nat × Nat) =>
      let key := (bv.1, bv.2)
      alistSet bs key (insertSorted chunkId ((alistGet bs key).getD [])))
    idx.buckets
  ⟨buckets, simhashes⟩

/-- `LSHIndex.remove` (idempotent on unknown ids). -/
def LSHIndex.remove (idx : LSHIndex) (chunkId : Nat) : LSHIndex :=
  match alistGet idx.simhashes chunkId with
  | none => idx
  | some sh =>
    let simhashes := alistPop idx.simhashes chunkId
    let buckets := ((extractBands sh).enum).foldl
      (fun bs (bv : Nat × Nat) =>
        let key := (bv.1, bv.2)
        alistSet bs key (((alistGet bs key).getD []).filter (fun c => c ≠ chunkId)))
      idx.buckets
    ⟨buckets, simhashes⟩

/-- `LSHIndex.query_candidates`: union of the buckets matched by the query's
bands (a Python set; modelled as an ascending duplicate-free list). -/
def LSHIndex.query_candidates (idx : LSHIndex) (simhash : Nat) : List Nat :=
  ((extractBands simhash).enum).foldl
    (fun cands (bv : Nat × Nat) => setUnion cands ((alistGet idx.buckets (bv.1, bv.2)).getD []))
    []

/-- `LSHIndex.query_nearest`: scan the candidates keeping the strictly best
hamming distance, starting from `best_dist = threshold + 1`.  The source
iterates a Python set (unspecified order) and reads `self._simhashes[cid]`
(a `KeyError` on absent ids); the model iterates the candidate list in
ascending order and defaults an absent simhash to 0 — every use is guarded
by the invariant that bucket members have stored simhashes. -/
def LSHIndex.query_nearest (idx : LSHIndex) (simhash : Nat)
    (threshold : Nat := SIMILARITY_THRESHOLD) : Option Nat :=
  ((idx.query_candidates simhash).foldl
    (fun (best : Nat × Option Nat) cid =>
      if hamming_distance simhash ((alistGet idx.simhashes cid).getD 0) < best.1 then
        (hamming_distance simhash ((alistGet idx.simhashes cid).getD 0), some cid)
      else best)
    (threshold + 1, none)).2

def LSHIndex.size (idx : LSHIndex) : Nat := idx.simhashes.length

/-- `LSHIndex.rebuild`: clear and repopulate. -/
def LSHIndex.rebuild (entries : List (Nat × Nat)) : LSHIndex :=
  entries.foldl (fun idx e => idx.insert e.1 e.2) LSHIndex.empty


/-! ## External collaborators

`zstandard` (plain, with-dictionary), `zlib` (cold archive) and SHA-256 are
external libraries, out of this repository.  They are modelled as an abstract
bundle of total functions with the round-trip laws the engine relies on, plus
injectivity of the content hash (the engine treats SHA-256 as collision-free:
`_by_sha` is keyed by the digest). -/

structure Ext where
  compress : List Nat → List Nat
  decompress : List Nat → List Nat
  compressD : List Nat → List Nat → List Nat
  decompressD : List Nat → List Nat → List Nat
  zlibC : List Nat → List Nat
  zlibD : List Nat → List Nat
  sha : List Nat → List Nat
  decompress_compress : ∀ s, decompress (compress s) = s
  decompressD_compressD : ∀ d s, decompressD d (compressD d s) = s
  zlibD_zlibC : ∀ s, zlibD (zlibC s) = s
  sha_injective : Function.Injective sha

/-- A concrete instance for witnesses: "compression" prepends a 9-byte frame
header (a real zstd frame is at least 9 bytes), the archive codec prepends 2
bytes, and the hash is the identity. -/
def padExt : Ext where
  compress s := List.replicate 9 0 ++ s
  decompress s := s.drop 9
  compressD _ s := List.replicate 9 0 ++ s
  decompressD _ s := s.drop 9
  zlibC s := List.replicate 2 0 ++ s
  zlibD s := s.drop 2
  sha s := s
  decompress_compress := by intro s; simp
  decompressD_compressD := by intro d s; simp
  zlibD_zlibC := by intro s; simp
  sha_injective := fun _ _ h => h

instance exceptDecEq {ε α : Type} [DecidableEq ε] [DecidableEq α] :
    DecidableEq (Except ε α)
  | .error a, .error b =>
    if h : a = b then .isTrue (congrArg _ h)
    else .isFalse (fun hc => h (Except.error.inj hc))
  | .error _, .ok _ => .isFalse Except.noConfusion
  | .ok _, .error _ => .isFalse Except.noConfusion
  | .ok a, .ok b =>
    if h : a = b then .isTrue (congrArg _ h)
    else .isFalse (fun hc => h (Except.ok.inj hc))

/-! ## Store (`store.py`)

`ChunkEntry` and `MemoryCogStore`.  The Python object graph shares one
mutable `ChunkEntry` between `_by_id` and `_by_sha`; the model keeps the
entries in `by_id` and lets `by_sha` map a digest to the chunk id, so every
mutation is written once.  `data = none` models `entry.data = None` (cold).
The archival thresholds are class attributes in the source, overridden per
instance by the tests; they are fields with the source's defaults here. -/

structure ChunkEntry where
  chunk_id : Nat
  sha256 : List Nat
  simhash : Nat
  data : Option (List Nat)
  ref_count : Nat
  last_access : Nat
deriving Repr, DecidableEq

structure MemStore where
  by_id : List (Nat × ChunkEntry)
  by_sha : List (List Nat × Nat)
  lsh : LSHIndex
  next_id : Nat
  cooccurrence : List (Nat × List (Nat × Nat))
  data_chunks : List (String × List Nat)
  cold_archive : List (Nat × List Nat)
  cold_meta : List (Nat × (List Nat × Nat))
  COLD_REF_COUNT : Nat
  COLD_AGE_SECONDS : Nat
  ARCHIVE_TRIGGER : Nat
  ARCHIVE_KEEP_WARM : Nat
deriving Repr, DecidableEq

def MemStore.empty : MemStore :=
  ⟨[], [], LSHIndex.empty, 0, [], [], [], [], 1, 60, 500, 200⟩

/-- The bytes `get(cid)` would hand back: the in-memory `data`, or the
re-inflated cold archive blob. -/
def MemStore.obtain (M : Ext) (st : MemStore) (cid : Nat) : Option (List Nat) :=
  match alistGet st.by_id cid with
  | none => none
  | some e =>
    match e.data with
    | some d => some d
    | none => (alistGet st.cold_archive cid).map M.zlibD

/-- `MemoryCogStore.lookup_exact`: side effect bumps `ref_count` and
`last_access`. -/
def MemStore.lookup_exact (st : MemStore) (now : Nat) (sha : List Nat) :
    Option ChunkEntry × MemStore :=
  match alistGet st.by_sha sha with
  | none => (none, st)
  | some cid =>
    match alistGet st.by_id cid with
    | none => (none, st)  -- model artifact: `by_sha` always maps into `by_id`
    | some e =>
      let e' := { e with ref_count := e.ref_count + 1, last_access := now }
      (some e', { st with by_id := alistSet st.by_id cid e' })

/-- `MemoryCogStore.lookup_similar`: LSH query, then `self._by_id[best_id]`
(a `KeyError` — hence `Except` — if the index holds an id the store lacks);
bumps `last_access` only. -/
def MemStore.lookup_similar (st : MemStore) (now : Nat) (sh : Nat) :
    Except String (Option ChunkEntry × MemStore) :=
  match st.lsh.query_nearest sh with
  | none => .ok (none, st)
  | some bid =>
    match alistGet st.by_id bid with
    | none => .error "KeyError: best_id not in _by_id"
    | some e =>
      let e' := { e with last_access := now }
      .ok (some e', { st with by_id := alistSet st.by_id bid e' })

/-- The loop body of `_archive_cold`: zlib-compress one candidate's data
into the cold archive, record its metadata, clear the entry's `data`. -/
def archiveStep (M : Ext) (acc : MemStore × Nat) (c : Nat × Nat × Nat) : MemStore × Nat :=
  let (s, n) := acc
  match alistGet s.by_id c.2.2 with
  | none => (s, n)  -- model artifact: candidates come from `by_id`
  | some e =>
    match e.data with
    | none => (s, n)  -- `if entry.data is not None`
    | some d =>
      ({ s with cold_archive := alistSet s.cold_archive c.2.2 (M.zlibC d),
                cold_meta := alistSet s.cold_meta c.2.2 (e.sha256, e.simhash),
                by_id := alistSet s.by_id c.2.2 { e with data := none } },
       n + 1)

/-- `MemoryCogStore._archive_cold`: pick warm entries with
`ref_count ≤ COLD_REF_COUNT` and `now − last_access > COLD_AGE_SECONDS`,
sort by `(ref_count, last_access, cid)`, archive all but the
`ARCHIVE_KEEP_WARM` most-kept warm entries: data moves zlib-compressed into
`cold_archive`, metadata into `cold_meta`, and `data` becomes `none`.
Returns the store and the number archived.  Note: the chunk is NOT removed
from the LSH index. -/
def MemStore.archive_cold (M : Ext) (st : MemStore) (now : Nat) : MemStore × Nat :=
  let candidates := (st.by_id.filter fun p =>
      p.2.data.isSome ∧ p.2.ref_count ≤ st.COLD_REF_COUNT ∧
        now - p.2.last_access > st.COLD_AGE_SECONDS).map
    (fun p => (p.2.ref_count, p.2.last_access, p.1))
  if candidates.isEmpty then (st, 0)
  else
    let sorted := stableSort
      (fun a b => a.1 < b.1 ∨ (a.1 = b.1 ∧ (a.2.1 < b.2.1 ∨ (a.2.1 = b.2.1 ∧ a.2.2 ≤ b.2.2))))
      candidates
    let warm_count := (st.by_id.filter fun p => p.2.data.isSome).length
    let max_to_archive := warm_count - st.ARCHIVE_KEEP_WARM
    let to_archive := sorted.take max_to_archive
    to_archive.foldl (archiveStep M) (st, 0)

/-- `MemoryCogStore.store`: return the existing entry (promoting its data out
of the cold archive if needed) with `ref_count` bumped, or insert a fresh
entry, index it, and auto-archive on the `> ARCHIVE_TRIGGER`, `% 100 == 0`
schedule. -/
def MemStore.store (M : Ext) (st : MemStore) (now : Nat) (data : List Nat) :
    ChunkEntry × MemStore :=
  let sha := M.sha data
  match alistGet st.by_sha sha with
  | some cid =>
    match alistGet st.by_id cid with
    | none => (⟨0, [], 0, none, 0, 0⟩, st)  -- model artifact: `by_sha` maps into `by_id`
    | some e =>
      let promoted : ChunkEntry × List (Nat × List Nat) :=
        match e.data, alistGet st.cold_archive cid with
        | none, some z => ({ e with data := some (M.zlibD z) }, alistPop st.cold_archive cid)
        | _, _ => (e, st.cold_archive)
      let e' := { promoted.1 with ref_count := promoted.1.ref_count + 1, last_access := now }
      (e', { st with by_id := alistSet st.by_id cid e', cold_archive := promoted.2 })
  | none =>
    let cid := st.next_id
    let sh := simhash64 data
    let e : ChunkEntry := ⟨cid, sha, sh, some data, 1, now⟩
    let st1 := { st with by_id := alistSet st.by_id cid e,
                         by_sha := alistSet st.by_sha sha cid,
                         lsh := st.lsh.insert cid sh,
                         next_id := cid + 1 }
    let st2 := if st1.by_id.length > st1.ARCHIVE_TRIGGER ∧ st1.by_id.length % 100 = 0
      then (st1.archive_cold M now).1 else st1
    (e, st2)

/-- The store state `store` builds in its fresh-insert branch (named so the
proofs can speak about it without repeating the record). -/
def storeFresh (M : Ext) (st : MemStore) (now : Nat) (data : List Nat) : MemStore :=
  { st with by_id := alistSet st.by_id st.next_id
              ⟨st.next_id, M.sha data, simhash64 data, some data, 1, now⟩,
            by_sha := alistSet st.by_sha (M.sha data) st.next_id,
            lsh := st.lsh.insert st.next_id (simhash64 data),
            next_id := st.next_id + 1 }

/-- `MemoryCogStore.get`: cold data is decompressed on demand (and written
back into the entry, without popping the archive). -/
def MemStore.get (M : Ext) (st : MemStore) (cid : Nat) : Option ChunkEntry × MemStore :=
  match alistGet st.by_id cid with
  | none => (none, st)
  | some e =>
    match e.data, alistGet st.cold_archive cid with
    | none, some z =>
      let e' := { e with data := some (M.zlibD z) }
      (some e', { st with by_id := alistSet st.by_id cid e' })
    | _, _ => (some e, st)

/-- `MemoryCogStore.record_cooccurrence`: for every pair of positions
`i ≠ j`, bump the directed edge `ids[i] → ids[j]`. -/
def MemStore.record_cooccurrence (st : MemStore) (ids : List Nat) : MemStore :=
  let cooc := ids.enum.foldl
    (fun c (ia : Nat × Nat) =>
      let inner0 := (alistGet c ia.2).getD []
      let inner := ids.enum.foldl
        (fun m (jb : Nat × Nat) =>
          if ia.1 ≠ jb.1 then alistSet m jb.2 (((alistGet m jb.2).getD 0) + 1) else m)
        inner0
      alistSet c ia.2 inner)
    st.cooccurrence
  { st with cooccurrence := cooc }

/-- `MemoryCogStore.get_predicted_chunks`: neighbours of `chunk_id` sorted by
descending co-occurrence count (Python's stable sort: ties keep insertion
order), truncated to `top_k`, mapped to live entries. -/
def MemStore.get_predicted_chunks (st : MemStore) (chunkId : Nat) (topK : Nat := 5) :
    List ChunkEntry :=
  let neighbors := (alistGet st.cooccurrence chunkId).getD []
  if neighbors.isEmpty then []
  else
    let sortedIds := (stableSort (fun a b => b.2 ≤ a.2) neighbors).take topK
    sortedIds.filterMap (fun p => alistGet st.by_id p.1)

/-- `MemoryCogStore.register_data_chunks` (the caller passes a Python set;
modelled as the ascending duplicate-free list of the ids). -/
def MemStore.register_data_chunks (st : MemStore) (dataId : String) (ids : List Nat) :
    MemStore :=
  { st with data_chunks := alistSet st.data_chunks dataId (setUnion [] ids) }

def MemStore.get_chunk_ids_for_data (st : MemStore) (dataId : String) : List Nat :=
  (alistGet st.data_chunks dataId).getD []

/-! ## Predictor (`predictor.py`)

`PredictiveCompressor`: a bounded insertion-ordered cache from trigger chunk
id to `(dictionary, ids)`.  `zstd.ZstdCompressionDict` wraps raw bytes; the
model identifies the dictionary with its bytes.  The source's `_recent_ids`
list is initialised but never used and is omitted. -/

def dataTruthy : Option (List Nat) → Bool
  | some (_ :: _) => true
  | _ => false

structure Predictor where
  dict_cache_size : Nat
  dict_cache : List (Nat × (List Nat × List Nat))
deriving Repr, DecidableEq

def Predictor.init (cacheSize : Nat := 256) : Predictor := ⟨cacheSize, []⟩

/-- `PredictiveCompressor.get_dictionary_and_ids`: cached entry, or build one
from the store's top-5 co-occurring chunks, dropping entries with empty or
unavailable data, refusing dictionaries under 64 bytes, and evicting the
oldest cache entry (`next(iter(dict))` = first key) at capacity. -/
def Predictor.get_dictionary_and_ids (p : Predictor) (st : MemStore) (trigger : Nat) :
    Option (List Nat × List Nat) × Predictor :=
  match alistGet p.dict_cache trigger with
  | some entry => (some entry, p)
  | none =>
    let predicted := st.get_predicted_chunks trigger 5
    if predicted.isEmpty then (none, p)
    else
      let kept := predicted.filter (fun e => dataTruthy e.data)
      let dict_chunk_ids := kept.map (fun e => e.chunk_id)
      let dict_content := (kept.map (fun e => e.data.getD [])).flatten
      if dict_content.length < 64 then (none, p)
      else
        let cache1 := if p.dict_cache.length ≥ p.dict_cache_size then
            match p.dict_cache with
            | [] => []
            | (k, _) :: _ => alistPop p.dict_cache k
          else p.dict_cache
        (some (dict_content, dict_chunk_ids),
         { p with dict_cache := alistSet cache1 trigger (dict_content, dict_chunk_ids) })

/-- `PredictiveCompressor.update_after_encode`: record co-occurrence in the
store, then warm the cache for the last three emitted ids. -/
def Predictor.update_after_encode (p : Predictor) (st : MemStore) (ids : List Nat) :
    MemStore × Predictor :=
  if ids.length < 2 then (st, p)
  else
    let st1 := st.record_cooccurrence ids
    let p1 := (ids.drop (ids.length - 3)).foldl
      (fun pr cid =>
        match alistGet pr.dict_cache cid with
        | some _ => pr
        | none => (pr.get_dictionary_and_ids st1 cid).2)
      p
    (st1, p1)

def Predictor.invalidate (p : Predictor) (cid : Nat) : Predictor :=
  { p with dict_cache := alistPop p.dict_cache cid }

/-! ## Codec (`codec.py`): UCOG v2 wire format

Tokens are materialised as an inductive plus a serialiser; the source builds
the same bytes directly into a `bytearray` (one token per loop iteration). -/

def MAGIC : List Nat := [0x55, 0x43, 0x4F, 0x47]
def VERSION : Nat := 2

inductive Token where
  | ref (chunkId : Nat)
  | delta (refId : Nat) (deltaBytes : List Nat)
  | full (z : List Nat)
  | pred (dictIds : List Nat) (deltaBytes : List Nat)
deriving Repr, DecidableEq

def serializeToken : Token → List Nat
  | .ref cid => 0x00 :: encodeUvarint cid
  | .delta rid d => 0x01 :: (encodeUvarint rid ++ encodeUvarint d.length ++ d)
  | .full z => 0x02 :: (encodeUvarint z.length ++ z)
  | .pred ids d =>
    0x03 :: (encodeUvarint ids.length ++ (ids.map encodeUvarint).flatten ++
      encodeUvarint d.length ++ d)

structure Stats where
  ref : Nat
  delta : Nat
  full : Nat
  pred_delta : Nat
  chunks : Nat
deriving Repr, DecidableEq

def Stats.zero : Stats := ⟨0, 0, 0, 0, 0⟩

def Token.isRef : Token → Bool | .ref _ => true | _ => false
def Token.isDelta : Token → Bool | .delta _ _ => true | _ => false
def Token.isFull : Token → Bool | .full _ => true | _ => false
def Token.isPred : Token → Bool | .pred _ _ => true | _ => false

/-- `stats[best_type] += 1`, keyed by the emitted token's kind. -/
def Stats.bump (s : Stats) : Token → Stats
  | .ref _ => { s with ref := s.ref + 1 }
  | .delta _ _ => { s with delta := s.delta + 1 }
  | .full _ => { s with full := s.full + 1 }
  | .pred _ _ => { s with pred_delta := s.pred_delta + 1 }

/-- The PRED_DELTA candidate selection shared by the batch loop and the
streaming `_emit_chunk` (the source duplicates this block verbatim): ask the
predictor for a dictionary keyed by the previously emitted chunk id and keep
the PRED token only when it serialises strictly shorter. -/
def predSelect (M : Ext) (st : MemStore) (arg : Option Predictor)
    (chunkIds chunk : List Nat) (b : Token) : Token × Option Predictor :=
  match arg with
  | some pr =>
    match chunkIds.getLast? with
    | some lastId =>
      let (res, pr1) := pr.get_dictionary_and_ids st lastId
      match res with
      | some di =>
        let t : Token := .pred di.2 (M.compressD di.1 chunk)
        (if (serializeToken t).length < (serializeToken b).length then t else b, some pr1)
      | none => (b, some pr1)
    | none => (b, some pr)
  | none => (b, none)

/-- The per-chunk body of the `cogdedup_encode` loop: exact-match REF
shortcut, otherwise the shortest of FULL / DELTA / PRED_DELTA; the winning
chunk is stored and its id appended to the batch. -/
def encodeChunkStep (M : Ext) (now : Nat) (st : MemStore) (arg : Option Predictor)
    (chunkIds : List Nat) (chunk : List Nat) :
    Except String (Token × MemStore × Option Predictor × List Nat) := do
  let sha := M.sha chunk
  let sh := simhash64 chunk
  let (exact, st) := st.lookup_exact now sha
  match exact with
  | some e => return (.ref e.chunk_id, st, arg, chunkIds ++ [e.chunk_id])
  | none =>
    let best0 : Token := .full (M.compress chunk)
    let (similar, st) ← st.lookup_similar now sh
    let best1 ← match similar with
      | some sim =>
        match sim.data with
        | none => throw "TypeError: delta base data is None"
        | some sdata =>
          let t : Token := .delta sim.chunk_id (M.compressD sdata chunk)
          pure (if (serializeToken t).length < (serializeToken best0).length then t else best0)
      | none => pure best0
    let (best2, arg2) := predSelect M st arg chunkIds chunk best1
    let (entry, st) := st.store M now chunk
    return (best2, st, arg2, chunkIds ++ [entry.chunk_id])

/-- The chunk list the encoder iterates: `content_defined_chunks(data)`,
replaced by `[data]`/`[b""]` when empty. -/
def encodeChunkList (data : List Nat) : List (List Nat) :=
  let chunks := content_defined_chunks data
  if chunks.isEmpty then (if data.isEmpty then [[]] else [data]) else chunks

/-- `cogdedup_encode` of `codec.py` (no real predictor data flows when
`arg = none`): returns the UCOG blob, the stats record, and the mutated
store and predictor. -/
def cogdedup_encode (M : Ext) (now : Nat) (data : List Nat) (st : MemStore)
    (dataId : String := "") (arg : Option Predictor := none) :
    Except String (List Nat × Stats × MemStore × Option Predictor) := do
  let chunks := encodeChunkList data
  let r ← chunks.foldlM
    (fun (acc : List Token × Stats × MemStore × Option Predictor × List Nat) chunk => do
      let (toks, stats, st, p, ids) := acc
      let (tok, st, p, ids) ← encodeChunkStep M now st p ids chunk
      return (toks ++ [tok], stats.bump tok, st, p, ids))
    ([], { Stats.zero with chunks := chunks.length }, st, arg, [])
  let (tokens, stats, st1, p1, chunkIds) := r
  let (st2, p2) : MemStore × Option Predictor := match p1 with
    | some pr =>
      if chunkIds.length ≥ 2 then
        let sp := pr.update_after_encode st1 chunkIds
        (sp.1, some sp.2)
      else (st1, some pr)
    | none => (st1, none)
  let st3 := if dataId ≠ "" then st2.register_data_chunks dataId chunkIds else st2
  let blob := MAGIC ++ [VERSION] ++ encodeUvarint chunks.length ++
    (tokens.map serializeToken).flatten
  return (blob, stats, st3, p2)

/-- Read `k` uvarints (the PRED_DELTA dictionary id list). -/
def readUvarints : Nat → List Nat → Option (List Nat × List Nat)
  | 0, rest => some ([], rest)
  | k + 1, rest =>
    match decodeUvarint rest with
    | none => none
    | some (v, rest1) =>
      match readUvarints k rest1 with
      | none => none
      | some (vs, rest2) => some (v :: vs, rest2)

/-- The PRED_DELTA dictionary rebuild of `cogdedup_decode`: concatenate the
`data` of each listed id that resolves to an entry with non-empty data
(ids that are unknown or whose data is unavailable are skipped), threading
the store because `get` re-inflates cold data. -/
def rebuildDictFold (M : Ext) (ids : List Nat) (st : MemStore) (acc0 : List Nat) :
    List Nat × MemStore :=
  ids.foldl
    (fun (acc : List Nat × MemStore) did =>
      let (content, s) := acc
      let (e, s1) := s.get M did
      match e with
      | some entry =>
        match entry.data with
        | some (d :: ds) => (content ++ (d :: ds), s1)
        | _ => (content, s1)
      | none => (content, s1))
    (acc0, st)

def rebuildDict (M : Ext) (st : MemStore) (ids : List Nat) : List Nat × MemStore :=
  rebuildDictFold M ids st []

/-- The token loop of `cogdedup_decode`: `n` tokens from the byte suffix.
Python appends `None` to `parts` when a REF resolves to an entry without
data; the `b"".join` at the end then raises — modelled as an immediate
error. -/
def decodeChunks (M : Ext) : Nat → List Nat → MemStore → List (List Nat) →
    Except String (List (List Nat) × MemStore)
  | 0, _, st, parts => .ok (parts, st)
  | n + 1, rest, st, parts =>
    match rest with
    | [] => .error "IndexError: truncated blob"
    | tag :: rest1 =>
      if tag = 0x00 then
        match decodeUvarint rest1 with
        | none => .error "truncated uvarint"
        | some (cid, rest2) =>
          let (e, st1) := st.get M cid
          match e with
          | none => .error "REF to unknown chunk_id"
          | some entry =>
            match entry.data with
            | none => .error "TypeError: joining None part"
            | some d => decodeChunks M n rest2 st1 (parts ++ [d])
      else if tag = 0x01 then
        match decodeUvarint rest1 with
        | none => .error "truncated uvarint"
        | some (rid, rest2) =>
          match decodeUvarint rest2 with
          | none => .error "truncated uvarint"
          | some (dlen, rest3) =>
            let deltaBytes := rest3.take dlen
            let rest4 := rest3.drop dlen
            let (e, st1) := st.get M rid
            match e with
            | none => .error "DELTA ref to unknown chunk_id"
            | some entry =>
              match entry.data with
              | none => .error "TypeError: delta base data is None"
              | some d => decodeChunks M n rest4 st1 (parts ++ [M.decompressD d deltaBytes])
      else if tag = 0x02 then
        match decodeUvarint rest1 with
        | none => .error "truncated uvarint"
        | some (dlen, rest2) =>
          let z := rest2.take dlen
          decodeChunks M n (rest2.drop dlen) st (parts ++ [M.decompress z])
      else if tag = 0x03 then
        match decodeUvarint rest1 with
        | none => .error "truncated uvarint"
        | some (k, rest2) =>
          match readUvarints k rest2 with
          | none => .error "truncated uvarint"
          | some (dictIds, rest3) =>
            match decodeUvarint rest3 with
            | none => .error "truncated uvarint"
            | some (dlen, rest4) =>
              let deltaBytes := rest4.take dlen
              let rest5 := rest4.drop dlen
              let (dictContent, st1) := rebuildDict M st dictIds
              if dictContent.isEmpty then
                .error "PRED_DELTA: cannot rebuild dictionary"
              else
                decodeChunks M n rest5 st1 (parts ++ [M.decompressD dictContent deltaBytes])
      else .error "unknown chunk type"

/-- `cogdedup_decode` of `codec.py`. -/
def cogdedup_decode (M : Ext) (blob : List Nat) (st : MemStore) :
    Except String (List Nat × MemStore) := do
  if blob.take 4 ≠ MAGIC then throw "not a UCOG blob" else
  match blob.drop 4 with
  | [] => throw "IndexError: missing version byte"
  | ver :: rest =>
    if ¬ (ver = 1 ∨ ver = 2) then throw "unsupported UCOG version" else
    match decodeUvarint rest with
    | none => throw "truncated uvarint"
    | some (nChunks, rest1) => do
      let (parts, st1) ← decodeChunks M nChunks rest1 st []
      return (parts.flatten, st1)

/-! ## Streaming encoder (`streaming.py`)

`CogdedupStream`: the rolling-fingerprint chunker run incrementally, with
each detected chunk encoded immediately by `_emit_chunk` (the same decision
procedure as the batch loop, duplicated in the source and therefore
duplicated here).  The store is threaded alongside the stream state. -/

structure CogdedupStream where
  dataId : String
  predictorState : Option Predictor
  fp : Nat
  buf : List Nat
  chunk_start : Nat
  tokens : List Token
  n_chunks : Nat
  chunk_ids : List Nat
  stats : Stats
  total_fed : Nat
  finished : Bool
deriving Repr, DecidableEq

def CogdedupStream.init (dataId : String := "") (arg : Option Predictor := none) :
    CogdedupStream :=
  ⟨dataId, arg, 0, [], 0, [], 0, [], Stats.zero, 0, false⟩

/-- `CogdedupStream._emit_chunk`: encode one chunk against the store and
append the winning token to the write-ahead log. -/
def CogdedupStream.emitChunk (M : Ext) (now : Nat) (st : MemStore) (s : CogdedupStream)
    (chunk : List Nat) : Except String (MemStore × CogdedupStream) := do
  let sha := M.sha chunk
  let sh := simhash64 chunk
  let (exact, st) := st.lookup_exact now sha
  match exact with
  | some e =>
    return (st, { s with stats := { s.stats with ref := s.stats.ref + 1 },
                         chunk_ids := s.chunk_ids ++ [e.chunk_id],
                         tokens := s.tokens ++ [.ref e.chunk_id],
                         n_chunks := s.n_chunks + 1 })
  | none =>
    let best0 : Token := .full (M.compress chunk)
    let (similar, st) ← st.lookup_similar now sh
    let best1 ← match similar with
      | some sim =>
        match sim.data with
        | none => throw "TypeError: delta base data is None"
        | some sdata =>
          let t : Token := .delta sim.chunk_id (M.compressD sdata chunk)
          pure (if (serializeToken t).length < (serializeToken best0).length then t else best0)
      | none => pure best0
    let (best2, p2) := predSelect M st s.predictorState s.chunk_ids chunk best1
    let (entry, st) := st.store M now chunk
    return (st, { s with stats := s.stats.bump best2,
                         chunk_ids := s.chunk_ids ++ [entry.chunk_id],
                         tokens := s.tokens ++ [best2],
                         n_chunks := s.n_chunks + 1,
                         predictorState := p2 })

/-- One byte of `CogdedupStream.feed`: update the buffer and fingerprint, and
emit a chunk at a boundary. -/
def CogdedupStream.feedByte (M : Ext) (now : Nat) (acc : MemStore × CogdedupStream)
    (b : Nat) : Except String (MemStore × CogdedupStream) :=
  let (st, s0) := acc
  let s := { s0 with buf := s0.buf ++ [b],
                     fp := ((s0.fp * 2) ^^^ b) % 2 ^ 64,
                     total_fed := s0.total_fed + 1 }
  let chunkLen := s.buf.length - s.chunk_start
  if chunkLen < MIN_CHUNK then .ok (st, s)
  else if chunkLen ≥ MAX_CHUNK ∨ s.fp &&& MASK = 0 then do
    let (st1, s1) ← CogdedupStream.emitChunk M now st s (s.buf.drop s.chunk_start)
    return (st1, { s1 with buf := [], chunk_start := 0, fp := 0 })
  else .ok (st, s)

/-- `CogdedupStream.feed`. -/
def CogdedupStream.feed (M : Ext) (now : Nat) (st : MemStore) (s : CogdedupStream)
    (data : List Nat) : Except String (MemStore × CogdedupStream) :=
  if s.finished then .error "stream already finished"
  else data.foldlM (CogdedupStream.feedByte M now) (st, s)

/-- `CogdedupStream.finish`: flush the trailing buffer, assemble the blob,
then run the post-encode predictor update and data-id registration. -/
def CogdedupStream.finish (M : Ext) (now : Nat) (st : MemStore) (s : CogdedupStream) :
    Except String (List Nat × Stats × MemStore × CogdedupStream) := do
  if s.finished then throw "stream already finished" else
  let s1 := { s with finished := true }
  let remaining := s1.buf.drop s1.chunk_start
  let (st2, s2) ← if remaining.isEmpty then pure (st, s1)
    else CogdedupStream.emitChunk M now st s1 remaining
  let blob := MAGIC ++ [VERSION] ++ encodeUvarint s2.n_chunks ++
    (s2.tokens.map serializeToken).flatten
  let stats := { s2.stats with chunks := s2.n_chunks }
  let (st3, s3) : MemStore × CogdedupStream := match s2.predictorState with
    | some pr =>
      if s2.chunk_ids.length ≥ 2 then
        let sp := pr.update_after_encode st2 s2.chunk_ids
        (sp.1, { s2 with predictorState := some sp.2 })
      else (st2, s2)
    | none => (st2, s2)
  let st4 := if s3.dataId ≠ "" then st3.register_data_chunks s3.dataId s3.chunk_ids else st3
  return (blob, stats, st4, s3)

/-! ## Anomaly detector (`anomaly.py`)

Sliding z-score over compression ratios.  Python floats are modelled as real
numbers, so these definitions are noncomputable (`Real.sqrt`); the
`timestamp` field (wall clock) and the `round(·, 2)` display rounding of the
drift report are omitted — no claim reads them, and `is_drifting` is
computed from the unrounded values in the source. -/

inductive Severity | low | medium | high
deriving DecidableEq, Repr

structure AnomalyAlert where
  label : String
  rat : ℝ
  z_score : ℝ
  mean : ℝ
  std : ℝ
  severity : Severity

structure AnomalyDetector where
  window_size : Nat
  z_low : ℝ
  z_high : ℝ
  history : List ℝ
  alerts : List AnomalyAlert
  observation_count : Nat

noncomputable def AnomalyDetector.init (windowSize : Nat := 50) (zLow : ℝ := -2)
    (zHigh : ℝ := 3) : AnomalyDetector :=
  ⟨windowSize, zLow, zHigh, [], [], 0⟩

/-- `deque(maxlen=w).append`: push right, evict left when over capacity. -/
def pushWindow (w : Nat) (h : List ℝ) (x : ℝ) : List ℝ :=
  let h1 := h ++ [x]
  if h1.length > w then h1.drop (h1.length - w) else h1

/-- `AnomalyDetector.observe`: append-only below 5 entries; otherwise flag a
window z-score outside `[z_low, z_high]` (std floored at 0.001 when the
window variance is 0), then append. -/
noncomputable def AnomalyDetector.observe (d : AnomalyDetector) (rat : ℝ)
    (label : String := "") : AnomalyDetector × Option AnomalyAlert :=
  let d0 := { d with observation_count := d.observation_count + 1 }
  if d0.history.length < 5 then
    ({ d0 with history := pushWindow d0.window_size d0.history rat }, none)
  else
    let n : ℝ := d0.history.length
    let mean := d0.history.sum / n
    let variance := (d0.history.map (fun x => (x - mean) ^ 2)).sum / n
    let std := if variance > 0 then Real.sqrt variance else 0.001
    let z := (rat - mean) / std
    let alert : Option AnomalyAlert :=
      if z < d0.z_low then
        some { label := label, rat := rat, z_score := z, mean := mean, std := std,
               severity := if z < d0.z_low * 1.5 then .high else .medium }
      else if z > d0.z_high then
        some { label := label, rat := rat, z_score := z, mean := mean, std := std,
               severity := if z > d0.z_high * 1.5 then .medium else .low }
      else none
    ({ d0 with history := pushWindow d0.window_size d0.history rat,
               alerts := d0.alerts ++ alert.toList }, alert)

structure DriftReport where
  window_size : Nat
  current_mean : ℝ
  current_std : ℝ
  trend : ℝ
  alerts_count : Nat
  is_drifting : Prop

/-- `AnomalyDetector.drift_report`: trend is (mean of second half) − (mean of
first half); drifting iff `|trend| > std` (or `> 0.5` when std is 0). -/
noncomputable def AnomalyDetector.drift_report (d : AnomalyDetector) : DriftReport :=
  if d.history.length < 2 then
    { window_size := d.history.length,
      current_mean := d.history.sum / (max 1 d.history.length : Nat),
      current_std := 0, trend := 0, alerts_count := d.alerts.length,
      is_drifting := False }
  else
    let n : ℝ := d.history.length
    let mean := d.history.sum / n
    let variance := (d.history.map (fun x => (x - mean) ^ 2)).sum / n
    let std := if variance > 0 then Real.sqrt variance else 0
    let half := d.history.length / 2
    let firstHalf := (d.history.take half).sum / ((max 1 half : Nat) : ℝ)
    let secondHalf := (d.history.drop half).sum /
      ((max 1 (d.history.length - half) : Nat) : ℝ)
    let trend := secondHalf - firstHalf
    { window_size := d.history.length,
      current_mean := mean,
      current_std := std,
      trend := trend,
      alerts_count := d.alerts.length,
      is_drifting := if std > 0 then |trend| > std else |trend| > 0.5 }

/-- The S5 harness: feed a sequence of ratios, collecting the returned
alerts in order. -/
noncomputable def observeSeq (d : AnomalyDetector) (rats : List ℝ) :
    AnomalyDetector × List (Option AnomalyAlert) :=
  rats.foldl
    (fun (acc : AnomalyDetector × List (Option AnomalyAlert)) r =>
      let (d1, a) := acc.1.observe r ""
      (d1, acc.2 ++ [a]))
    (d, [])

/-! ## Concrete states used by counterexamples -/

/-- A one-chunk store for the C7 counterexample: chunk 0 holds `[1]`. -/
def c7Store : MemStore :=
  ⟨[(0, ⟨0, [1], 0, some [1], 1, 0⟩)], [([1], 0)], LSHIndex.empty, 1,
   [], [], [], [], 1, 60, 500, 200⟩

/-- A store holding one chunk `[1, 2, 3]`, with the archival thresholds the
tests use (`ARCHIVE_KEEP_WARM = 0`, `COLD_AGE_SECONDS = 0`). -/
def c5Store : MemStore :=
  (MemStore.store padExt
    { MemStore.empty with ARCHIVE_KEEP_WARM := 0, COLD_AGE_SECONDS := 0 } 0 [1, 2, 3]).2


/-- The store state after encoding the empty input against a fresh store
(one stored empty chunk). -/
def c8Store (M : Ext) (now : Nat) : MemStore := (MemStore.store M MemStore.empty now []).2

/-- The blob `cogdedup_encode` produces for `[1, 2, 3]` against a fresh
store: header plus one FULL token. -/
def c1Blob : List Nat :=
  MAGIC ++ [VERSION] ++ encodeUvarint 1 ++
    serializeToken (.full (padExt.compress [1, 2, 3]))

/-- The store after that encode (one stored chunk). -/
def c1Store : MemStore := (MemStore.store padExt MemStore.empty 0 [1, 2, 3]).2

/-- An internally inconsistent store: `by_sha` maps the digest of `[1]`
(`padExt.sha` is the identity) to chunk 0, whose stored bytes are `[2]`. -/
def c1BadStore : MemStore :=
  ⟨[(0, ⟨0, [1], 0, some [2], 1, 0⟩)], [([1], 0)], LSHIndex.empty, 1,
   [], [], [], [], 1, 60, 500, 200⟩

/-- `c1BadStore` after the encoder's `lookup_exact` bumped the entry. -/
def c1BadStoreAfter : MemStore :=
  ⟨[(0, ⟨0, [1], 0, some [2], 2, 0⟩)], [([1], 0)], LSHIndex.empty, 1,
   [], [], [], [], 1, 60, 500, 200⟩

/-- An `Ext` instance whose dictionary compressor actually exploits the
dictionary: a chunk equal to `dict ++ [7]` compresses to zero bytes (so a
PRED token can win the length race in a witness run). -/
def dictExt : Ext where
  compress s := List.replicate 9 0 ++ s
  decompress s := s.drop 9
  compressD d s := if s = d ++ [7] then [] else List.replicate 9 0 ++ s
  decompressD d t := if t = [] then d ++ [7] else t.drop 9
  zlibC s := List.replicate 2 0 ++ s
  zlibD s := s.drop 2
  sha s := s
  decompress_compress := by intro s; simp
  decompressD_compressD := by
    intro d s
    by_cases h : s = d ++ [7]
    · simp [h]
    · simp [h]
  zlibD_zlibC := by intro s; simp
  sha_injective := fun _ _ h => h

/-- A store holding one 64-byte chunk (id 0) whose bytes also sit in the
predictor's dictionary cache. -/
def c10Store : MemStore :=
  ⟨[(0, ⟨0, List.replicate 64 1, 0, some (List.replicate 64 1), 1, 0⟩)],
   [(List.replicate 64 1, 0)], LSHIndex.empty, 1, [], [], [], [], 1, 60, 500, 200⟩

/-- A predictor whose cache maps trigger chunk 0 to the dictionary built
from chunk 0's bytes. -/
def c10Pred : Predictor := ⟨256, [(0, (List.replicate 64 1, [0]))]⟩

/-- The store after the two-chunk witness run for the PRED token claim. -/
def c10StoreAfter : MemStore :=
  (MemStore.store dictExt (c10Store.lookup_exact 0 (List.replicate 64 1)).2 0
    (List.replicate 64 1 ++ [7])).2

/-- The store after encoding `[7]` once against a fresh store. -/
def c4St1 : MemStore := (MemStore.store padExt MemStore.empty 0 [7]).2

/-- `c4St1` after the second encode's `lookup_exact` bumped the entry. -/
def c4St2 : MemStore := (c4St1.lookup_exact 1 [7]).2

/-- `c4St2` after a third encode's `lookup_exact` bumped the entry again. -/
def c4St3 : MemStore := (c4St2.lookup_exact 2 [7]).2

/-! ## Invariants for the round-trip proofs

`obtain` is the observable content of the store (what `get` hands back);
`WF` is the store's internal consistency: entries know their own id, every
`by_sha` key resolves to obtainable bytes hashing to that key, and ids are
below the allocation counter. -/

def MemStore.Extends (M : Ext) (st st' : MemStore) : Prop :=
  ∀ cid d, st.obtain M cid = some d → st'.obtain M cid = some d

def MemStore.KeepsSha (st st' : MemStore) : Prop :=
  ∀ k cid, alistGet st.by_sha k = some cid → alistGet st'.by_sha k = some cid

def WF (M : Ext) (st : MemStore) : Prop :=
  (∀ p ∈ st.by_id, p.2.chunk_id = p.1) ∧
  (∀ q ∈ st.by_sha, ∃ d, st.obtain M q.2 = some d ∧ M.sha d = q.1) ∧
  (∀ p ∈ st.by_id, p.1 < st.next_id)

/-- What decoding one token needs from the store: the token reconstructs the
given chunk. -/
def TokenOK (M : Ext) (st : MemStore) (tok : Token) (chunk : List Nat) : Prop :=
  match tok with
  | .ref cid => st.obtain M cid = some chunk
  | .delta rid d => ∃ base, st.obtain M rid = some base ∧ M.decompressD base d = chunk
  | .full z => M.decompress z = chunk
  | .pred ids d =>
      ids ≠ [] ∧
      (∀ did ∈ ids, ∃ dd, st.obtain M did = some dd ∧ dd ≠ []) ∧
      M.decompressD ((ids.map fun did => ((st.obtain M did).getD [])).flatten) d = chunk

/-- Every predictor cache entry was built from non-empty obtainable chunk
data, and records exactly the concatenation it was built from. -/
def PredWF (M : Ext) (st : MemStore) : Option Predictor → Prop
  | none => True
  | some pr => ∀ q ∈ pr.dict_cache,
      q.2.2 ≠ [] ∧
      (∀ did ∈ q.2.2, ∃ dd, st.obtain M did = some dd ∧ dd ≠ []) ∧
      q.2.1 = (q.2.2.map fun did => ((st.obtain M did).getD [])).flatten

/-- The shape of a token the batch encoder can emit for a chunk: a REF
recorded in `by_sha`, or one of the three compressed forms (whose payload
the compressor produced from the chunk). -/
def TokC4 (M : Ext) (st : MemStore) (tok : Token) (chunk : List Nat) : Prop :=
  (∃ cid, tok = .ref cid ∧ alistGet st.by_sha (M.sha chunk) = some cid ∧ cid < st.next_id) ∨
  tok = .full (M.compress chunk) ∨
  (∃ rid sd, tok = .delta rid (M.compressD sd chunk)) ∨
  (∃ dids dict, tok = .pred dids (M.compressD dict chunk))

/-! # Theorems -/

/-- The fuel of `encodeUvarintGo` is irrelevant once it exceeds the value. -/
theorem encodeUvarintGo_eq (n : Nat) : ∀ f1 f2, n < f1 → n < f2 →
    encodeUvarintGo f1 n = encodeUvarintGo f2 n := by
  induction n using Nat.strong_induction_on with
  | _ n ih =>
    intro f1 f2 h1 h2
    match f1, f2 with
    | g1 + 1, g2 + 1 =>
      simp only [encodeUvarintGo]
      by_cases h : n < 128
      · simp [h]
      · simp only [h, if_false]
        have hd : n / 128 < n := Nat.div_lt_self (by omega) (by omega)
        rw [ih (n / 128) hd g1 g2 (by omega) (by omega)]

/-- The defining recurrence of `encodeUvarint`. -/
theorem encodeUvarint_eq (n : Nat) :
    encodeUvarint n = if n < 128 then [n]
      else (n % 128 + 128) :: encodeUvarint (n / 128) := by
  show encodeUvarintGo (n + 1) n = if n < 128 then [n]
      else (n % 128 + 128) :: encodeUvarintGo (n / 128 + 1) (n / 128)
  conv_lhs => rw [show encodeUvarintGo (n + 1) n = if n < 128 then [n]
    else (n % 128 + 128) :: encodeUvarintGo n (n / 128) from rfl]
  by_cases h : n < 128
  · simp [h]
  · simp only [h, if_false]
    have hd : n / 128 < n := Nat.div_lt_self (by omega) (by omega)
    rw [encodeUvarintGo_eq (n / 128) n (n / 128 + 1) hd (by omega)]

theorem decodeUvarint_encodeUvarint (n : Nat) (rest : List Nat) :
    decodeUvarint (encodeUvarint n ++ rest) = some (n, rest) := by
  induction n using Nat.strong_induction_on with
  | _ n ih =>
    rw [encodeUvarint_eq]
    by_cases h : n < 128
    · simp [h, decodeUvarint]
    · have hd : n / 128 < n := Nat.div_lt_self (by omega) (by omega)
      simp only [h, if_false, List.cons_append, decodeUvarint]
      have hb : ¬ (n % 128 + 128 < 128) := by omega
      simp only [hb, if_false, ih (n / 128) hd]
      have hmod := Nat.div_add_mod n 128
      have heq : n / 128 * 128 + (n % 128 + 128 - 128) = n := by omega
      rw [heq]

/-- The first byte of a LEB128 encoding is below 256 (it is a real byte). -/
theorem encodeUvarint_head_lt (n : Nat) :
    ∀ b ∈ encodeUvarint n, b < 256 := by
  induction n using Nat.strong_induction_on with
  | _ n ih =>
    rw [encodeUvarint_eq]
    by_cases h : n < 128
    · simp [h]; omega
    · have hd : n / 128 < n := Nat.div_lt_self (by omega) (by omega)
      simp only [h, if_false, List.mem_cons]
      rintro b (rfl | hb)
      · omega
      · exact ih _ hd b hb

theorem encodeUvarint_ne_nil (n : Nat) : encodeUvarint n ≠ [] := by
  rw [encodeUvarint_eq]; by_cases h : n < 128 <;> simp [h]

theorem encodeUvarint_length_pos (n : Nat) : 1 ≤ (encodeUvarint n).length := by
  cases hE : encodeUvarint n with
  | nil => exact absurd hE (encodeUvarint_ne_nil n)
  | cons a l => simp

/-- Values below `2^(7*k)` encode in at most `k` bytes. -/
theorem encodeUvarint_length_le (k : Nat) (n : Nat) (h : n < 2 ^ (7 * k)) (hk : 1 ≤ k) :
    (encodeUvarint n).length ≤ k := by
  induction k generalizing n with
  | zero => omega
  | succ k ih =>
    rw [encodeUvarint_eq]
    by_cases hn : n < 128
    · simp [hn]
    · have hk1 : 1 ≤ k := by
        by_contra hk0
        have : k = 0 := by omega
        subst this
        simp [Nat.pow_succ] at h
        omega
      have : n / 128 < 2 ^ (7 * k) := by
        have h7 : 7 * (k + 1) = 7 * k + 7 := by ring
        rw [h7, pow_add] at h
        have : n < 2 ^ (7 * k) * 128 := h
        omega
      simp only [hn, if_false, List.length_cons]
      have := ih (n / 128) this hk1
      omega

/-- One CDC step keeps the "chunks + partial buffer = bytes seen" invariant. -/
theorem cdcStep_concat (chunks buf : List _) (fp b : Nat) :
    ((cdcStep (chunks, buf, fp) b).1).flatten ++ (cdcStep (chunks, buf, fp) b).2.1 =
      chunks.flatten ++ buf ++ [b] := by
  unfold cdcStep
  dsimp only
  split_ifs <;> simp

/-- Invariant of the CDC fold: the chunks plus the partial buffer concatenate
to the input processed so far. -/
theorem cdcFold_concat (data : List Nat) :
    ∀ st : List (List Nat) × List Nat × Nat,
      ((data.foldl cdcStep st).1.flatten ++ (data.foldl cdcStep st).2.1) =
      st.1.flatten ++ st.2.1 ++ data := by
  induction data with
  | nil => intro st; simp
  | cons b rest ih =>
    rintro ⟨chunks, buf, fp⟩
    simp only [List.foldl_cons]
    rw [ih (cdcStep (chunks, buf, fp) b)]
    rcases hstep : cdcStep (chunks, buf, fp) b with ⟨chunks', buf', fp'⟩
    have h := cdcStep_concat chunks buf fp b
    rw [hstep] at h
    simp only at h ⊢
    rw [h]
    simp

/-- `concat (cdcPython data) = data`. -/
theorem cdcPython_flatten (data : List Nat) : (cdcPython data).flatten = data := by
  unfold cdcPython
  rcases hf : data.foldl cdcStep ([], [], 0) with ⟨chunks, buf, fp⟩
  have h := cdcFold_concat data ([], [], 0)
  rw [hf] at h
  simp only at h ⊢
  by_cases hb : buf.isEmpty
  · simp only [hb, if_true]
    have : buf = [] := List.isEmpty_iff.mp hb
    subst this
    simpa using h
  · simp only [hb, if_false]
    simpa using h

theorem content_defined_chunks_flatten (data : List Nat) :
    (content_defined_chunks data).flatten = data := by
  unfold content_defined_chunks
  by_cases h : data.length ≤ MIN_CHUNK
  · by_cases he : data.isEmpty
    · simp [h, he, List.isEmpty_iff.mp he]
    · simp [h, he]
  · simp [h, cdcPython_flatten]

/-! ## C3 — chunker contract -/

/-- C3: for every input, concatenating the chunks of the content-defined
chunker yields the input; a non-empty input shorter than `MIN = 1024` bytes
yields a single chunk equal to the whole input; the empty input yields no
chunks. -/
theorem claim_C3_chunker :
    (∀ x : List Nat, (content_defined_chunks x).flatten = x) ∧
    (∀ x : List Nat, x ≠ [] → x.length < MIN_CHUNK → content_defined_chunks x = [x]) ∧
    content_defined_chunks [] = [] := by
  refine ⟨content_defined_chunks_flatten, ?_, by decide⟩
  intro x hne hlen
  unfold content_defined_chunks
  have h1 : x.length ≤ MIN_CHUNK := le_of_lt hlen
  simp [h1, hne]

/-- Witness for C3 at the concrete input `[7]`. -/
theorem claim_C3_chunker_witness :
    (content_defined_chunks [7]).flatten = [7] ∧ content_defined_chunks [7] = [[7]] :=
  ⟨claim_C3_chunker.1 [7], claim_C3_chunker.2.1 [7] (by decide) (by decide)⟩

/-! ## C8 — empty-input blob

The encoder replaces an empty chunk list by `[b""]`
(`chunks = [data] if data else [b""]`), so the empty input is encoded as ONE
token (a FULL of `zstd(b"")`), not as `UCOG || 2 || 0`; decode still returns
the empty byte string. -/

/-- C8 counterexample: encoding the empty input against a fresh store yields
`UCOG || 2 || uvarint(1) || FULL-token`, which differs from the claimed
`UCOG || 2 || uvarint(0)` blob. -/
theorem claim_C8_counterexample :
    (cogdedup_encode padExt 0 [] MemStore.empty "" none).toOption.map (fun r => r.1) =
      some [85, 67, 79, 71, 2, 1, 2, 9, 0, 0, 0, 0, 0, 0, 0, 0, 0] ∧
    ¬ (cogdedup_encode padExt 0 [] MemStore.empty "" none).toOption.map (fun r => r.1) =
      some (MAGIC ++ [VERSION] ++ encodeUvarint 0) := by
  constructor
  · decide
  · decide

/-! ## C7 — PRED_DELTA dictionary rebuild

The decoder skips referenced ids that are unknown or whose data is
unavailable or empty (`if entry is not None and entry.data`), failing only
when the resulting concatenation is empty. -/

/-- C7 counterexample: a PRED_DELTA token referencing ids `[0, 99]`, where
id 99 is unknown to the store, decodes successfully (the claim requires the
whole decode to fail when any referenced id has unavailable data). -/
theorem claim_C7_counterexample :
    c7Store.obtain padExt 99 = none ∧
    (cogdedup_decode padExt
        (MAGIC ++ [VERSION] ++ encodeUvarint 1 ++
          serializeToken (.pred [0, 99] [5])) c7Store).isOk = true := by
  constructor
  · decide
  · decide

/-! ## C5 — cold demotion and the LSH index

`MemoryCogStore._archive_cold` never calls `self._lsh.remove(cid)`: demoted
chunks keep all their LSH bucket entries, and `lookup_similar` then returns
the cold entry — with `data = None` — as a similarity candidate.  (The
unused `LSHIndex.remove` method and the spec both describe the removal.) -/

/-- C5 failing input evaluated: after `_archive_cold` demotes chunk 0 (its
data is gone from the entry and lives zlib-compressed in the cold archive,
though still obtainable via `get`), the chunk id is still present in an LSH
bucket, and `lookup_similar` returns the cold entry with `data = None`. -/
theorem claim_C5_code_bug :
    ((c5Store.archive_cold padExt 1).2 = 1 ∧
      (alistGet (c5Store.archive_cold padExt 1).1.by_id 0).map ChunkEntry.data =
        some none ∧
      (c5Store.archive_cold padExt 1).1.obtain padExt 0 = some [1, 2, 3]) ∧
    0 ∈ (c5Store.archive_cold padExt 1).1.lsh.query_candidates 0 ∧
    (((c5Store.archive_cold padExt 1).1.lookup_similar 2 0).toOption.map
      (fun r => r.1.map ChunkEntry.data)) = some (some none) := by
  refine ⟨⟨?_, ?_, ?_⟩, ?_, ?_⟩ <;> decide

/-! ## C6 — `query_nearest` -/

theorem insertSorted_mem (x y : Nat) (l : List Nat) :
    y ∈ insertSorted x l ↔ y = x ∨ y ∈ l := by
  induction l with
  | nil => simp [insertSorted]
  | cons z rest ih =>
    unfold insertSorted
    by_cases h1 : x < z
    · simp [h1]
    · by_cases h2 : x = z
      · subst h2
        simp only [h1, if_false, if_true, List.mem_cons]
        tauto
      · simp only [h1, if_false, h2, List.mem_cons, ih]
        tauto

theorem insertSorted_sorted (x : Nat) (l : List Nat) (h : l.Sorted (· < ·)) :
    (insertSorted x l).Sorted (· < ·) := by
  induction l with
  | nil => simp [insertSorted]
  | cons z rest ih =>
    rw [List.sorted_cons] at h
    obtain ⟨hz, hrest⟩ := h
    unfold insertSorted
    by_cases h1 : x < z
    · simp only [h1, if_true]
      rw [List.sorted_cons]
      refine ⟨?_, by rw [List.sorted_cons]; exact ⟨hz, hrest⟩⟩
      intro b hb
      rcases List.mem_cons.mp hb with rfl | hb
      · exact h1
      · exact lt_trans h1 (hz b hb)
    · by_cases h2 : x = z
      · subst h2
        simp only [h1, if_false, if_true]
        rw [List.sorted_cons]
        exact ⟨hz, hrest⟩
      · simp only [h1, if_false, h2, if_false]
        rw [List.sorted_cons]
        refine ⟨?_, ih hrest⟩
        intro b hb
        rcases (insertSorted_mem x b rest).mp hb with rfl | hb
        · omega
        · exact hz b hb

theorem setUnion_sorted (l acc : List Nat) (h : acc.Sorted (· < ·)) :
    (setUnion acc l).Sorted (· < ·) := by
  induction l generalizing acc with
  | nil => exact h
  | cons x rest ih =>
    unfold setUnion
    rw [List.foldl_cons]
    exact ih (insertSorted x acc) (insertSorted_sorted x acc h)

theorem query_candidates_sorted (idx : LSHIndex) (q : Nat) :
    (idx.query_candidates q).Sorted (· < ·) := by
  unfold LSHIndex.query_candidates
  generalize (extractBands q).enum = bands
  have : ∀ (bs : List (Nat × Nat)) (acc : List Nat), acc.Sorted (· < ·) →
      (bs.foldl (fun cands bv =>
        setUnion cands ((alistGet idx.buckets (bv.1, bv.2)).getD [])) acc).Sorted (· < ·) := by
    intro bs
    induction bs with
    | nil => intro acc h; exact h
    | cons b rest ih =>
      intro acc h
      rw [List.foldl_cons]
      exact ih _ (setUnion_sorted _ acc h)
  exact this bands [] (by simp)

/-- The `query_nearest` scan over an ascending candidate list: either nothing
beat the initial threshold and the accumulator is untouched, or the result is
the candidate minimising the distance, with ties resolved to the lowest id. -/
theorem nearestFold (dist : Nat → Nat) (l : List Nat) (hl : l.Sorted (· < ·))
    (d0 : Nat) (o0 : Option Nat) :
    (l.foldl (fun best cid => if dist cid < best.1 then (dist cid, some cid) else best)
        (d0, o0) = (d0, o0) ∧ ∀ c' ∈ l, d0 ≤ dist c') ∨
    (∃ c ∈ l, l.foldl (fun best cid => if dist cid < best.1 then (dist cid, some cid) else best)
        (d0, o0) = (dist c, some c) ∧ dist c < d0 ∧
      (∀ c' ∈ l, dist c ≤ dist c') ∧ (∀ c' ∈ l, dist c' = dist c → c ≤ c')) := by
  induction l generalizing d0 o0 with
  | nil => left; exact ⟨rfl, by simp⟩
  | cons x rest ih =>
    rw [List.sorted_cons] at hl
    obtain ⟨hx, hrest⟩ := hl
    rw [List.foldl_cons]
    by_cases h : dist x < d0
    · simp only [h, if_true]
      rcases ih hrest (dist x) (some x) with ⟨heq, hge⟩ | ⟨c, hcmem, heq, hlt, hmin, hties⟩
      · right
        refine ⟨x, List.mem_cons_self x rest, heq, h, ?_, ?_⟩
        · intro c' hc'
          rcases List.mem_cons.mp hc' with rfl | hc'
          · exact le_refl _
          · exact hge c' hc'
        · intro c' hc' _
          rcases List.mem_cons.mp hc' with rfl | hc'
          · exact le_refl _
          · exact le_of_lt (hx c' hc')
      · right
        refine ⟨c, List.mem_cons_of_mem x hcmem, heq, lt_trans hlt h, ?_, ?_⟩
        · intro c' hc'
          rcases List.mem_cons.mp hc' with rfl | hc'
          · exact le_of_lt hlt
          · exact hmin c' hc'
        · intro c' hc' hdc
          rcases List.mem_cons.mp hc' with rfl | hc'
          · omega
          · exact hties c' hc' hdc
    · simp only [h, if_false]
      rcases ih hrest d0 o0 with ⟨heq, hge⟩ | ⟨c, hcmem, heq, hlt, hmin, hties⟩
      · left
        refine ⟨heq, ?_⟩
        intro c' hc'
        rcases List.mem_cons.mp hc' with rfl | hc'
        · omega
        · exact hge c' hc'
      · right
        refine ⟨c, List.mem_cons_of_mem x hcmem, heq, hlt, ?_, ?_⟩
        · intro c' hc'
          rcases List.mem_cons.mp hc' with rfl | hc'
          · omega
          · exact hmin c' hc'
        · intro c' hc' hdc
          rcases List.mem_cons.mp hc' with rfl | hc'
          · omega
          · exact hties c' hc' hdc

/-- C6 counterexample: a single stored chunk at simhash 0, queried with
simhash `0xFF` — hamming distance exactly 8, the threshold.  The claim says
the minimum distance must be strictly below the threshold for a hit, so it
requires `none`; the code accepts distance = threshold and returns the
chunk. -/
theorem claim_C6_counterexample :
    (LSHIndex.empty.insert 0 0).query_nearest 255 SIMILARITY_THRESHOLD = some 0 ∧
    hamming_distance 255 ((alistGet (LSHIndex.empty.insert 0 0).simhashes 0).getD 0) =
      SIMILARITY_THRESHOLD := by
  constructor <;> decide

/-- C6 as amended: `query_nearest` returns the candidate whose stored
simhash minimises hamming distance to the query provided that minimum is AT
MOST the threshold (default 8), returns `none` otherwise, and breaks ties
between equally distant candidates by the lowest chunk id (candidate-set
iteration is ascending in the model). -/
theorem claim_C6_query_nearest (idx : LSHIndex) (q t : Nat) :
    (∀ c, idx.query_nearest q t = some c →
      c ∈ idx.query_candidates q ∧
      hamming_distance q ((alistGet idx.simhashes c).getD 0) ≤ t ∧
      (∀ c' ∈ idx.query_candidates q,
        hamming_distance q ((alistGet idx.simhashes c).getD 0) ≤
          hamming_distance q ((alistGet idx.simhashes c').getD 0)) ∧
      (∀ c' ∈ idx.query_candidates q,
        hamming_distance q ((alistGet idx.simhashes c').getD 0) =
          hamming_distance q ((alistGet idx.simhashes c).getD 0) → c ≤ c')) ∧
    (idx.query_nearest q t = none →
      ∀ c' ∈ idx.query_candidates q,
        t < hamming_distance q ((alistGet idx.simhashes c').getD 0)) := by
  have hspec := nearestFold (fun cid => hamming_distance q ((alistGet idx.simhashes cid).getD 0))
    (idx.query_candidates q) (query_candidates_sorted idx q) (t + 1) none
  constructor
  · intro c hc
    unfold LSHIndex.query_nearest at hc
    rcases hspec with ⟨heq, _⟩ | ⟨c', hc'mem, heq, hlt, hmin, hties⟩
    · rw [heq] at hc
      simp at hc
    · rw [heq] at hc
      simp only at hc
      obtain rfl : c' = c := Option.some.injEq .. ▸ hc
      exact ⟨hc'mem, by omega, hmin, hties⟩
  · intro hc c' hc'mem
    unfold LSHIndex.query_nearest at hc
    rcases hspec with ⟨_, hge⟩ | ⟨c'', _, heq, _, _, _⟩
    · have := hge c' hc'mem
      omega
    · rw [heq] at hc
      simp at hc

/-- Witness for C6 applied at a concrete index: the inserted chunk is
returned for an exact-simhash query and satisfies the characterisation. -/
theorem claim_C6_query_nearest_witness :
    (LSHIndex.empty.insert 3 7).query_nearest 7 SIMILARITY_THRESHOLD = some 3 ∧
    (3 ∈ (LSHIndex.empty.insert 3 7).query_candidates 7 ∧
      hamming_distance 7 ((alistGet (LSHIndex.empty.insert 3 7).simhashes 3).getD 0) ≤
        SIMILARITY_THRESHOLD) :=
  ⟨by decide, by
    have h := (claim_C6_query_nearest (LSHIndex.empty.insert 3 7) 7 SIMILARITY_THRESHOLD).1
      3 (by decide)
    exact ⟨h.1, h.2.1⟩⟩

/-! ## C9 — anomaly detector, scenario S5 -/

theorem pushWindow_small (w : Nat) (h : List ℝ) (x : ℝ) (hlen : h.length + 1 ≤ w) :
    pushWindow w h x = h ++ [x] := by
  unfold pushWindow
  have : ¬ ((h ++ [x]).length > w) := by simp; omega
  simp only [this, if_false]

/-- `observe` below five window entries: append only, no alert. -/
theorem observe_low (d : AnomalyDetector) (r : ℝ) (h : d.history.length < 5) :
    d.observe r "" =
      ({ d with observation_count := d.observation_count + 1,
                history := pushWindow d.window_size d.history r }, none) := by
  unfold AnomalyDetector.observe
  simp only [h, if_true]

/-- `observe` of the constant `c` over an all-`c` window of at least five
entries: the variance is zero, the z-score is zero, no alert fires. -/
theorem observe_const (d : AnomalyDetector) (c : ℝ) (n : Nat)
    (hh : d.history = List.replicate n c) (h5 : 5 ≤ n)
    (hzl : d.z_low = -2) (hzh : d.z_high = 3) :
    d.observe c "" =
      ({ d with observation_count := d.observation_count + 1,
                history := pushWindow d.window_size d.history c }, none) := by
  unfold AnomalyDetector.observe
  have hlen : d.history.length = n := by rw [hh]; simp
  have hnot : ¬ (d.history.length < 5) := by omega
  simp only [hnot, if_false]
  have hn0 : ((d.history.length : ℝ)) ≠ 0 := by
    rw [hlen]
    exact_mod_cast by omega
  have hmean : d.history.sum / (d.history.length : ℝ) = c := by
    rw [hh, List.sum_replicate, nsmul_eq_mul]
    simp only [List.length_replicate]
    have : ((n : ℝ)) ≠ 0 := by exact_mod_cast by omega
    field_simp
  rw [hmean]
  have hvar : ((d.history.map fun x => (x - c) ^ 2).sum / (d.history.length : ℝ)) = 0 := by
    rw [hh]
    simp [List.map_replicate, List.sum_replicate]
  rw [hvar]
  have hv0 : ¬ ((0 : ℝ) > 0) := lt_irrefl 0
  simp only [hv0, if_false]
  have hz : (c - c) / (0.001 : ℝ) = 0 := by norm_num
  rw [hz, hzl, hzh]
  have h1 : ¬ ((0 : ℝ) < -2) := by norm_num
  have h2 : ¬ ((0 : ℝ) > 3) := by norm_num
  simp only [h1, if_false, h2]
  simp

/-- Detector state after feeding `m ≤ 49` constant ratios to a fresh default
detector: all observations returned `none`, the window holds the `m`
constants, no alerts were recorded. -/
theorem observeSeq_const (c : ℝ) (m : Nat) (hm : m ≤ 49) :
    observeSeq (AnomalyDetector.init 50 (-2) 3) (List.replicate m c) =
      (⟨50, -2, 3, List.replicate m c, [], m⟩,
       List.replicate m (none : Option AnomalyAlert)) := by
  induction m with
  | zero => simp [observeSeq, AnomalyDetector.init]
  | succ m ih =>
    have hm' : m ≤ 49 := by omega
    rw [List.replicate_succ' m c]
    unfold observeSeq
    rw [List.foldl_append]
    have hseq := ih hm'
    unfold observeSeq at hseq
    rw [hseq]
    simp only [List.foldl_cons, List.foldl_nil]
    have hpush : pushWindow 50 (List.replicate m c) c = List.replicate (m + 1) c := by
      rw [pushWindow_small 50 (List.replicate m c) c (by simp; omega)]
      rw [← List.replicate_succ' m c]
    by_cases h5 : m < 5
    · have := observe_low ⟨50, -2, 3, List.replicate m c, [], m⟩ c (by simp; omega)
      rw [this]
      dsimp only
      rw [hpush]
      simp [List.replicate_succ']
    · have := observe_const ⟨50, -2, 3, List.replicate m c, [], m⟩ c m rfl (by omega) rfl rfl
      rw [this]
      dsimp only
      rw [hpush]
      simp [List.replicate_succ']

/-- The 26th observation in scenario S5: ratio 1 against a constant window of
25 × 20.0 — variance 0, std floored to 0.001, z = −19000, a high-severity
low-ratio alert. -/
theorem observe_final :
    ((⟨50, -2, 3, List.replicate 25 (20 : ℝ), [], 25⟩ : AnomalyDetector).observe 1 "") =
      (⟨50, -2, 3, List.replicate 25 (20 : ℝ) ++ [1],
        [⟨"", 1, -19000, 20, 0.001, Severity.high⟩], 26⟩,
       some ⟨"", 1, -19000, 20, 0.001, Severity.high⟩) := by
  unfold AnomalyDetector.observe
  dsimp only
  rw [if_neg (by simp : ¬ ((List.replicate 25 (20:ℝ)).length < 5))]
  have hmean : (List.replicate 25 (20:ℝ)).sum / ((List.replicate 25 (20:ℝ)).length : ℝ)
      = 20 := by
    simp [List.sum_replicate, nsmul_eq_mul]
    norm_num
  rw [hmean]
  have hvar : (((List.replicate 25 (20:ℝ)).map fun x => (x - 20) ^ 2).sum /
      ((List.replicate 25 (20:ℝ)).length : ℝ)) = 0 := by
    simp [List.map_replicate, List.sum_replicate]
  rw [hvar]
  rw [if_neg (lt_irrefl (0:ℝ))]
  have hz : ((1 : ℝ) - 20) / (0.001 : ℝ) = -19000 := by norm_num
  rw [hz]
  rw [if_pos (by norm_num : (-19000 : ℝ) < -2)]
  rw [if_pos (by norm_num : (-19000 : ℝ) < -2 * 1.5)]
  rw [pushWindow_small 50 (List.replicate 25 (20:ℝ)) 1 (by simp)]
  simp

/-- The drift report after scenario S5: one alert recorded, but
`is_drifting` is FALSE — the trend (−19/13 ≈ −1.46) is smaller in magnitude
than the window standard deviation (≈ 3.65). -/
theorem drift_final (al : List AnomalyAlert) :
    ((⟨50, -2, 3, List.replicate 25 (20 : ℝ) ++ [1], al, 26⟩ :
        AnomalyDetector).drift_report).alerts_count = al.length ∧
    ¬ ((⟨50, -2, 3, List.replicate 25 (20 : ℝ) ++ [1], al, 26⟩ :
        AnomalyDetector).drift_report).is_drifting := by
  unfold AnomalyDetector.drift_report
  dsimp only
  have hlen : (List.replicate 25 (20:ℝ) ++ [1]).length = 26 := by simp
  simp only [hlen]
  rw [if_neg (by omega : ¬ (26 < 2))]
  refine ⟨rfl, ?_⟩
  dsimp only
  have h13 : ((26 : Nat) / 2) = 13 := by decide
  have hmax1 : ((1 : Nat) ⊔ (26 / 2)) = 13 := by decide
  have hmax2 : ((1 : Nat) ⊔ (26 - 26 / 2)) = 13 := by decide
  simp only [hmax1, hmax2, h13]
  simp only [Nat.cast_ofNat]
  have hsum : (List.replicate 25 (20:ℝ) ++ [1]).sum = 501 := by
    simp [List.sum_replicate, nsmul_eq_mul]
    norm_num
  simp only [hsum]
  have hmap : (List.map (fun x => (x - 501 / 26 : ℝ) ^ 2) (List.replicate 25 (20:ℝ) ++ [1])) =
      List.replicate 25 ((20 - 501 / 26 : ℝ) ^ 2) ++ [(1 - 501 / 26 : ℝ) ^ 2] := by
    simp
  simp only [hmap]
  have hvar : ((List.replicate 25 ((20 - 501 / 26 : ℝ) ^ 2) ++
      [(1 - 501 / 26 : ℝ) ^ 2]).sum / 26) = 234650 / 17576 := by
    simp [List.sum_replicate, nsmul_eq_mul]
    norm_num
  simp only [hvar]
  rw [if_pos (by norm_num : (234650 / 17576 : ℝ) > 0)]
  have htake : (List.replicate 25 (20:ℝ) ++ [1]).take 13 = List.replicate 13 (20:ℝ) := by
    rw [List.take_append_of_le_length (by simp)]
    simp [List.take_replicate]
  have hdrop : (List.replicate 25 (20:ℝ) ++ [1]).drop 13 =
      List.replicate 12 (20:ℝ) ++ [1] := by
    rw [List.drop_append_of_le_length (by simp)]
    simp [List.drop_replicate]
  simp only [htake, hdrop]
  have hfirst : ((List.replicate 13 (20:ℝ)).sum / (13 : ℝ)) = 20 := by
    simp [List.sum_replicate, nsmul_eq_mul]
    norm_num
  have hsecond : ((List.replicate 12 (20:ℝ) ++ [1]).sum / (13 : ℝ)) = 241 / 13 := by
    simp [List.sum_replicate, nsmul_eq_mul]
    norm_num
  simp only [hfirst, hsecond]
  rw [if_pos (Real.sqrt_pos.mpr (by norm_num : (0:ℝ) < 234650 / 17576))]
  have ht : (241 / 13 - 20 : ℝ) = -(19 / 13) := by norm_num
  rw [ht, abs_neg, abs_of_nonneg (by norm_num : (0:ℝ) ≤ 19 / 13)]
  refine not_lt.mpr ?_
  rw [show (19 / 13 : ℝ) = Real.sqrt ((19 / 13) ^ 2) from
    (Real.sqrt_sq (by norm_num)).symm]
  exact Real.sqrt_le_sqrt (by norm_num)

/-- The full S5 run: 25 ratios of 20.0, then one ratio of 1.0. -/
theorem observeSeq_s5 :
    observeSeq (AnomalyDetector.init 50 (-2) 3) (List.replicate 25 (20:ℝ) ++ [1]) =
      (⟨50, -2, 3, List.replicate 25 (20:ℝ) ++ [1],
        [⟨"", 1, -19000, 20, 0.001, Severity.high⟩], 26⟩,
       List.replicate 25 (none : Option AnomalyAlert) ++
         [some ⟨"", 1, -19000, 20, 0.001, Severity.high⟩]) := by
  unfold observeSeq
  rw [List.foldl_append]
  have h := observeSeq_const 20 25 (by omega)
  unfold observeSeq at h
  rw [h]
  simp only [List.foldl_cons, List.foldl_nil]
  rw [observe_final]

/-- C9 counterexample: feeding 25 ratios of 20.0 then one ratio of 1.0 to a
fresh default detector yields exactly one alert, but
`drift_report().is_drifting` is FALSE (|trend| = 19/13 is well below the
window std ≈ 3.65), contradicting the claim's `is_drifting` conjunct. -/
theorem claim_C9_counterexample :
    (observeSeq (AnomalyDetector.init 50 (-2) 3)
        (List.replicate 25 (20:ℝ) ++ [1])).1.alerts.length = 1 ∧
    ¬ ((observeSeq (AnomalyDetector.init 50 (-2) 3)
        (List.replicate 25 (20:ℝ) ++ [1])).1.drift_report).is_drifting := by
  rw [observeSeq_s5]
  exact ⟨rfl, (drift_final _).2⟩

/-- C9 as amended: the S5 run yields exactly one alert over the whole
sequence — a low-ratio (z < z_low) alert of high severity — each of the
first five observations returns no alert, and `drift_report().is_drifting`
is FALSE. -/
theorem claim_C9_anomaly :
    ((observeSeq (AnomalyDetector.init 50 (-2) 3)
        (List.replicate 25 (20:ℝ) ++ [1])).2.take 5 =
      List.replicate 5 (none : Option AnomalyAlert)) ∧
    (observeSeq (AnomalyDetector.init 50 (-2) 3)
        (List.replicate 25 (20:ℝ) ++ [1])).1.alerts.length = 1 ∧
    (∀ a ∈ (observeSeq (AnomalyDetector.init 50 (-2) 3)
        (List.replicate 25 (20:ℝ) ++ [1])).1.alerts,
      a.severity = Severity.high ∧ a.z_score < -2) ∧
    ((observeSeq (AnomalyDetector.init 50 (-2) 3)
        (List.replicate 25 (20:ℝ) ++ [1])).1.drift_report).alerts_count = 1 ∧
    ¬ ((observeSeq (AnomalyDetector.init 50 (-2) 3)
        (List.replicate 25 (20:ℝ) ++ [1])).1.drift_report).is_drifting := by
  rw [observeSeq_s5]
  refine ⟨?_, rfl, ?_, ?_, (drift_final _).2⟩
  · rw [List.take_append_of_le_length (by simp)]
    simp [List.take_replicate]
  · intro a ha
    simp only [List.mem_singleton] at ha
    subst ha
    exact ⟨rfl, by norm_num⟩
  · exact (drift_final _).1

/-! ## Association-list and store-access lemmas -/

theorem alistGet_alistSet_self {α β : Type} [DecidableEq α] (l : List (α × β)) (k : α)
    (v : β) : alistGet (alistSet l k v) k = some v := by
  induction l with
  | nil => simp [alistSet, alistGet]
  | cons p rest ih =>
    rcases p with ⟨k', v'⟩
    unfold alistSet
    by_cases h : k' = k
    · simp [h, alistGet]
    · simp only [h, if_false]
      unfold alistGet at ih ⊢
      simp only [List.find?_cons]
      have : (decide (k' = k)) = false := by simp [h]
      rw [this]
      exact ih

theorem alistGet_alistSet_ne {α β : Type} [DecidableEq α] (l : List (α × β)) (k k' : α)
    (v : β) (h : k' ≠ k) : alistGet (alistSet l k v) k' = alistGet l k' := by
  induction l with
  | nil =>
    simp only [alistSet, alistGet, List.find?]
    have : (decide (k = k')) = false := by simp [Ne.symm h]
    simp [this]
  | cons p rest ih =>
    rcases p with ⟨k0, v0⟩
    unfold alistSet
    by_cases h0 : k0 = k
    · subst h0
      simp only [if_true]
      unfold alistGet
      simp only [List.find?_cons]
      have : (decide (k0 = k')) = false := by simp [Ne.symm h]
      rw [this]
    · simp only [h0, if_false]
      unfold alistGet at ih ⊢
      simp only [List.find?_cons]
      by_cases h1 : k0 = k'
      · simp [h1]
      · have : (decide (k0 = k')) = false := by simp [h1]
        rw [this]
        exact ih

/-- What `get` hands back as chunk data equals `obtain`. -/
theorem get_data_eq_obtain (M : Ext) (st : MemStore) (cid : Nat) :
    (match (st.get M cid).1 with
      | none => none
      | some e => e.data) = st.obtain M cid := by
  unfold MemStore.get MemStore.obtain
  match h : alistGet st.by_id cid with
  | none => simp
  | some e =>
    match hd : e.data, ha : alistGet st.cold_archive cid with
    | none, some z => simp [hd, ha]
    | none, none => simp [hd, ha]
    | some d, _ => simp [hd]

/-- `get` preserves every chunk's obtainable bytes. -/
theorem get_preserves_obtain (M : Ext) (st : MemStore) (cid x : Nat) :
    (st.get M cid).2.obtain M x = st.obtain M x := by
  unfold MemStore.get
  cases h : alistGet st.by_id cid with
  | none => rfl
  | some e =>
    cases hd : e.data with
    | some d => simp [hd]
    | none =>
      cases ha : alistGet st.cold_archive cid with
      | none => simp [hd, ha]
      | some z =>
        simp only [hd, ha]
        unfold MemStore.obtain
        by_cases hx : x = cid
        · subst hx
          rw [alistGet_alistSet_self, h]
          simp [hd, ha]
        · rw [alistGet_alistSet_ne st.by_id cid x _ hx]

/-- `rebuildDict` computes the concatenation of the obtainable, non-empty
data of the listed ids (in wire order), and leaves every chunk's obtainable
bytes intact. -/
theorem rebuildDict_spec (M : Ext) (ids : List Nat) :
    ∀ (st : MemStore) (acc : List Nat),
      (rebuildDictFold M ids st acc).1 =
        acc ++ (ids.map fun did => ((st.obtain M did).getD [])).flatten ∧
      (∀ x, (rebuildDictFold M ids st acc).2.obtain M x = st.obtain M x) := by
  induction ids with
  | nil => intro st acc; simp [rebuildDictFold]
  | cons did rest ih =>
    intro st acc
    unfold rebuildDictFold
    simp only [List.foldl_cons, List.map_cons, List.flatten_cons]
    have hdata := get_data_eq_obtain M st did
    have hpres := fun x => get_preserves_obtain M st did x
    rcases hget : st.get M did with ⟨e, st1⟩
    rw [hget] at hdata hpres
    cases e with
    | none =>
      dsimp only
      dsimp only at hdata hpres
      have hobt : st.obtain M did = none := hdata.symm
      obtain ⟨h1, h2⟩ := ih st1 acc
      unfold rebuildDictFold at h1 h2
      refine ⟨?_, ?_⟩
      · rw [h1, hobt]
        simp only [Option.getD_none, List.nil_append]
        congr 1
        apply congrArg
        apply List.map_congr_left
        intro a _
        rw [hpres a]
      · intro x
        rw [h2 x, hpres x]
    | some entry =>
      dsimp only
      dsimp only at hdata hpres
      cases hd : entry.data with
      | none =>
        have hobt : st.obtain M did = none := by rw [← hdata, hd]
        simp only [hd]
        obtain ⟨h1, h2⟩ := ih st1 acc
        unfold rebuildDictFold at h1 h2
        refine ⟨?_, ?_⟩
        · rw [h1, hobt]
          simp only [Option.getD_none, List.nil_append]
          congr 1
          apply congrArg
          apply List.map_congr_left
          intro a _
          rw [hpres a]
        · intro x
          rw [h2 x, hpres x]
      | some l =>
        have hobt : st.obtain M did = some l := by rw [← hdata, hd]
        cases l with
        | nil =>
          simp only [hd]
          obtain ⟨h1, h2⟩ := ih st1 acc
          unfold rebuildDictFold at h1 h2
          refine ⟨?_, ?_⟩
          · rw [h1, hobt]
            simp only [Option.getD_some, List.nil_append]
            congr 1
            apply congrArg
            apply List.map_congr_left
            intro a _
            rw [hpres a]
          · intro x
            rw [h2 x, hpres x]
        | cons d ds =>
          simp only [hd]
          obtain ⟨h1, h2⟩ := ih st1 (acc ++ (d :: ds))
          unfold rebuildDictFold at h1 h2
          refine ⟨?_, ?_⟩
          · rw [h1, hobt]
            simp only [Option.getD_some]
            rw [List.append_assoc]
            congr 2
            apply congrArg
            apply List.map_congr_left
            intro a _
            rw [hpres a]
          · intro x
            rw [h2 x, hpres x]

theorem readUvarints_encode (ids : List Nat) (rest : List Nat) :
    readUvarints ids.length ((ids.map encodeUvarint).flatten ++ rest) = some (ids, rest) := by
  induction ids with
  | nil => simp [readUvarints]
  | cons i is ih =>
    simp only [List.map_cons, List.flatten_cons, List.length_cons, List.append_assoc]
    unfold readUvarints
    rw [decodeUvarint_encodeUvarint]
    simp only
    rw [ih]

/-- C7 as amended: decoding a PRED_DELTA token skips referenced ids whose
data is unavailable or empty; it fails the whole decode exactly when the
concatenation of the available referenced chunks' data (in wire order) is
empty, and on success that concatenation is the dictionary. -/
theorem claim_C7_pred_delta (M : Ext) (st : MemStore) (ids deltaBytes : List Nat) :
    ((ids.map fun did => ((st.obtain M did).getD [])).flatten = [] →
      cogdedup_decode M (MAGIC ++ [VERSION] ++ encodeUvarint 1 ++
          serializeToken (.pred ids deltaBytes)) st =
        .error "PRED_DELTA: cannot rebuild dictionary") ∧
    ((ids.map fun did => ((st.obtain M did).getD [])).flatten ≠ [] →
      (cogdedup_decode M (MAGIC ++ [VERSION] ++ encodeUvarint 1 ++
          serializeToken (.pred ids deltaBytes)) st).toOption.map Prod.fst =
        some (M.decompressD
          ((ids.map fun did => ((st.obtain M did).getD [])).flatten) deltaBytes)) := by
  have hstep : cogdedup_decode M (MAGIC ++ [VERSION] ++ encodeUvarint 1 ++
      serializeToken (.pred ids deltaBytes)) st =
      (decodeChunks M 1 (serializeToken (.pred ids deltaBytes)) st []).bind
        (fun r => Except.ok (r.1.flatten, r.2)) := by
    rfl
  have hspec := rebuildDict_spec M ids st []
  have htok : decodeChunks M 1 (serializeToken (.pred ids deltaBytes)) st [] =
      (if ((rebuildDictFold M ids st []).1).isEmpty then
        Except.error "PRED_DELTA: cannot rebuild dictionary"
      else
        Except.ok ([M.decompressD (rebuildDictFold M ids st []).1 deltaBytes],
          (rebuildDictFold M ids st []).2)) := by
    show decodeChunks M 1 (3 :: (encodeUvarint ids.length ++
        (ids.map encodeUvarint).flatten ++ encodeUvarint deltaBytes.length ++
        deltaBytes)) st [] = _
    unfold decodeChunks
    simp only [List.append_assoc]
    rw [if_neg (by omega : ¬ ((3:Nat) = 0)), if_neg (by omega : ¬ ((3:Nat) = 1)),
      if_neg (by omega : ¬ ((3:Nat) = 2))]
    simp only [if_true]
    rw [decodeUvarint_encodeUvarint]
    simp only
    rw [readUvarints_encode ids (encodeUvarint deltaBytes.length ++ deltaBytes)]
    simp only
    rw [decodeUvarint_encodeUvarint]
    simp only [List.take_length, List.drop_length]
    show (if ((rebuildDict M st ids).1).isEmpty then _ else _) = _
    unfold rebuildDict
    by_cases hE : ((rebuildDictFold M ids st []).1).isEmpty
    · simp only [hE, if_true]
    · simp only [hE, if_false]
      rcases hr : rebuildDictFold M ids st [] with ⟨content, st1⟩
      simp only [hr]
      unfold decodeChunks
      rfl
  rw [hstep, htok]
  obtain ⟨h1, _⟩ := hspec
  simp only [List.nil_append] at h1
  constructor
  · intro hdict
    rw [h1]
    simp [hdict, Except.bind]
  · intro hdict
    rw [h1]
    have hne : ¬ ((ids.map fun did => ((st.obtain M did).getD [])).flatten).isEmpty := by
      simpa [List.isEmpty_iff] using hdict
    rw [if_neg hne]
    simp [Except.bind, Except.toOption]

/-- Witness for C7 at the concrete single-chunk store. -/
theorem claim_C7_pred_delta_witness :
    (([0, 99].map (fun did => ((c7Store.obtain padExt did).getD []))).flatten ≠ []) ∧
    ((cogdedup_decode padExt (MAGIC ++ [VERSION] ++ encodeUvarint 1 ++
        serializeToken (.pred [0, 99] [5])) c7Store).toOption.map Prod.fst =
      some (padExt.decompressD
        (([0, 99].map (fun did => ((c7Store.obtain padExt did).getD []))).flatten) [5])) :=
  ⟨by decide, (claim_C7_pred_delta padExt c7Store [0, 99] [5]).2 (by decide)⟩

/-- C8 as amended: encoding the empty byte sequence against a fresh store
produces `UCOG || 2 || uvarint(1)` followed by a single FULL token holding
`zstd(b"")` (the encoder substitutes `[b""]` for the empty chunk list), and
decoding that blob against the resulting store returns the empty byte
sequence. -/
theorem claim_C8_empty_input (M : Ext) (now : Nat) :
    cogdedup_encode M now [] MemStore.empty "" none =
      .ok (MAGIC ++ [VERSION] ++ encodeUvarint 1 ++
            serializeToken (.full (M.compress [])),
           ⟨0, 0, 1, 0, 1⟩, c8Store M now, none) ∧
    (cogdedup_decode M (MAGIC ++ [VERSION] ++ encodeUvarint 1 ++
        serializeToken (.full (M.compress []))) (c8Store M now)).toOption.map Prod.fst =
      some [] := by
  constructor
  · have h0 : cogdedup_encode M now [] MemStore.empty "" none =
        .ok (MAGIC ++ [VERSION] ++ encodeUvarint 1 ++
          (serializeToken (.full (M.compress [])) ++ []),
          ⟨0, 0, 1, 0, 1⟩, c8Store M now, none) := rfl
    rw [h0, List.append_nil]
  · have hstep :
        cogdedup_decode M (MAGIC ++ [VERSION] ++ encodeUvarint 1 ++
          serializeToken (.full (M.compress []))) (c8Store M now) =
        (decodeChunks M 1 (serializeToken (.full (M.compress []))) (c8Store M now) []).bind
          (fun r => Except.ok (r.1.flatten, r.2)) := by
      rfl
    rw [hstep]
    have htok :
        decodeChunks M 1 (serializeToken (.full (M.compress []))) (c8Store M now) [] =
          Except.ok ([M.decompress (M.compress [])], c8Store M now) := by
      show decodeChunks M 1 (2 :: (encodeUvarint (M.compress []).length ++
        M.compress [])) (c8Store M now) [] = _
      unfold decodeChunks
      dsimp only
      rw [if_neg (by omega : ¬ ((2:Nat) = 0)), if_neg (by omega : ¬ ((2:Nat) = 1))]
      simp only [if_true]
      rw [decodeUvarint_encodeUvarint]
      simp only [List.take_length, List.drop_length]
      unfold decodeChunks
      rfl
    rw [htok]
    simp [Except.bind, Except.toOption, M.decompress_compress]

/-! ## C1 infrastructure: basic lemmas -/

theorem alistGet_mem {α β : Type} [DecidableEq α] {l : List (α × β)} {k : α} {v : β}
    (h : alistGet l k = some v) : (k, v) ∈ l := by
  unfold alistGet at h
  rcases Option.map_eq_some'.mp h with ⟨a, hfind, hsnd⟩
  have hp := List.find?_some hfind
  simp only [decide_eq_true_eq] at hp
  have hk : a.1 = k := hp
  have hm : a ∈ l := List.mem_of_find?_eq_some hfind
  have : (k, v) = a := by
    rcases a with ⟨a1, a2⟩
    simp only at hk hsnd
    rw [hk, hsnd]
  rw [this]
  exact hm

theorem alistSet_mem {α β : Type} [DecidableEq α] {l : List (α × β)} {k : α} {v : β}
    {p : α × β} (h : p ∈ alistSet l k v) : p = (k, v) ∨ p ∈ l := by
  induction l with
  | nil => simp [alistSet] at h; simp [h]
  | cons q rest ih =>
    rcases q with ⟨k', v'⟩
    unfold alistSet at h
    by_cases hk : k' = k
    · simp only [hk, if_true, List.mem_cons] at h
      rcases h with rfl | h
      · exact Or.inl rfl
      · exact Or.inr (List.mem_cons_of_mem _ h)
    · simp only [hk, if_false, List.mem_cons] at h
      rcases h with rfl | h
      · exact Or.inr (List.mem_cons_self _ _)
      · rcases ih h with h1 | h1
        · exact Or.inl h1
        · exact Or.inr (List.mem_cons_of_mem _ h1)

theorem alistGet_none_of_lt {β : Type} {l : List (Nat × β)} {n : Nat}
    (h : ∀ p ∈ l, p.1 < n) : alistGet l n = none := by
  unfold alistGet
  cases hf : l.find? (fun p => p.1 = n) with
  | none => rfl
  | some a =>
    have hp := List.find?_some hf
    simp only [decide_eq_true_eq] at hp
    have := h a (List.mem_of_find?_eq_some hf)
    omega

theorem TokenOK_of_obtain_eq {M : Ext} {st st' : MemStore} {tok : Token} {c : List Nat}
    (hobt : ∀ x, st'.obtain M x = st.obtain M x) (h : TokenOK M st tok c) :
    TokenOK M st' tok c := by
  cases tok with
  | ref cid => show st'.obtain M cid = some c; rw [hobt cid]; exact h
  | delta rid d =>
    obtain ⟨base, h1, h2⟩ := h
    exact ⟨base, by rw [hobt rid]; exact h1, h2⟩
  | full z => exact h
  | pred ids d =>
    obtain ⟨h1, h2, h3⟩ := h
    refine ⟨h1, fun did hd => by rw [hobt did]; exact h2 did hd, ?_⟩
    have : (ids.map fun did => ((st'.obtain M did).getD [])) =
        (ids.map fun did => ((st.obtain M did).getD [])) := by
      apply List.map_congr_left
      intro a _
      rw [hobt a]
    rw [this]
    exact h3

theorem TokenOK_mono {M : Ext} {st st' : MemStore} {tok : Token} {c : List Nat}
    (hext : st.Extends M st') (h : TokenOK M st tok c) : TokenOK M st' tok c := by
  cases tok with
  | ref cid => exact hext cid c h
  | delta rid d =>
    obtain ⟨base, h1, h2⟩ := h
    exact ⟨base, hext rid base h1, h2⟩
  | full z => exact h
  | pred ids d =>
    obtain ⟨h1, h2, h3⟩ := h
    refine ⟨h1, ?_, ?_⟩
    · intro did hd
      obtain ⟨dd, hdd, hne⟩ := h2 did hd
      exact ⟨dd, hext did dd hdd, hne⟩
    · have : (ids.map fun did => ((st'.obtain M did).getD [])) =
          (ids.map fun did => ((st.obtain M did).getD [])) := by
        apply List.map_congr_left
        intro a ha
        obtain ⟨dd, hdd, _⟩ := h2 a ha
        rw [hdd, hext a dd hdd]
      rw [this]
      exact h3

theorem PredWF_of_obtain_eq {M : Ext} {st st' : MemStore} {p : Option Predictor}
    (hobt : ∀ x, st'.obtain M x = st.obtain M x) (h : PredWF M st p) :
    PredWF M st' p := by
  cases p with
  | none => trivial
  | some pr =>
    intro q hq
    obtain ⟨h1, h2, h3⟩ := h q hq
    refine ⟨h1, fun did hd => by rw [hobt did]; exact h2 did hd, ?_⟩
    rw [h3]
    apply congrArg
    apply List.map_congr_left
    intro a _
    rw [hobt a]

theorem PredWF_mono {M : Ext} {st st' : MemStore} {p : Option Predictor}
    (hext : st.Extends M st') (h : PredWF M st p) : PredWF M st' p := by
  cases p with
  | none => trivial
  | some pr =>
    intro q hq
    obtain ⟨h1, h2, h3⟩ := h q hq
    refine ⟨h1, ?_, ?_⟩
    · intro did hd
      obtain ⟨dd, hdd, hne⟩ := h2 did hd
      exact ⟨dd, hext did dd hdd, hne⟩
    · rw [h3]
      apply congrArg
      apply List.map_congr_left
      intro a ha
      obtain ⟨dd, hdd, _⟩ := h2 a ha
      rw [hdd, hext a dd hdd]

/-! ## C1 infrastructure: store-operation specifications

Each operation preserves well-formedness, preserves every chunk's
obtainable bytes (mostly as an equality; `store` as an extension), and never
removes a `by_sha` key. -/

theorem alistGet_cons {α β : Type} [DecidableEq α] (k0 : α) (v0 : β)
    (rest : List (α × β)) (k : α) :
    alistGet ((k0, v0) :: rest) k = if k0 = k then some v0 else alistGet rest k := by
  by_cases h : k0 = k
  · simp [alistGet, List.find?_cons, h]
  · simp [alistGet, List.find?_cons, h]

theorem alistGet_alistPop_ne {α β : Type} [DecidableEq α] (l : List (α × β)) (k k' : α)
    (h : k' ≠ k) : alistGet (alistPop l k) k' = alistGet l k' := by
  induction l with
  | nil => rfl
  | cons p rest ih =>
    rcases p with ⟨k0, v0⟩
    unfold alistPop at ih ⊢
    rw [List.filter_cons]
    by_cases h0 : k0 = k
    · have hc : (decide (k0 ≠ k)) = false := by simp [h0]
      rw [hc]
      simp only [Bool.false_eq_true, if_false]
      rw [ih, alistGet_cons]
      have hne : ¬ (k0 = k') := by rw [h0]; exact Ne.symm h
      rw [if_neg hne]
    · have hc : (decide (k0 ≠ k)) = true := by simp [h0]
      rw [hc]
      rw [if_pos rfl]
      rw [alistGet_cons, alistGet_cons]
      by_cases h1 : k0 = k'
      · rw [if_pos h1, if_pos h1]
      · rw [if_neg h1, if_neg h1]
        exact ih

/-- Replacing an entry with one holding the same `data` leaves every
obtainable value unchanged. -/
theorem obtain_set_entry_eq (M : Ext) (st : MemStore) (cid : Nat) (e e' : ChunkEntry)
    (hget : alistGet st.by_id cid = some e) (hdata : e'.data = e.data)
    (arch : List (Nat × List Nat)) (harch : arch = st.cold_archive) :
    ∀ x, (MemStore.obtain M
        { st with by_id := alistSet st.by_id cid e', cold_archive := arch } x) =
      st.obtain M x := by
  intro x
  unfold MemStore.obtain
  by_cases hx : x = cid
  · subst hx
    rw [alistGet_alistSet_self]
    simp only [hget, hdata, harch]
  · rw [alistGet_alistSet_ne st.by_id cid x e' hx]
    simp only [harch]

/-- Replacing an entry with one holding the same `data` and `chunk_id`
preserves well-formedness. -/
theorem WF_set_entry (M : Ext) (st : MemStore) (cid : Nat) (e e' : ChunkEntry)
    (hget : alistGet st.by_id cid = some e) (hdata : e'.data = e.data)
    (hcid : e'.chunk_id = e.chunk_id) (hwf : WF M st) :
    WF M { st with by_id := alistSet st.by_id cid e' } := by
  obtain ⟨w1, w2, w3⟩ := hwf
  have hmem := alistGet_mem hget
  refine ⟨?_, ?_, ?_⟩
  · intro p hp
    rcases alistSet_mem hp with rfl | hp
    · simp only
      rw [hcid]
      exact w1 (cid, e) hmem
    · exact w1 p hp
  · intro q hq
    obtain ⟨d, hd, hs⟩ := w2 q hq
    refine ⟨d, ?_, hs⟩
    have := obtain_set_entry_eq M st cid e e' hget hdata st.cold_archive rfl q.2
    simp only at this ⊢
    rw [show ({ st with by_id := alistSet st.by_id cid e', cold_archive := st.cold_archive } :
      MemStore) = { st with by_id := alistSet st.by_id cid e' } from rfl] at this
    rw [this]
    exact hd
  · intro p hp
    rcases alistSet_mem hp with rfl | hp
    · exact w3 (cid, e) hmem
    · exact w3 p hp

/-- `lookup_exact` preserves the store's observables and, on a hit, hands
back an entry whose obtainable bytes hash to the queried digest. -/
theorem lookup_exact_spec (M : Ext) (st : MemStore) (now : Nat) (sha : List Nat)
    (hwf : WF M st) :
    WF M (st.lookup_exact now sha).2 ∧
    (∀ x, (st.lookup_exact now sha).2.obtain M x = st.obtain M x) ∧
    (st.lookup_exact now sha).2.by_sha = st.by_sha ∧
    (st.lookup_exact now sha).2.next_id = st.next_id ∧
    (∀ e, (st.lookup_exact now sha).1 = some e →
      ∃ d, (st.lookup_exact now sha).2.obtain M e.chunk_id = some d ∧ M.sha d = sha) ∧
    (∀ e, (st.lookup_exact now sha).1 = some e →
      alistGet (st.lookup_exact now sha).2.by_sha sha = some e.chunk_id) := by
  unfold MemStore.lookup_exact
  cases hsha : alistGet st.by_sha sha with
  | none => exact ⟨hwf, fun x => rfl, rfl, rfl, fun e he => by simp at he,
      fun e he => by simp at he⟩
  | some cid =>
    dsimp only
    cases hid : alistGet st.by_id cid with
    | none => exact ⟨hwf, fun x => rfl, rfl, rfl, fun e he => by simp at he,
        fun e he => by simp at he⟩
    | some e =>
      simp only
      have hobt := obtain_set_entry_eq M st cid e
        { e with ref_count := e.ref_count + 1, last_access := now } hid rfl
        st.cold_archive rfl
      have hwf' := WF_set_entry M st cid e
        { e with ref_count := e.ref_count + 1, last_access := now } hid rfl rfl hwf
      have hcid : e.chunk_id = cid := hwf.1 (cid, e) (alistGet_mem hid)
      refine ⟨hwf', fun x => hobt x, trivial, trivial, ?_, ?_⟩
      · intro e1 he1
        have he2 : ({ e with ref_count := e.ref_count + 1, last_access := now } :
            ChunkEntry) = e1 := Option.some.inj he1
        subst he2
        obtain ⟨d, hd, hs⟩ := hwf.2.1 (sha, cid) (alistGet_mem hsha)
        refine ⟨d, ?_, hs⟩
        rw [hobt (({ e with ref_count := e.ref_count + 1, last_access := now } :
          ChunkEntry).chunk_id)]
        show st.obtain M e.chunk_id = some d
        rw [hcid]
        exact hd
      · intro e1 he1
        have he2 : ({ e with ref_count := e.ref_count + 1, last_access := now } :
            ChunkEntry) = e1 := Option.some.inj he1
        subst he2
        show alistGet st.by_sha sha = some e.chunk_id
        rw [hcid]
        exact hsha

/-- `lookup_similar` preserves the store's observables; a returned entry's
`data` is obtainable under its chunk id. -/
theorem lookup_similar_spec (M : Ext) (st : MemStore) (now : Nat) (sh : Nat)
    (hwf : WF M st) :
    match st.lookup_similar now sh with
    | .error _ => True
    | .ok (r, st') =>
      WF M st' ∧ (∀ x, st'.obtain M x = st.obtain M x) ∧
      st'.by_sha = st.by_sha ∧ st'.next_id = st.next_id ∧
      (∀ e d, r = some e → e.data = some d → st'.obtain M e.chunk_id = some d) := by
  unfold MemStore.lookup_similar
  cases hq : st.lsh.query_nearest sh with
  | none =>
    exact ⟨hwf, fun x => rfl, rfl, rfl, fun e d he hd => by simp at he⟩
  | some bid =>
    dsimp only
    cases hid : alistGet st.by_id bid with
    | none => trivial
    | some e =>
      dsimp only
      have hobt := obtain_set_entry_eq M st bid e { e with last_access := now } hid rfl
        st.cold_archive rfl
      have hwf' := WF_set_entry M st bid e { e with last_access := now } hid rfl rfl hwf
      refine ⟨hwf', fun x => hobt x, rfl, rfl, ?_⟩
      intro e1 d he1 hd
      have he2 : ({ e with last_access := now } : ChunkEntry) = e1 := Option.some.inj he1
      subst he2
      have hcid : e.chunk_id = bid := hwf.1 (bid, e) (alistGet_mem hid)
      rw [hobt (({ e with last_access := now } : ChunkEntry).chunk_id)]
      show st.obtain M e.chunk_id = some d
      rw [hcid]
      unfold MemStore.obtain
      rw [hid]
      dsimp only
      have hd' : e.data = some d := hd
      rw [hd']

/-- One archive step: well-formedness and all observables survive (the
archived chunk's bytes stay obtainable via the zlib round-trip). -/
theorem archiveStep_spec (M : Ext) (acc : MemStore × Nat) (c : Nat × Nat × Nat)
    (hwf : WF M acc.1) :
    WF M (archiveStep M acc c).1 ∧
    (∀ x, (archiveStep M acc c).1.obtain M x = acc.1.obtain M x) ∧
    (archiveStep M acc c).1.by_sha = acc.1.by_sha ∧
    (archiveStep M acc c).1.next_id = acc.1.next_id := by
  rcases acc with ⟨s, n⟩
  unfold archiveStep
  dsimp only
  cases hid : alistGet s.by_id c.2.2 with
  | none => refine ⟨hwf, fun x => rfl, ?_, ?_⟩ <;> first | rfl | trivial
  | some e =>
    dsimp only
    cases hd : e.data with
    | none => refine ⟨hwf, fun x => rfl, ?_, ?_⟩ <;> first | rfl | trivial
    | some d =>
      dsimp only
      have hobt : ∀ x,
          (MemStore.obtain M
            { s with cold_archive := alistSet s.cold_archive c.2.2 (M.zlibC d),
                     cold_meta := alistSet s.cold_meta c.2.2 (e.sha256, e.simhash),
                     by_id := alistSet s.by_id c.2.2 { e with data := none } } x) =
          s.obtain M x := by
        intro x
        unfold MemStore.obtain
        by_cases hx : x = c.2.2
        · subst hx
          rw [alistGet_alistSet_self, hid]
          simp only [hd]
          rw [alistGet_alistSet_self]
          simp only [Option.map_some', M.zlibD_zlibC]
        · rw [alistGet_alistSet_ne s.by_id c.2.2 x _ hx]
          cases hx2 : alistGet s.by_id x with
          | none => rfl
          | some e2 =>
            dsimp only
            cases hd2 : e2.data with
            | some d2 => rfl
            | none =>
              dsimp only
              rw [alistGet_alistSet_ne s.cold_archive c.2.2 x _ hx]
      refine ⟨?_, hobt, ?_, ?_⟩
      · obtain ⟨w1, w2, w3⟩ := hwf
        have hmem := alistGet_mem hid
        refine ⟨?_, ?_, ?_⟩
        · intro p hp
          rcases alistSet_mem hp with rfl | hp
          · exact w1 (c.2.2, e) hmem
          · exact w1 p hp
        · intro q hq
          obtain ⟨dq, hdq, hsq⟩ := w2 q hq
          refine ⟨dq, ?_, hsq⟩
          rw [hobt q.2]
          exact hdq
        · intro p hp
          rcases alistSet_mem hp with rfl | hp
          · exact w3 (c.2.2, e) hmem
          · exact w3 p hp
      · first | rfl | trivial
      · first | rfl | trivial

theorem archiveFold_spec (M : Ext) (l : List (Nat × Nat × Nat)) :
    ∀ acc : MemStore × Nat, WF M acc.1 →
      WF M (l.foldl (archiveStep M) acc).1 ∧
      (∀ x, (l.foldl (archiveStep M) acc).1.obtain M x = acc.1.obtain M x) ∧
      (l.foldl (archiveStep M) acc).1.by_sha = acc.1.by_sha ∧
      (l.foldl (archiveStep M) acc).1.next_id = acc.1.next_id := by
  induction l with
  | nil => intro acc hwf; refine ⟨hwf, fun x => rfl, ?_, ?_⟩ <;> first | rfl | trivial
  | cons c rest ih =>
    intro acc hwf
    rw [List.foldl_cons]
    obtain ⟨h1, h2, h3, h4⟩ := archiveStep_spec M acc c hwf
    obtain ⟨g1, g2, g3, g4⟩ := ih (archiveStep M acc c) h1
    exact ⟨g1, fun x => (g2 x).trans (h2 x), g3.trans h3, g4.trans h4⟩

/-- `_archive_cold` preserves well-formedness and all observables. -/
theorem archive_cold_spec (M : Ext) (st : MemStore) (now : Nat) (hwf : WF M st) :
    WF M (st.archive_cold M now).1 ∧
    (∀ x, (st.archive_cold M now).1.obtain M x = st.obtain M x) ∧
    (st.archive_cold M now).1.by_sha = st.by_sha ∧
    (st.archive_cold M now).1.next_id = st.next_id := by
  unfold MemStore.archive_cold
  by_cases hc : ((st.by_id.filter fun p =>
      p.2.data.isSome ∧ p.2.ref_count ≤ st.COLD_REF_COUNT ∧
        now - p.2.last_access > st.COLD_AGE_SECONDS).map
    (fun p => (p.2.ref_count, p.2.last_access, p.1))).isEmpty
  · simp only [hc, if_true]
    exact ⟨hwf, fun _ => trivial, trivial, trivial⟩
  · simp only [hc, if_false]
    exact archiveFold_spec M _ (st, 0) hwf

theorem obtain_by_id {M : Ext} {st : MemStore} {x : Nat} {d : List Nat}
    (h : st.obtain M x = some d) : ∃ e, alistGet st.by_id x = some e := by
  unfold MemStore.obtain at h
  cases h0 : alistGet st.by_id x with
  | none => rw [h0] at h; simp at h
  | some e => exact ⟨e, rfl⟩

/-- Like `WF_set_entry`, but allowing a simultaneous archive change, given
that the observables are preserved. -/
theorem WF_set_entry_arch (M : Ext) (st : MemStore) (cid : Nat) (e e' : ChunkEntry)
    (arch : List (Nat × List Nat))
    (hget : alistGet st.by_id cid = some e) (hcid : e'.chunk_id = e.chunk_id)
    (hwf : WF M st)
    (hobt : ∀ x, (MemStore.obtain M
        { st with by_id := alistSet st.by_id cid e', cold_archive := arch } x) =
      st.obtain M x) :
    WF M { st with by_id := alistSet st.by_id cid e', cold_archive := arch } := by
  obtain ⟨w1, w2, w3⟩ := hwf
  have hmem := alistGet_mem hget
  have hc2 : e.chunk_id = cid := w1 (cid, e) hmem
  refine ⟨?_, ?_, ?_⟩
  · intro p hp
    rcases alistSet_mem hp with rfl | hp
    · show e'.chunk_id = cid
      rw [hcid, hc2]
    · exact w1 p hp
  · intro q hq
    obtain ⟨d, hd, hs⟩ := w2 q hq
    exact ⟨d, by rw [hobt q.2]; exact hd, hs⟩
  · intro p hp
    rcases alistSet_mem hp with rfl | hp
    · exact w3 (cid, e) hmem
    · exact w3 p hp

/-- The fresh-insert branch of `store`: well-formedness, extension, sha
retention, and the new binding. -/
theorem storeFresh_spec (M : Ext) (st : MemStore) (now : Nat) (data : List Nat)
    (hwf : WF M st) (hsha : alistGet st.by_sha (M.sha data) = none) :
    WF M (storeFresh M st now data) ∧
    st.Extends M (storeFresh M st now data) ∧
    st.KeepsSha (storeFresh M st now data) ∧
    (storeFresh M st now data).obtain M st.next_id = some data ∧
    alistGet (storeFresh M st now data).by_sha (M.sha data) = some st.next_id := by
  obtain ⟨w1, w2, w3⟩ := hwf
  have hobt_ne : ∀ x, x ≠ st.next_id →
      (storeFresh M st now data).obtain M x = st.obtain M x := by
    intro x hx
    unfold storeFresh MemStore.obtain
    rw [alistGet_alistSet_ne _ _ _ _ hx]
  have hobt_self : (storeFresh M st now data).obtain M st.next_id = some data := by
    unfold storeFresh MemStore.obtain
    rw [alistGet_alistSet_self]
  refine ⟨⟨?_, ?_, ?_⟩, ?_, ?_, hobt_self, ?_⟩
  · intro p hp
    rcases alistSet_mem hp with rfl | hp
    · rfl
    · exact w1 p hp
  · intro q hq
    rcases alistSet_mem hq with rfl | hq
    · exact ⟨data, hobt_self, rfl⟩
    · obtain ⟨d, hd, hs⟩ := w2 q hq
      obtain ⟨e0, he0⟩ := obtain_by_id hd
      have hlt : q.2 < st.next_id := w3 (q.2, e0) (alistGet_mem he0)
      exact ⟨d, by rw [hobt_ne q.2 (by omega)]; exact hd, hs⟩
  · intro p hp
    rcases alistSet_mem hp with rfl | hp
    · show st.next_id < st.next_id + 1
      omega
    · have := w3 p hp
      show p.1 < st.next_id + 1
      omega
  · intro x d h
    obtain ⟨e0, he0⟩ := obtain_by_id h
    have hlt : x < st.next_id := w3 (x, e0) (alistGet_mem he0)
    rw [hobt_ne x (by omega)]
    exact h
  · intro k c h
    by_cases hk : k = M.sha data
    · rw [hk, hsha] at h
      simp at h
    · show alistGet (alistSet st.by_sha (M.sha data) st.next_id) k = some c
      rw [alistGet_alistSet_ne _ _ _ _ hk]
      exact h
  · exact alistGet_alistSet_self _ _ _

/-- The fresh-insert branch followed by the conditional auto-archive. -/
theorem storeFresh_archive_spec (M : Ext) (st : MemStore) (now : Nat) (data : List Nat)
    (c : Prop) [Decidable c] (hwf : WF M st)
    (hsha : alistGet st.by_sha (M.sha data) = none) :
    WF M (if c then ((storeFresh M st now data).archive_cold M now).1
          else storeFresh M st now data) ∧
    st.Extends M (if c then ((storeFresh M st now data).archive_cold M now).1
          else storeFresh M st now data) ∧
    st.KeepsSha (if c then ((storeFresh M st now data).archive_cold M now).1
          else storeFresh M st now data) ∧
    (if c then ((storeFresh M st now data).archive_cold M now).1
          else storeFresh M st now data).obtain M st.next_id = some data ∧
    alistGet (if c then ((storeFresh M st now data).archive_cold M now).1
          else storeFresh M st now data).by_sha (M.sha data) = some st.next_id ∧
    st.next_id < (if c then ((storeFresh M st now data).archive_cold M now).1
          else storeFresh M st now data).next_id ∧
    st.next_id ≤ (if c then ((storeFresh M st now data).archive_cold M now).1
          else storeFresh M st now data).next_id ∧
    (if c then ((storeFresh M st now data).archive_cold M now).1
          else storeFresh M st now data).next_id ≤ st.next_id + 1 := by
  obtain ⟨f1, f2, f3, f4, f5⟩ := storeFresh_spec M st now data hwf hsha
  have hnid : (storeFresh M st now data).next_id = st.next_id + 1 := rfl
  split
  · obtain ⟨a1, a2, a3, a4⟩ := archive_cold_spec M (storeFresh M st now data) now f1
    refine ⟨a1, ?_, ?_, ?_, ?_, ?_, ?_, ?_⟩
    · intro x d h
      rw [a2 x]
      exact f2 x d h
    · intro k cc h
      rw [a3]
      exact f3 k cc h
    · rw [a2]
      exact f4
    · rw [a3]
      exact f5
    · rw [a4, hnid]
      omega
    · rw [a4, hnid]
      omega
    · rw [a4]
      exact hnid.le
  · refine ⟨f1, f2, f3, f4, f5, ?_, ?_, ?_⟩
    · rw [hnid]
      omega
    · rw [hnid]
      omega
    · exact hnid.le

/-- `store` preserves well-formedness, extends the observable map, keeps
every `by_sha` binding, leaves the stored bytes obtainable under the
returned entry's id with `by_sha` pointing the digest at it, and advances
the allocation counter by at most one. -/
theorem store_spec (M : Ext) (st : MemStore) (now : Nat) (data : List Nat)
    (hwf : WF M st) :
    WF M (st.store M now data).2 ∧
    st.Extends M (st.store M now data).2 ∧
    st.KeepsSha (st.store M now data).2 ∧
    (st.store M now data).2.obtain M (st.store M now data).1.chunk_id = some data ∧
    alistGet (st.store M now data).2.by_sha (M.sha data) =
      some (st.store M now data).1.chunk_id ∧
    (st.store M now data).1.chunk_id < (st.store M now data).2.next_id ∧
    st.next_id ≤ (st.store M now data).2.next_id ∧
    (st.store M now data).2.next_id ≤ st.next_id + 1 := by
  unfold MemStore.store
  dsimp only
  cases hsha : alistGet st.by_sha (M.sha data) with
  | some cid =>
    dsimp only
    cases hid : alistGet st.by_id cid with
    | none =>
      exfalso
      obtain ⟨d, hd, _⟩ := hwf.2.1 (M.sha data, cid) (alistGet_mem hsha)
      obtain ⟨e0, he0⟩ := obtain_by_id hd
      rw [hid] at he0
      simp at he0
    | some e =>
      dsimp only
      have hcid : e.chunk_id = cid := hwf.1 (cid, e) (alistGet_mem hid)
      cases hdata : e.data with
      | some d0 =>
        dsimp only
        have hobt := obtain_set_entry_eq M st cid e
          { e with ref_count := e.ref_count + 1, last_access := now } hid rfl
          st.cold_archive rfl
        have hwf' := WF_set_entry M st cid e
          { e with ref_count := e.ref_count + 1, last_access := now } hid rfl rfl hwf
        obtain ⟨d, hd, hs⟩ := hwf.2.1 (M.sha data, cid) (alistGet_mem hsha)
        have hde : d = data := M.sha_injective hs
        refine ⟨hwf', ?_, ?_, ?_, ?_, ?_, ?_, ?_⟩
        · intro x dd h
          rw [hobt x]
          exact h
        · exact fun k c h => h
        · rw [hobt (({ e with ref_count := e.ref_count + 1, last_access := now } :
            ChunkEntry).chunk_id)]
          show st.obtain M e.chunk_id = some data
          rw [hcid, ← hde]
          exact hd
        · show alistGet st.by_sha (M.sha data) = some e.chunk_id
          rw [hcid]
          exact hsha
        · show e.chunk_id < st.next_id
          rw [hcid]
          exact hwf.2.2 (cid, e) (alistGet_mem hid)
        · show st.next_id ≤ st.next_id
          omega
        · show st.next_id ≤ st.next_id + 1
          omega
      | none =>
        cases harch : alistGet st.cold_archive cid with
        | none =>
          exfalso
          obtain ⟨d, hd, _⟩ := hwf.2.1 (M.sha data, cid) (alistGet_mem hsha)
          unfold MemStore.obtain at hd
          rw [hid] at hd
          dsimp only at hd
          rw [hdata, harch] at hd
          simp at hd
        | some z =>
          dsimp only
          have hobt : ∀ x, (MemStore.obtain M
              { st with
                by_id := alistSet st.by_id cid { e with data := some (M.zlibD z), ref_count := e.ref_count + 1, last_access := now },
                cold_archive := alistPop st.cold_archive cid } x) = st.obtain M x := by
            intro x
            by_cases hx : x = cid
            · subst hx
              unfold MemStore.obtain
              rw [alistGet_alistSet_self, hid]
              dsimp only
              rw [hdata, harch]
              rfl
            · unfold MemStore.obtain
              rw [alistGet_alistSet_ne _ _ _ _ hx]
              cases h0 : alistGet st.by_id x with
              | none => rfl
              | some e0 =>
                dsimp only
                cases h1 : e0.data with
                | some dd => rfl
                | none => rw [alistGet_alistPop_ne st.cold_archive cid x hx]
          have hwf' := WF_set_entry_arch M st cid e
            { e with data := some (M.zlibD z), ref_count := e.ref_count + 1, last_access := now }
            (alistPop st.cold_archive cid) hid rfl hwf hobt
          obtain ⟨d, hd, hs⟩ := hwf.2.1 (M.sha data, cid) (alistGet_mem hsha)
          have hde : d = data := M.sha_injective hs
          refine ⟨hwf', ?_, ?_, ?_, ?_, ?_, ?_, ?_⟩
          · intro x dd h
            rw [hobt x]
            exact h
          · exact fun k c h => h
          · rw [hobt]
            show st.obtain M e.chunk_id = some data
            rw [hcid, ← hde]
            exact hd
          · show alistGet st.by_sha (M.sha data) = some e.chunk_id
            rw [hcid]
            exact hsha
          · show e.chunk_id < st.next_id
            rw [hcid]
            exact hwf.2.2 (cid, e) (alistGet_mem hid)
          · show st.next_id ≤ st.next_id
            omega
          · show st.next_id ≤ st.next_id + 1
            omega
  | none =>
    dsimp only
    exact storeFresh_archive_spec M st now data _ hwf hsha

theorem TokC4_mono {M : Ext} {st st' : MemStore} {tok : Token} {c : List Nat}
    (hsha : st.KeepsSha st') (hnid : st.next_id ≤ st'.next_id)
    (h : TokC4 M st tok c) : TokC4 M st' tok c := by
  rcases h with ⟨cid, h1, h2, h3⟩ | h
  · exact Or.inl ⟨cid, h1, hsha _ _ h2, by omega⟩
  · exact Or.inr h

/-- Every entry `get_predicted_chunks` returns is a live `by_id` entry. -/
theorem get_predicted_mem (st : MemStore) (t k : Nat) (e : ChunkEntry)
    (h : e ∈ st.get_predicted_chunks t k) : ∃ cid, alistGet st.by_id cid = some e := by
  unfold MemStore.get_predicted_chunks at h
  by_cases hemp : ((alistGet st.cooccurrence t).getD []).isEmpty
  · rw [if_pos hemp] at h
    simp at h
  · rw [if_neg hemp] at h
    rw [List.mem_filterMap] at h
    obtain ⟨p, _, hp⟩ := h
    exact ⟨p.1, hp⟩

/-- `get_dictionary_and_ids` preserves the predictor invariant and, on a
hit, hands back a non-empty id list of obtainable non-empty chunks whose
concatenation is the dictionary. -/
theorem get_dictionary_and_ids_spec (M : Ext) (st : MemStore) (trigger : Nat)
    (p : Predictor) (hwf : WF M st) (hp : PredWF M st (some p)) :
    PredWF M st (some (p.get_dictionary_and_ids st trigger).2) ∧
    (∀ dict dids, (p.get_dictionary_and_ids st trigger).1 = some (dict, dids) →
      dids ≠ [] ∧ (∀ did ∈ dids, ∃ dd, st.obtain M did = some dd ∧ dd ≠ []) ∧
      dict = (dids.map fun did => ((st.obtain M did).getD [])).flatten) := by
  have hkeep : ∀ e ∈ (st.get_predicted_chunks trigger 5).filter
      (fun e => dataTruthy e.data),
      ∃ dd, st.obtain M e.chunk_id = some dd ∧ dd ≠ [] ∧ e.data = some dd := by
    intro e he
    rw [List.mem_filter] at he
    obtain ⟨hmem, htr⟩ := he
    obtain ⟨cid, hcid⟩ := get_predicted_mem st trigger 5 e hmem
    have hc : e.chunk_id = cid := hwf.1 (cid, e) (alistGet_mem hcid)
    cases hdat : e.data with
    | none => rw [hdat] at htr; simp [dataTruthy] at htr
    | some dd =>
      cases dd with
      | nil => rw [hdat] at htr; simp [dataTruthy] at htr
      | cons a as =>
        refine ⟨a :: as, ?_, by simp, rfl⟩
        rw [hc]
        unfold MemStore.obtain
        rw [hcid]
        dsimp only
        rw [hdat]
  unfold Predictor.get_dictionary_and_ids
  cases hcache : alistGet p.dict_cache trigger with
  | some entry =>
    dsimp only
    refine ⟨hp, ?_⟩
    intro dict dids h
    have hent : entry = (dict, dids) := Option.some.inj h
    obtain ⟨h1, h2, h3⟩ := hp (trigger, entry) (alistGet_mem hcache)
    rw [hent] at h1 h2 h3
    exact ⟨h1, h2, h3⟩
  | none =>
    dsimp only
    by_cases hemp : (st.get_predicted_chunks trigger 5).isEmpty
    · rw [if_pos hemp]
      exact ⟨hp, fun dict dids h => by simp at h⟩
    · rw [if_neg hemp]
      by_cases hlen : (((st.get_predicted_chunks trigger 5).filter
          (fun e => dataTruthy e.data)).map (fun e => e.data.getD [])).flatten.length < 64
      · rw [if_pos hlen]
        exact ⟨hp, fun dict dids h => by simp at h⟩
      · rw [if_neg hlen]
        dsimp only
        have hne : (st.get_predicted_chunks trigger 5).filter
            (fun e => dataTruthy e.data) ≠ [] := by
          intro hnil
          rw [hnil] at hlen
          simp at hlen
        have hdict : (((st.get_predicted_chunks trigger 5).filter
              (fun e => dataTruthy e.data)).map (fun e => e.data.getD [])).flatten =
            ((((st.get_predicted_chunks trigger 5).filter
              (fun e => dataTruthy e.data)).map (fun e => e.chunk_id)).map
                fun did => ((st.obtain M did).getD [])).flatten := by
          rw [List.map_map]
          apply congrArg
          apply List.map_congr_left
          intro e he
          obtain ⟨dd, hobt, hddne, hdat⟩ := hkeep e he
          show e.data.getD [] = (st.obtain M e.chunk_id).getD []
          rw [hdat, hobt]
        have hids : ∀ did ∈ ((st.get_predicted_chunks trigger 5).filter
            (fun e => dataTruthy e.data)).map (fun e => e.chunk_id),
            ∃ dd, st.obtain M did = some dd ∧ dd ≠ [] := by
          intro did hdid
          rw [List.mem_map] at hdid
          obtain ⟨e, he, hce⟩ := hdid
          obtain ⟨dd, hobt, hddne, _⟩ := hkeep e he
          rw [← hce]
          exact ⟨dd, hobt, hddne⟩
        have hidsne : ((st.get_predicted_chunks trigger 5).filter
            (fun e => dataTruthy e.data)).map (fun e => e.chunk_id) ≠ [] := by
          intro hnil
          rw [List.map_eq_nil_iff] at hnil
          exact hne hnil
        constructor
        · intro q hq
          rcases alistSet_mem hq with rfl | hq
          · exact ⟨hidsne, hids, hdict⟩
          · have hq' : q ∈ p.dict_cache := by
              split at hq
              · split at hq
                · simp at hq
                · exact List.mem_of_mem_filter hq
              · exact hq
            exact hp q hq'
        · intro dict dids h
          have h2 := Option.some.inj h
          have hdi : dids = ((st.get_predicted_chunks trigger 5).filter
              (fun e => dataTruthy e.data)).map (fun e => e.chunk_id) :=
            (congrArg Prod.snd h2).symm
          have hdc : dict = (((st.get_predicted_chunks trigger 5).filter
              (fun e => dataTruthy e.data)).map (fun e => e.data.getD [])).flatten :=
            (congrArg Prod.fst h2).symm
          subst hdi
          subst hdc
          exact ⟨hidsne, hids, hdict⟩

/-- The cache-warming fold of `update_after_encode` preserves the predictor
invariant. -/
theorem warmFold_predwf (M : Ext) (st : MemStore) (hwf : WF M st) (l : List Nat) :
    ∀ pr : Predictor, PredWF M st (some pr) →
      PredWF M st (some (l.foldl (fun pr cid =>
        match alistGet pr.dict_cache cid with
        | some _ => pr
        | none => (pr.get_dictionary_and_ids st cid).2) pr)) := by
  induction l with
  | nil => intro pr h; exact h
  | cons c rest ih =>
    intro pr h
    rw [List.foldl_cons]
    apply ih
    cases hc : alistGet pr.dict_cache c with
    | some e => dsimp only; exact h
    | none => dsimp only; exact (get_dictionary_and_ids_spec M st c pr hwf h).1

/-- `update_after_encode` leaves every store observable unchanged and keeps
the predictor invariant. -/
theorem update_after_encode_spec (M : Ext) (st : MemStore) (p : Predictor)
    (ids : List Nat) (hwf : WF M st) (hp : PredWF M st (some p)) :
    WF M (p.update_after_encode st ids).1 ∧
    (∀ x, (p.update_after_encode st ids).1.obtain M x = st.obtain M x) ∧
    (p.update_after_encode st ids).1.by_sha = st.by_sha ∧
    (p.update_after_encode st ids).1.next_id = st.next_id ∧
    PredWF M (p.update_after_encode st ids).1 (some (p.update_after_encode st ids).2) := by
  unfold Predictor.update_after_encode
  by_cases hlen : ids.length < 2
  · rw [if_pos hlen]
    exact ⟨hwf, fun x => rfl, rfl, rfl, hp⟩
  · rw [if_neg hlen]
    dsimp only
    have hwf1 : WF M (st.record_cooccurrence ids) := hwf
    have hp1 : PredWF M (st.record_cooccurrence ids) (some p) := hp
    exact ⟨hwf1, fun x => rfl, rfl, rfl,
      warmFold_predwf M (st.record_cooccurrence ids) hwf1 _ p hp1⟩

theorem Except_bind_ok {ε α β : Type} (a : α) (f : α → Except ε β) :
    ((Except.ok a : Except ε α) >>= f) = f a := rfl

theorem Except_bind_error {ε α β : Type} (e : ε) (f : α → Except ε β) :
    ((Except.error e : Except ε α) >>= f) = (Except.error e : Except ε β) := rfl

theorem Except_pure_bind {ε α β : Type} (a : α) (f : α → Except ε β) :
    ((pure a : Except ε α) >>= f) = f a := rfl

theorem Except_throw_bind {ε α β : Type} (e : ε) (f : α → Except ε β) :
    ((throw e : Except ε α) >>= f) = (Except.error e : Except ε β) := rfl

/-- `predSelect` returns a decodable token (the input one, or a PRED built
from the predictor's dictionary) and keeps the predictor invariant. -/
theorem predSelect_spec (M : Ext) (st2 : MemStore) (arg : Option Predictor)
    (chunkIds chunk : List Nat) (b : Token)
    (hwf2 : WF M st2) (hp2 : PredWF M st2 arg) (hb : TokenOK M st2 b chunk) :
    TokenOK M st2 (predSelect M st2 arg chunkIds chunk b).1 chunk ∧
    PredWF M st2 (predSelect M st2 arg chunkIds chunk b).2 ∧
    ((predSelect M st2 arg chunkIds chunk b).1 = b ∨
      ∃ dids dict, (predSelect M st2 arg chunkIds chunk b).1 =
        .pred dids (M.compressD dict chunk)) := by
  unfold predSelect
  cases arg with
  | none => exact ⟨hb, trivial, Or.inl rfl⟩
  | some pr =>
    dsimp only
    cases hL : chunkIds.getLast? with
    | none => exact ⟨hb, hp2, Or.inl rfl⟩
    | some lastId =>
      dsimp only
      obtain ⟨g1, g2⟩ := get_dictionary_and_ids_spec M st2 lastId pr hwf2 hp2
      cases hres : (pr.get_dictionary_and_ids st2 lastId).1 with
      | none => exact ⟨hb, g1, Or.inl rfl⟩
      | some di =>
        dsimp only
        obtain ⟨di1, di2⟩ := di
        obtain ⟨hne, hobt, hdict⟩ := g2 di1 di2 hres
        have htok : TokenOK M st2 (.pred di2 (M.compressD di1 chunk)) chunk := by
          refine ⟨hne, hobt, ?_⟩
          rw [← hdict]
          exact M.decompressD_compressD di1 chunk
        by_cases hlen : (serializeToken (.pred di2 (M.compressD di1 chunk))).length <
            (serializeToken b).length
        · rw [if_pos hlen]
          exact ⟨htok, g1, Or.inr ⟨di2, di1, rfl⟩⟩
        · rw [if_neg hlen]
          exact ⟨hb, g1, Or.inl rfl⟩

/-- The shared tail of the per-chunk encode step: predictor selection
followed by `store`. -/
theorem encodeStep_tail (M : Ext) (now : Nat) (st st2 : MemStore)
    (arg : Option Predictor) (chunkIds chunk : List Nat) (b : Token)
    (hwf2 : WF M st2) (hp2 : PredWF M st2 arg)
    (hchain : ∀ x, st2.obtain M x = st.obtain M x)
    (hbsha : st2.by_sha = st.by_sha) (hbnid : st2.next_id = st.next_id)
    (hb : TokenOK M st2 b chunk)
    (hshape : b = .full (M.compress chunk) ∨
      ∃ rid sd, b = .delta rid (M.compressD sd chunk)) :
    WF M (MemStore.store M st2 now chunk).2 ∧
    st.Extends M (MemStore.store M st2 now chunk).2 ∧
    st.KeepsSha (MemStore.store M st2 now chunk).2 ∧
    PredWF M (MemStore.store M st2 now chunk).2
      (predSelect M st2 arg chunkIds chunk b).2 ∧
    TokenOK M (MemStore.store M st2 now chunk).2
      (predSelect M st2 arg chunkIds chunk b).1 chunk ∧
    TokC4 M (MemStore.store M st2 now chunk).2
      (predSelect M st2 arg chunkIds chunk b).1 chunk ∧
    (∃ cid, alistGet (MemStore.store M st2 now chunk).2.by_sha (M.sha chunk) = some cid ∧
      cid < (MemStore.store M st2 now chunk).2.next_id) ∧
    st.next_id ≤ (MemStore.store M st2 now chunk).2.next_id ∧
    (MemStore.store M st2 now chunk).2.next_id ≤ st.next_id + 1 := by
  obtain ⟨P1, P2, P3⟩ := predSelect_spec M st2 arg chunkIds chunk b hwf2 hp2 hb
  obtain ⟨S1, S2, S3, S4, S5, S6, S7, S8⟩ := store_spec M st2 now chunk hwf2
  refine ⟨S1, ?_, ?_, PredWF_mono S2 P2, TokenOK_mono S2 P1, ?_, ⟨_, S5, S6⟩, ?_, ?_⟩
  · intro x d hh
    exact S2 x d (by rw [hchain x]; exact hh)
  · intro k c hh
    exact S3 k c (by rw [hbsha]; exact hh)
  · rcases P3 with hP | ⟨dids, dict, hP⟩
    · rw [hP]
      rcases hshape with hsh | ⟨rid, sd, hsh⟩
      · exact Or.inr (Or.inl hsh)
      · exact Or.inr (Or.inr (Or.inl ⟨rid, sd, hsh⟩))
    · rw [hP]
      exact Or.inr (Or.inr (Or.inr ⟨dids, dict, rfl⟩))
  · rw [hbnid] at S7
    exact S7
  · rw [hbnid] at S8
    exact S8

/-- One iteration of the batch encode loop: the store only grows, the
emitted token decodes to the chunk against the new store, it has one of the
four encoder shapes, and the chunk's digest is indexed afterwards. -/
theorem encodeChunkStep_spec (M : Ext) (now : Nat) (st : MemStore)
    (arg : Option Predictor) (chunkIds : List Nat) (chunk : List Nat)
    (hwf : WF M st) (hp : PredWF M st arg) :
    ∀ tok st' arg' ids',
      encodeChunkStep M now st arg chunkIds chunk = .ok (tok, st', arg', ids') →
      WF M st' ∧ st.Extends M st' ∧ st.KeepsSha st' ∧ PredWF M st' arg' ∧
      TokenOK M st' tok chunk ∧ TokC4 M st' tok chunk ∧
      (∃ cid, alistGet st'.by_sha (M.sha chunk) = some cid ∧ cid < st'.next_id) ∧
      st.next_id ≤ st'.next_id ∧ st'.next_id ≤ st.next_id + 1 := by
  intro tok st' arg' ids' h
  unfold encodeChunkStep at h
  dsimp only at h
  obtain ⟨L1, L2, L3, L4, L5, L6⟩ := lookup_exact_spec M st now (M.sha chunk) hwf
  cases hE : (st.lookup_exact now (M.sha chunk)).1 with
  | some e =>
    rw [hE] at h
    dsimp only at h
    have h4 := Except.ok.inj h
    simp only [Prod.mk.injEq] at h4
    obtain ⟨h5, h6, h7, h8⟩ := h4
    subst h5
    subst h6
    subst h7
    obtain ⟨d, hd, hsha⟩ := L5 e hE
    have hdc : d = chunk := M.sha_injective hsha
    rw [hdc] at hd
    have hbind := L6 e hE
    obtain ⟨e0, he0⟩ := obtain_by_id hd
    have hlt : e.chunk_id < (st.lookup_exact now (M.sha chunk)).2.next_id :=
      L1.2.2 (e.chunk_id, e0) (alistGet_mem he0)
    refine ⟨L1, ?_, ?_, PredWF_of_obtain_eq L2 hp, hd,
      Or.inl ⟨e.chunk_id, rfl, hbind, hlt⟩, ⟨e.chunk_id, hbind, hlt⟩, ?_, ?_⟩
    · intro x dd hh
      rw [L2 x]
      exact hh
    · intro k c hh
      rw [L3]
      exact hh
    · rw [L4]
    · rw [L4]
      omega
  | none =>
    rw [hE] at h
    dsimp only at h
    cases hS : (st.lookup_exact now (M.sha chunk)).2.lookup_similar now (simhash64 chunk) with
    | error msg =>
      rw [hS, Except_bind_error] at h
      exact Except.noConfusion h
    | ok v =>
      obtain ⟨similar, st2⟩ := v
      rw [hS, Except_bind_ok] at h
      dsimp only at h
      have hsim := lookup_similar_spec M (st.lookup_exact now (M.sha chunk)).2 now
        (simhash64 chunk) L1
      rw [hS] at hsim
      dsimp only at hsim
      obtain ⟨W2, O2, B2, N2, D2⟩ := hsim
      have hchain : ∀ x, st2.obtain M x = st.obtain M x :=
        fun x => (O2 x).trans (L2 x)
      have hbsha : st2.by_sha = st.by_sha := B2.trans L3
      have hbnid : st2.next_id = st.next_id := N2.trans L4
      have hp2 : PredWF M st2 arg := PredWF_of_obtain_eq hchain hp
      cases similar with
      | none =>
        rw [Except_pure_bind] at h
        dsimp only at h
        have h4 := Except.ok.inj h
        simp only [Prod.mk.injEq] at h4
        obtain ⟨h5, h6, h7, h8⟩ := h4
        subst h5
        subst h6
        subst h7
        exact encodeStep_tail M now st st2 arg chunkIds chunk
          (.full (M.compress chunk)) W2 hp2 hchain hbsha hbnid
          (M.decompress_compress chunk) (Or.inl rfl)
      | some sim =>
        dsimp only at h
        cases hSD : sim.data with
        | none =>
          rw [hSD] at h
          dsimp only at h
          rw [Except_throw_bind] at h
          exact Except.noConfusion h
        | some sdata =>
          rw [hSD] at h
          dsimp only at h
          rw [Except_pure_bind] at h
          have h4 := Except.ok.inj h
          simp only [Prod.mk.injEq] at h4
          obtain ⟨h5, h6, h7, h8⟩ := h4
          subst h5
          subst h6
          subst h7
          have hobtsim : st2.obtain M sim.chunk_id = some sdata := D2 sim sdata rfl hSD
          have hb : TokenOK M st2
              (if (serializeToken (Token.delta sim.chunk_id (M.compressD sdata chunk))).length <
                  (serializeToken (Token.full (M.compress chunk))).length then
                Token.delta sim.chunk_id (M.compressD sdata chunk)
              else Token.full (M.compress chunk)) chunk := by
            split
            · exact ⟨sdata, hobtsim, M.decompressD_compressD sdata chunk⟩
            · exact M.decompress_compress chunk
          have hshape :
              (if (serializeToken (Token.delta sim.chunk_id (M.compressD sdata chunk))).length <
                  (serializeToken (Token.full (M.compress chunk))).length then
                Token.delta sim.chunk_id (M.compressD sdata chunk)
              else Token.full (M.compress chunk)) = .full (M.compress chunk) ∨
              ∃ rid sd, (if (serializeToken (Token.delta sim.chunk_id
                    (M.compressD sdata chunk))).length <
                  (serializeToken (Token.full (M.compress chunk))).length then
                Token.delta sim.chunk_id (M.compressD sdata chunk)
              else Token.full (M.compress chunk)) = .delta rid (M.compressD sd chunk) := by
            split
            · exact Or.inr ⟨sim.chunk_id, sdata, rfl⟩
            · exact Or.inl rfl
          exact encodeStep_tail M now st st2 arg chunkIds chunk _ W2 hp2 hchain hbsha
            hbnid hb hshape

/-- The batch encode loop: every emitted token decodes to its chunk against
the final store, has an encoder shape, and every processed chunk's digest is
indexed. -/
theorem encodeFold_spec (M : Ext) (now : Nat) (chunks : List (List Nat)) :
    ∀ (toks : List Token) (stats : Stats) (st : MemStore) (arg : Option Predictor)
      (ids : List Nat) (done : List (List Nat)) (toks' : List Token) (stats' : Stats)
      (st' : MemStore) (arg' : Option Predictor) (ids' : List Nat),
      WF M st → PredWF M st arg →
      List.Forall₂ (fun tok c => TokenOK M st tok c ∧ TokC4 M st tok c) toks done →
      (∀ c ∈ done, ∃ cid, alistGet st.by_sha (M.sha c) = some cid ∧ cid < st.next_id) →
      chunks.foldlM
        (fun (acc : List Token × Stats × MemStore × Option Predictor × List Nat) chunk => do
          let (toks, stats, st, p, ids) := acc
          let (tok, st, p, ids) ← encodeChunkStep M now st p ids chunk
          return (toks ++ [tok], stats.bump tok, st, p, ids))
        (toks, stats, st, arg, ids) = .ok (toks', stats', st', arg', ids') →
      WF M st' ∧ PredWF M st' arg' ∧ st.Extends M st' ∧ st.KeepsSha st' ∧
      List.Forall₂ (fun tok c => TokenOK M st' tok c ∧ TokC4 M st' tok c) toks'
        (done ++ chunks) ∧
      (∀ c ∈ done ++ chunks, ∃ cid, alistGet st'.by_sha (M.sha c) = some cid ∧
        cid < st'.next_id) ∧
      st.next_id ≤ st'.next_id ∧ st'.next_id ≤ st.next_id + chunks.length ∧
      (∃ ts, toks' = toks ++ ts) := by
  induction chunks with
  | nil =>
    intro toks stats st arg ids done toks' stats' st' arg' ids' hwf hp hf hsha h
    rw [List.foldlM_nil] at h
    have h4 := Except.ok.inj h
    simp only [Prod.mk.injEq] at h4
    obtain ⟨r1, r2, r3, r4, r5⟩ := h4
    subst r1
    subst r2
    subst r3
    subst r4
    simp only [List.append_nil, List.length_nil]
    exact ⟨hwf, hp, fun x d hh => hh, fun k c hh => hh, hf, hsha, le_refl _, by omega,
      ⟨[], (List.append_nil toks).symm⟩⟩
  | cons c rest ih =>
    intro toks stats st arg ids done toks' stats' st' arg' ids' hwf hp hf hsha h
    rw [List.foldlM_cons] at h
    dsimp only at h
    cases hstep : encodeChunkStep M now st arg ids c with
    | error msg =>
      rw [hstep, Except_bind_error, Except_bind_error] at h
      exact Except.noConfusion h
    | ok v =>
      obtain ⟨tok, st2, arg2, ids2⟩ := v
      rw [hstep, Except_bind_ok] at h
      dsimp only at h
      rw [Except_pure_bind] at h
      obtain ⟨S1, S2, S3, S4, S5, S6, S7, S8, S9⟩ :=
        encodeChunkStep_spec M now st arg ids c hwf hp tok st2 arg2 ids2 hstep
      have hf2 : List.Forall₂ (fun tok c => TokenOK M st2 tok c ∧ TokC4 M st2 tok c)
          (toks ++ [tok]) (done ++ [c]) :=
        List.rel_append
          (List.Forall₂.imp (fun a b hab => ⟨TokenOK_mono S2 hab.1, TokC4_mono S3 S8 hab.2⟩) hf)
          (List.Forall₂.cons ⟨S5, S6⟩ List.Forall₂.nil)
      have hsha2 : ∀ cc ∈ done ++ [c],
          ∃ cid, alistGet st2.by_sha (M.sha cc) = some cid ∧ cid < st2.next_id := by
        intro cc hcc
        rcases List.mem_append.mp hcc with hcc | hcc
        · obtain ⟨cid, hg, hlt⟩ := hsha cc hcc
          exact ⟨cid, S3 _ _ hg, by omega⟩
        · rw [List.mem_singleton] at hcc
          subst hcc
          exact S7
      obtain ⟨G1, G2, G3, G4, G5, G6, G7, G8, G9⟩ := ih (toks ++ [tok]) (stats.bump tok)
        st2 arg2 ids2 (done ++ [c]) toks' stats' st' arg' ids' S1 S4 hf2 hsha2 h
      have hde : done ++ c :: rest = (done ++ [c]) ++ rest := by simp
      refine ⟨G1, G2, ?_, ?_, ?_, ?_, ?_, ?_, ?_⟩
      · intro x d hh
        exact G3 x d (S2 x d hh)
      · intro k cc hh
        exact G4 k cc (S3 k cc hh)
      · rw [hde]
        exact G5
      · rw [hde]
        exact G6
      · omega
      · rw [List.length_cons]
        omega
      · obtain ⟨ts, hts⟩ := G9
        exact ⟨tok :: ts, by rw [hts]; simp⟩

theorem Except_bind_eq_ok {ε α β : Type} {x : Except ε α} {f : α → Except ε β} {b : β}
    (h : (x >>= f) = .ok b) : ∃ a, x = .ok a ∧ f a = .ok b := by
  cases x with
  | error e => rw [Except_bind_error] at h; exact Except.noConfusion h
  | ok a => exact ⟨a, rfl, by rw [Except_bind_ok] at h; exact h⟩

theorem update_after_encode_obtain (M : Ext) (st : MemStore) (p : Predictor)
    (ids : List Nat) :
    ∀ x, (p.update_after_encode st ids).1.obtain M x = st.obtain M x := by
  unfold Predictor.update_after_encode
  by_cases hlen : ids.length < 2
  · rw [if_pos hlen]
    exact fun x => rfl
  · rw [if_neg hlen]
    exact fun x => rfl

/-- `cogdedup_encode` produces the UCOG header followed by the serialised
tokens, one per chunk, each decodable against the returned store. -/
theorem cogdedup_encode_spec (M : Ext) (now : Nat) (data : List Nat) (st : MemStore)
    (dataId : String) (arg : Option Predictor) (hwf : WF M st) (hp : PredWF M st arg) :
    ∀ blob stats st' p',
      cogdedup_encode M now data st dataId arg = .ok (blob, stats, st', p') →
      ∃ toks, blob = MAGIC ++ [VERSION] ++
          encodeUvarint (encodeChunkList data).length ++

          (toks.map serializeToken).flatten ∧
        List.Forall₂ (fun tok c => TokenOK M st' tok c) toks (encodeChunkList data) := by
  intro blob stats st' p' h
  unfold cogdedup_encode at h
  dsimp only at h
  obtain ⟨r, hfold, h2⟩ := Except_bind_eq_ok h
  obtain ⟨toks1, stats1, st1, p1, ids1⟩ := r
  obtain ⟨F1, F2, F3, F4, F5, F6, F7, F8, F9⟩ := encodeFold_spec M now
    (encodeChunkList data)
    [] _ st arg [] [] toks1 stats1 st1 p1 ids1 hwf hp List.Forall₂.nil
    (fun c hc => absurd hc (List.not_mem_nil c)) hfold
  simp only [List.nil_append] at F5
  cases p1 with
  | none =>
    dsimp only at h2
    by_cases hd : dataId ≠ ""
    · rw [if_pos hd] at h2
      have h4 := Except.ok.inj h2
      simp only [Prod.mk.injEq] at h4
      obtain ⟨h5, h6, h7, h8⟩ := h4
      subst h5
      subst h7
      exact ⟨toks1, rfl,
        List.Forall₂.imp (fun a b hab => TokenOK_of_obtain_eq (fun x => rfl) hab.1) F5⟩
    · rw [if_neg hd] at h2
      have h4 := Except.ok.inj h2
      simp only [Prod.mk.injEq] at h4
      obtain ⟨h5, h6, h7, h8⟩ := h4
      subst h5
      subst h7
      exact ⟨toks1, rfl,
        List.Forall₂.imp (fun a b hab => TokenOK_of_obtain_eq (fun x => rfl) hab.1) F5⟩
  | some pr =>
    dsimp only at h2
    by_cases hl : ids1.length ≥ 2
    · rw [if_pos hl] at h2
      dsimp only at h2
      by_cases hd : dataId ≠ ""
      · rw [if_pos hd] at h2
        have h4 := Except.ok.inj h2
        simp only [Prod.mk.injEq] at h4
        obtain ⟨h5, h6, h7, h8⟩ := h4
        subst h5
        subst h7
        exact ⟨toks1, rfl, List.Forall₂.imp (fun a b hab =>
          TokenOK_of_obtain_eq (fun x => update_after_encode_obtain M st1 pr ids1 x) hab.1) F5⟩
      · rw [if_neg hd] at h2
        have h4 := Except.ok.inj h2
        simp only [Prod.mk.injEq] at h4
        obtain ⟨h5, h6, h7, h8⟩ := h4
        subst h5
        subst h7
        exact ⟨toks1, rfl, List.Forall₂.imp (fun a b hab =>
          TokenOK_of_obtain_eq (fun x => update_after_encode_obtain M st1 pr ids1 x) hab.1) F5⟩
    · rw [if_neg hl] at h2
      dsimp only at h2
      by_cases hd : dataId ≠ ""
      · rw [if_pos hd] at h2
        have h4 := Except.ok.inj h2
        simp only [Prod.mk.injEq] at h4
        obtain ⟨h5, h6, h7, h8⟩ := h4
        subst h5
        subst h7
        exact ⟨toks1, rfl,
          List.Forall₂.imp (fun a b hab => TokenOK_of_obtain_eq (fun x => rfl) hab.1) F5⟩
      · rw [if_neg hd] at h2
        have h4 := Except.ok.inj h2
        simp only [Prod.mk.injEq] at h4
        obtain ⟨h5, h6, h7, h8⟩ := h4
        subst h5
        subst h7
        exact ⟨toks1, rfl,
          List.Forall₂.imp (fun a b hab => TokenOK_of_obtain_eq (fun x => rfl) hab.1) F5⟩

theorem get_ok (M : Ext) (st : MemStore) (cid : Nat) (d : List Nat)
    (h : st.obtain M cid = some d) :
    ∃ e, (st.get M cid).1 = some e ∧ e.data = some d ∧
      (∀ x, (st.get M cid).2.obtain M x = st.obtain M x) := by
  have hdata := get_data_eq_obtain M st cid
  have hpres := fun x => get_preserves_obtain M st cid x
  cases hE : (st.get M cid).1 with
  | none =>
    rw [hE] at hdata
    dsimp only at hdata
    rw [h] at hdata
    simp at hdata
  | some e =>
    rw [hE] at hdata
    dsimp only at hdata
    rw [h] at hdata
    exact ⟨e, rfl, hdata, hpres⟩

theorem encodeChunkList_flatten (data : List Nat) :
    (encodeChunkList data).flatten = data := by
  unfold encodeChunkList
  by_cases hc : (content_defined_chunks data).isEmpty
  · rw [if_pos hc]
    by_cases hd : data.isEmpty
    · rw [if_pos hd]
      have : data = [] := List.isEmpty_iff.mp hd
      rw [this]
      rfl
    · rw [if_neg hd]
      simp
  · rw [if_neg hc]
    exact content_defined_chunks_flatten data

/-- Decoding one serialised token consumes exactly its bytes, appends the
chunk it stands for, and leaves every chunk's obtainable bytes unchanged. -/
theorem decode_one (M : Ext) (st₀ st : MemStore) (tok : Token) (c : List Nat)
    (hok : TokenOK M st₀ tok c) (hobt : ∀ x, st.obtain M x = st₀.obtain M x)
    (n : Nat) (rest : List Nat) (parts : List (List Nat)) :
    ∃ st', (∀ x, st'.obtain M x = st₀.obtain M x) ∧
      decodeChunks M (n + 1) (serializeToken tok ++ rest) st parts =
        decodeChunks M n rest st' (parts ++ [c]) := by
  cases tok with
  | ref cid =>
    have hobtc : st.obtain M cid = some c := by rw [hobt cid]; exact hok
    obtain ⟨e, hE, hED, hPres⟩ := get_ok M st cid c hobtc
    refine ⟨(st.get M cid).2, fun x => (hPres x).trans (hobt x), ?_⟩
    show decodeChunks M (n + 1) (0x00 :: (encodeUvarint cid ++ rest)) st parts = _
    rw [decodeChunks]
    dsimp only
    rw [if_pos rfl]
    rw [decodeUvarint_encodeUvarint]
    dsimp only
    rw [hE]
    dsimp only
    rw [hED]
  | delta rid d =>
    obtain ⟨base, hbase, hdec⟩ := hok
    have hobtb : st.obtain M rid = some base := by rw [hobt rid]; exact hbase
    obtain ⟨e, hE, hED, hPres⟩ := get_ok M st rid base hobtb
    refine ⟨(st.get M rid).2, fun x => (hPres x).trans (hobt x), ?_⟩
    show decodeChunks M (n + 1)
      (0x01 :: ((encodeUvarint rid ++ encodeUvarint d.length ++ d) ++ rest)) st parts = _
    rw [decodeChunks]
    dsimp only
    rw [if_neg (by omega : ¬ ((0x01:Nat) = 0x00)), if_pos rfl]
    simp only [List.append_assoc]
    rw [decodeUvarint_encodeUvarint]
    dsimp only
    rw [decodeUvarint_encodeUvarint]
    dsimp only
    rw [List.take_left, List.drop_left]
    rw [hE]
    dsimp only
    rw [hED]
    dsimp only
    rw [hdec]
  | full z =>
    refine ⟨st, hobt, ?_⟩
    show decodeChunks M (n + 1) (0x02 :: ((encodeUvarint z.length ++ z) ++ rest)) st parts = _
    rw [decodeChunks]
    dsimp only
    rw [if_neg (by omega : ¬ ((0x02:Nat) = 0x00)),
      if_neg (by omega : ¬ ((0x02:Nat) = 0x01)), if_pos rfl]
    simp only [List.append_assoc]
    rw [decodeUvarint_encodeUvarint]
    dsimp only
    rw [List.take_left, List.drop_left, hok]
  | pred ids d =>
    obtain ⟨hne, hids, hdec⟩ := hok
    have hrb := rebuildDict_spec M ids st []
    obtain ⟨hRB1, hRB2⟩ := hrb
    have hmapeq : (ids.map fun did => ((st.obtain M did).getD [])) =
        (ids.map fun did => ((st₀.obtain M did).getD [])) := by
      apply List.map_congr_left
      intro a _
      rw [hobt a]
    have hcontent : (rebuildDict M st ids).1 =
        (ids.map fun did => ((st₀.obtain M did).getD [])).flatten := by
      show (rebuildDictFold M ids st []).1 = _
      rw [hRB1, hmapeq]
      rfl
    have hcne : (ids.map fun did => ((st₀.obtain M did).getD [])).flatten ≠ [] := by
      cases ids with
      | nil => exact absurd rfl hne
      | cons i is =>
        obtain ⟨dd, hdd, hddne⟩ := hids i (List.mem_cons_self i is)
        simp only [List.map_cons, List.flatten_cons, hdd, Option.getD_some]
        intro hC
        rw [List.append_eq_nil] at hC
        exact hddne hC.1
    refine ⟨(rebuildDict M st ids).2, fun x => (hRB2 x).trans (hobt x), ?_⟩
    show decodeChunks M (n + 1)
      (0x03 :: ((encodeUvarint ids.length ++ (ids.map encodeUvarint).flatten ++
        encodeUvarint d.length ++ d) ++ rest)) st parts = _
    rw [decodeChunks]
    dsimp only
    rw [if_neg (by omega : ¬ ((0x03:Nat) = 0x00)),
      if_neg (by omega : ¬ ((0x03:Nat) = 0x01)),
      if_neg (by omega : ¬ ((0x03:Nat) = 0x02)), if_pos rfl]
    simp only [List.append_assoc]
    rw [decodeUvarint_encodeUvarint]
    dsimp only
    rw [readUvarints_encode]
    dsimp only
    rw [decodeUvarint_encodeUvarint]
    dsimp only
    rw [List.take_left, List.drop_left]
    have hempty : (rebuildDict M st ids).1.isEmpty = false := by
      rw [List.isEmpty_eq_false]
      rw [hcontent]
      exact hcne
    rw [hempty]
    simp only [Bool.false_eq_true, if_false]
    rw [hcontent, hdec]

/-- Decoding the serialised token list of decodable tokens yields the chunk
list. -/
theorem decode_tokens (M : Ext) (st₀ : MemStore) :
    ∀ (toks : List Token) (chunks : List (List Nat)),
      List.Forall₂ (fun tok c => TokenOK M st₀ tok c) toks chunks →
      ∀ (st : MemStore) (parts : List (List Nat)),
        (∀ x, st.obtain M x = st₀.obtain M x) →
        ∃ st', decodeChunks M toks.length ((toks.map serializeToken).flatten) st parts =
          .ok (parts ++ chunks, st') := by
  intro toks
  induction toks with
  | nil =>
    intro chunks hf st parts hobt
    cases hf
    rw [List.append_nil]
    exact ⟨st, rfl⟩
  | cons tok rts ih =>
    intro chunks hf st parts hobt
    cases hf with
    | cons hhead htail =>
      rename_i c cs
      obtain ⟨st1, hst1, heq⟩ := decode_one M st₀ st tok c hhead hobt rts.length
        ((rts.map serializeToken).flatten) parts
      obtain ⟨st', hst'⟩ := ih cs htail st1 (parts ++ [c]) hst1
      refine ⟨st', ?_⟩
      simp only [List.map_cons, List.flatten_cons, List.length_cons]
      rw [heq, hst']
      rw [show (parts ++ [c]) ++ cs = parts ++ c :: cs from by simp]

theorem WF_empty (M : Ext) : WF M MemStore.empty :=
  ⟨fun p hp => absurd hp (List.not_mem_nil p), fun q hq => absurd hq (List.not_mem_nil q),
   fun p hp => absurd hp (List.not_mem_nil p)⟩

/-- C1 counterexample: against an internally inconsistent store the
round-trip fails — `by_sha` maps the digest of `[1]` to a chunk storing
`[2]`, the encoder trusts the index and emits a REF, and the decode
returns `[2]`. -/
theorem claim_C1_counterexample :
    cogdedup_encode padExt 0 [1] c1BadStore "" none =
      .ok (MAGIC ++ [VERSION] ++ encodeUvarint 1 ++ serializeToken (.ref 0),
        ⟨1, 0, 0, 0, 1⟩, c1BadStoreAfter, none) ∧
    cogdedup_decode padExt
      (MAGIC ++ [VERSION] ++ encodeUvarint 1 ++ serializeToken (.ref 0))
      c1BadStoreAfter = .ok ([2], c1BadStoreAfter) ∧
    ([2] : List Nat) ≠ [1] := by
  refine ⟨?_, rfl, by decide⟩
  have h0 : cogdedup_encode padExt 0 [1] c1BadStore "" none =
      .ok (MAGIC ++ [VERSION] ++ encodeUvarint 1 ++ (serializeToken (.ref 0) ++ []),
        ⟨1, 0, 0, 0, 1⟩, c1BadStoreAfter, none) := rfl
  rw [h0, List.append_nil]

/-- C1 as amended: for every well-formed store (`by_sha` keys resolve to
obtainable bytes hashing to that key, predictor cache built from obtainable
data), decoding the blob `cogdedup_encode` produced, against the store the
encode returned, yields exactly the input bytes. -/
theorem claim_C1_roundtrip (M : Ext) (now : Nat) (x : List Nat) (st : MemStore)
    (dataId : String) (arg : Option Predictor) (hwf : WF M st) (hp : PredWF M st arg)
    (blob : List Nat) (stats : Stats) (st' : MemStore) (p' : Option Predictor)
    (henc : cogdedup_encode M now x st dataId arg = .ok (blob, stats, st', p')) :
    ∃ st'', cogdedup_decode M blob st' = .ok (x, st'') := by
  obtain ⟨toks, hblob, hf⟩ := cogdedup_encode_spec M now x st dataId arg hwf hp
    blob stats st' p' henc
  subst hblob
  obtain ⟨st'', hdec⟩ := decode_tokens M st' toks (encodeChunkList x) hf st' []
    (fun y => rfl)
  refine ⟨st'', ?_⟩
  unfold cogdedup_decode
  have htake : (MAGIC ++ [VERSION] ++ encodeUvarint (encodeChunkList x).length ++
      (toks.map serializeToken).flatten).take 4 = MAGIC := rfl
  rw [if_neg (show ¬ ((MAGIC ++ [VERSION] ++
      encodeUvarint (encodeChunkList x).length ++
      (toks.map serializeToken).flatten).take 4 ≠ MAGIC) from fun hC => hC htake)]
  rw [show (MAGIC ++ [VERSION] ++ encodeUvarint (encodeChunkList x).length ++
      (toks.map serializeToken).flatten).drop 4 =
    VERSION :: (encodeUvarint (encodeChunkList x).length ++
      (toks.map serializeToken).flatten) from rfl]
  dsimp only
  rw [if_neg (show ¬ ¬ ((VERSION = 1) ∨ (VERSION = 2)) from by decide)]
  rw [decodeUvarint_encodeUvarint]
  dsimp only
  have hlen : toks.length = (encodeChunkList x).length := hf.length_eq
  rw [← hlen, hdec, Except_bind_ok]
  dsimp only
  simp only [List.nil_append]
  rw [encodeChunkList_flatten]
  rfl

/-- Witness: the round trip at `[1, 2, 3]` against a fresh store. -/
theorem claim_C1_roundtrip_witness :
    WF padExt MemStore.empty ∧
    (∃ st'', cogdedup_decode padExt c1Blob c1Store = .ok ([1, 2, 3], st'')) :=
  ⟨WF_empty padExt,
   claim_C1_roundtrip padExt 0 [1, 2, 3] MemStore.empty "" none (WF_empty padExt)
     trivial c1Blob ⟨0, 0, 1, 0, 1⟩ c1Store none
     (by
       have h0 : cogdedup_encode padExt 0 [1, 2, 3] MemStore.empty "" none =
           .ok (MAGIC ++ [VERSION] ++ encodeUvarint 1 ++
             (serializeToken (.full (padExt.compress [1, 2, 3])) ++ []),
             ⟨0, 0, 1, 0, 1⟩, c1Store, none) := rfl
       rw [h0, List.append_nil]
       rfl)⟩

theorem Forall₂_mem_left {α β : Type} {R : α → β → Prop} :
    ∀ {l₁ : List α} {l₂ : List β}, List.Forall₂ R l₁ l₂ → ∀ a ∈ l₁, ∃ b ∈ l₂, R a b := by
  intro l₁ l₂ h
  induction h with
  | nil => intro a ha; simp at ha
  | @cons x y xs ys hr ht ih =>
    intro a ha
    rcases List.mem_cons.mp ha with rfl | ha
    · exact ⟨y, List.mem_cons_self y ys, hr⟩
    · obtain ⟨b, hb, hab⟩ := ih a ha
      exact ⟨b, List.mem_cons_of_mem _ hb, hab⟩

/-- A non-empty id list of obtainable non-empty chunks always rebuilds a
non-empty dictionary. -/
theorem rebuildDict_ne_nil (M : Ext) (stD : MemStore) (dids : List Nat)
    (hne : dids ≠ [])
    (hids : ∀ did ∈ dids, ∃ dd, stD.obtain M did = some dd ∧ dd ≠ []) :
    (rebuildDict M stD dids).1 ≠ [] := by
  obtain ⟨h1, _⟩ := rebuildDict_spec M dids stD []
  show (rebuildDictFold M dids stD []).1 ≠ []
  rw [h1]
  simp only [List.nil_append]
  cases dids with
  | nil => exact absurd rfl hne
  | cons i is =>
    obtain ⟨dd, hdd, hddne⟩ := hids i (List.mem_cons_self i is)
    simp only [List.map_cons, List.flatten_cons, hdd, Option.getD_some]
    intro hC
    rw [List.append_eq_nil] at hC
    exact hddne hC.1

/-- C10: every PRED_DELTA token the encode loop emits lists at least one
dictionary chunk id, each referring to a chunk whose stored bytes are
non-empty and obtainable from the post-encode store; consequently the
decoder's empty-dictionary failure branch cannot fire for that token
against any store in which those chunks are still obtainable. -/
theorem claim_C10_pred_tokens (M : Ext) (now : Nat) (chunks : List (List Nat))
    (st : MemStore) (arg : Option Predictor) (stats : Stats)
    (hwf : WF M st) (hp : PredWF M st arg)
    (toks' : List Token) (stats' : Stats) (st' : MemStore) (arg' : Option Predictor)
    (ids' : List Nat)
    (h : chunks.foldlM
        (fun (acc : List Token × Stats × MemStore × Option Predictor × List Nat) chunk => do
          let (toks, stats, st, p, ids) := acc
          let (tok, st, p, ids) ← encodeChunkStep M now st p ids chunk
          return (toks ++ [tok], stats.bump tok, st, p, ids))
        ([], stats, st, arg, []) = .ok (toks', stats', st', arg', ids')) :
    ∀ dids d, Token.pred dids d ∈ toks' →
      dids ≠ [] ∧
      (∀ did ∈ dids, ∃ dd, st'.obtain M did = some dd ∧ dd ≠ []) ∧
      (∀ stD : MemStore,
        (∀ did ∈ dids, ∃ dd, stD.obtain M did = some dd ∧ dd ≠ []) →
        (rebuildDict M stD dids).1 ≠ []) := by
  obtain ⟨F1, F2, F3, F4, F5, F6, F7, F8, F9⟩ := encodeFold_spec M now chunks
    [] stats st arg [] [] toks' stats' st' arg' ids' hwf hp List.Forall₂.nil
    (fun c hc => absurd hc (List.not_mem_nil c)) h
  intro dids d hmem
  obtain ⟨c, _, hR⟩ := Forall₂_mem_left F5 _ hmem
  obtain ⟨hne, hids, _⟩ := hR.1
  exact ⟨hne, hids, fun stD hD => rebuildDict_ne_nil M stD dids hne hD⟩

theorem c10Store_wf : WF dictExt c10Store := by
  refine ⟨?_, ?_, ?_⟩
  · intro p hp
    simp only [c10Store, List.mem_singleton] at hp
    subst hp
    rfl
  · intro q hq
    simp only [c10Store, List.mem_singleton] at hq
    subst hq
    exact ⟨List.replicate 64 1, rfl, rfl⟩
  · intro p hp
    simp only [c10Store, List.mem_singleton] at hp
    subst hp
    decide

theorem c10Pred_wf : PredWF dictExt c10Store (some c10Pred) := by
  intro q hq
  simp only [c10Pred, List.mem_singleton] at hq
  subst hq
  refine ⟨by decide, ?_, rfl⟩
  intro did hdid
  rw [List.mem_singleton] at hdid
  subst hdid
  exact ⟨List.replicate 64 1, rfl, by decide⟩

set_option synthInstance.maxSize 512 in
set_option maxHeartbeats 4000000 in
set_option maxRecDepth 4096 in
/-- Witness: a run in which a PRED token is actually emitted (second chunk
compresses to zero bytes against the cached dictionary). -/
theorem claim_C10_pred_tokens_witness :
    WF dictExt c10Store ∧ PredWF dictExt c10Store (some c10Pred) ∧
    Token.pred [0] [] ∈ [Token.ref 0, Token.pred [0] []] ∧
    (([0] : List Nat) ≠ [] ∧
      (∀ did ∈ ([0] : List Nat), ∃ dd, c10StoreAfter.obtain dictExt did = some dd ∧
        dd ≠ []) ∧
      (∀ stD : MemStore,
        (∀ did ∈ ([0] : List Nat), ∃ dd, stD.obtain dictExt did = some dd ∧ dd ≠ []) →
        (rebuildDict dictExt stD [0]).1 ≠ [])) :=
  ⟨c10Store_wf, c10Pred_wf, by decide,
   claim_C10_pred_tokens dictExt 0
     [List.replicate 64 1, List.replicate 64 1 ++ [7]] c10Store (some c10Pred)
     Stats.zero c10Store_wf c10Pred_wf
     [Token.ref 0, Token.pred [0] []] ⟨1, 0, 0, 1, 0⟩ c10StoreAfter (some c10Pred)
     [0, 1] (by decide) [0] [] (by decide)⟩

/-! ## C4 infrastructure -/

theorem encodeChunkStep_empty (M : Ext) (now : Nat) (c : List Nat) :
    encodeChunkStep M now MemStore.empty none [] c =
      .ok (.full (M.compress c), (MemStore.store M MemStore.empty now c).2, none,
        [(MemStore.store M MemStore.empty now c).1.chunk_id]) := rfl

/-- A chunk whose digest is indexed is encoded as a bare REF (the
`lookup_exact` shortcut). -/
theorem encodeChunkStep_hit (M : Ext) (now : Nat) (st : MemStore)
    (arg : Option Predictor) (chunkIds : List Nat) (c : List Nat) (cid : Nat)
    (e : ChunkEntry) (hsha : alistGet st.by_sha (M.sha c) = some cid)
    (hid : alistGet st.by_id cid = some e) :
    encodeChunkStep M now st arg chunkIds c =
      .ok (.ref e.chunk_id,
        { st with by_id := alistSet st.by_id cid { e with ref_count := e.ref_count + 1, last_access := now } },
        arg, chunkIds ++ [e.chunk_id]) := by
  have hle : st.lookup_exact now (M.sha c) =
      (some { e with ref_count := e.ref_count + 1, last_access := now },
       { st with by_id := alistSet st.by_id cid { e with ref_count := e.ref_count + 1, last_access := now } }) := by
    unfold MemStore.lookup_exact
    rw [hsha]
    dsimp only
    rw [hid]
  unfold encodeChunkStep
  dsimp only
  rw [hle]
  rfl

/-- The second-encode loop: every chunk hits, every token is a REF, the
stats only gain `ref` counts, and `by_sha` and the id counter are
untouched. -/
theorem encodeFoldHit (M : Ext) (now : Nat) (chunks : List (List Nat)) :
    ∀ (toks : List Token) (stats : Stats) (st : MemStore) (arg : Option Predictor)
      (ids : List Nat),
      WF M st →
      (∀ c ∈ chunks, ∃ cid, alistGet st.by_sha (M.sha c) = some cid ∧ cid < st.next_id) →
      ∃ toks2 st2 ids2,
        chunks.foldlM
          (fun (acc : List Token × Stats × MemStore × Option Predictor × List Nat) chunk => do
            let (toks, stats, st, p, ids) := acc
            let (tok, st, p, ids) ← encodeChunkStep M now st p ids chunk
            return (toks ++ [tok], stats.bump tok, st, p, ids))
          (toks, stats, st, arg, ids) =
          .ok (toks ++ toks2, ⟨stats.ref + chunks.length, stats.delta, stats.full,
            stats.pred_delta, stats.chunks⟩, st2, arg, ids2) ∧
        st2.by_sha = st.by_sha ∧ st2.next_id = st.next_id ∧ WF M st2 ∧
        List.Forall₂ (fun tok c => ∃ cid, tok = .ref cid ∧
          alistGet st.by_sha (M.sha c) = some cid ∧ cid < st.next_id) toks2 chunks := by
  induction chunks with
  | nil =>
    intro toks stats st arg ids hwf hsha
    refine ⟨[], st, ids, ?_, rfl, rfl, hwf, List.Forall₂.nil⟩
    rw [List.foldlM_nil, List.append_nil]
    rfl
  | cons c rest ih =>
    intro toks stats st arg ids hwf hsha
    obtain ⟨cid, hcid, hlt⟩ := hsha c (List.mem_cons_self c rest)
    obtain ⟨d, hd, _⟩ := hwf.2.1 (M.sha c, cid) (alistGet_mem hcid)
    obtain ⟨e, he⟩ := obtain_by_id hd
    have hcc : e.chunk_id = cid := hwf.1 (cid, e) (alistGet_mem he)
    have hwfB := WF_set_entry M st cid e
      { e with ref_count := e.ref_count + 1, last_access := now } he rfl rfl hwf
    obtain ⟨toks2, st2, ids2, hfold, hb, hn, hw, hforall⟩ :=
      ih (toks ++ [.ref e.chunk_id]) (stats.bump (.ref e.chunk_id))
        { st with by_id := alistSet st.by_id cid { e with ref_count := e.ref_count + 1, last_access := now } }
        arg (ids ++ [e.chunk_id]) hwfB
        (fun cc hcc2 => hsha cc (List.mem_cons_of_mem c hcc2))
    refine ⟨Token.ref e.chunk_id :: toks2, st2, ids2, ?_, hb, hn, hw,
      List.Forall₂.cons ⟨cid, by rw [hcc], hcid, hlt⟩ hforall⟩
    rw [List.foldlM_cons]
    dsimp only
    rw [encodeChunkStep_hit M now st arg ids c cid e hcid he, Except_bind_ok]
    dsimp only
    rw [Except_pure_bind]
    simp only [Stats.bump] at hfold
    rw [show (toks ++ [Token.ref e.chunk_id]) ++ toks2 =
      toks ++ (Token.ref e.chunk_id :: toks2) from by simp] at hfold
    rw [show stats.ref + 1 + rest.length = stats.ref + (rest.length + 1) from by omega]
      at hfold
    simp only [List.length_cons]
    exact hfold

theorem cdcFold_chunks_ne_nil (data : List Nat) :
    ∀ st : List (List Nat) × List Nat × Nat, (∀ cc ∈ st.1, cc ≠ []) →
      ∀ cc ∈ (data.foldl cdcStep st).1, cc ≠ [] := by
  induction data with
  | nil => intro st h; exact h
  | cons b bs ih =>
    intro st h
    rw [List.foldl_cons]
    apply ih
    rcases st with ⟨chunks, buf, fp⟩
    unfold cdcStep
    dsimp only
    split
    · exact h
    · split
      · intro cc hcc
        rcases List.mem_append.mp hcc with hcc | hcc
        · exact h cc hcc
        · rw [List.mem_singleton] at hcc
          subst hcc
          simp
      · exact h

theorem cdcPython_ne_nil (data : List Nat) : ∀ c ∈ cdcPython data, c ≠ [] := by
  unfold cdcPython
  dsimp only
  have h := cdcFold_chunks_ne_nil data ([], [], 0)
    (fun cc hcc => absurd hcc (List.not_mem_nil cc))
  by_cases hb : (data.foldl cdcStep ([], [], 0)).2.1.isEmpty
  · rw [if_pos hb]
    exact h
  · rw [if_neg hb]
    intro c hc
    rcases List.mem_append.mp hc with hc | hc
    · exact h c hc
    · rw [List.mem_singleton] at hc
      subst hc
      intro hC
      apply hb
      rw [hC]
      rfl

theorem length_le_flatten (l : List (List Nat)) (h : ∀ c ∈ l, c ≠ []) :
    l.length ≤ l.flatten.length := by
  induction l with
  | nil => simp
  | cons c cs ih =>
    simp only [List.length_cons, List.flatten_cons, List.length_append]
    have h1 : c ≠ [] := h c (List.mem_cons_self c cs)
    have h2 : 1 ≤ c.length := by
      cases c with
      | nil => exact absurd rfl h1
      | cons a as => simp
    have h3 := ih (fun cc hcc => h cc (List.mem_cons_of_mem c hcc))
    omega

theorem encodeChunkList_ne_nil (data : List Nat) : encodeChunkList data ≠ [] := by
  unfold encodeChunkList
  by_cases hc : (content_defined_chunks data).isEmpty
  · rw [if_pos hc]
    by_cases hd : data.isEmpty
    · rw [if_pos hd]
      simp
    · rw [if_neg hd]
      simp
  · rw [if_neg hc]
    intro hC
    apply hc
    rw [hC]
    rfl

theorem encodeChunkList_length_le (data : List Nat) :
    (encodeChunkList data).length ≤ data.length + 1 := by
  unfold encodeChunkList
  by_cases hc : (content_defined_chunks data).isEmpty
  · rw [if_pos hc]
    by_cases hd : data.isEmpty
    · rw [if_pos hd]
      simp
    · rw [if_neg hd]
      simp
  · rw [if_neg hc]
    unfold content_defined_chunks
    by_cases hm : data.length ≤ MIN_CHUNK
    · rw [if_pos hm]
      by_cases hd : data.isEmpty
      · rw [if_pos hd]
        simp
      · rw [if_neg hd]
        simp
    · rw [if_neg hm]
      have h1 := length_le_flatten (cdcPython data) (cdcPython_ne_nil data)
      rw [cdcPython_flatten data] at h1
      omega

theorem serialize_ref_length_le (cid : Nat) (h : cid < 2 ^ 63) :
    (serializeToken (.ref cid)).length ≤ 10 := by
  show (0x00 :: encodeUvarint cid).length ≤ 10
  rw [List.length_cons]
  have h9 := encodeUvarint_length_le 9 cid h (by omega)
  omega

theorem serialize_shape_length_ge (M : Ext)
    (h9 : ∀ s, 9 ≤ (M.compress s).length)
    (h9d : ∀ d s, 9 ≤ (M.compressD d s).length)
    (tok : Token) (c : List Nat)
    (hshape : tok = .full (M.compress c) ∨
      (∃ rid sd, tok = .delta rid (M.compressD sd c)) ∨
      (∃ dids dict, tok = .pred dids (M.compressD dict c))) :
    11 ≤ (serializeToken tok).length := by
  rcases hshape with h | ⟨rid, sd, h⟩ | ⟨dids, dict, h⟩
  · subst h
    show 11 ≤ (0x02 :: (encodeUvarint (M.compress c).length ++ M.compress c)).length
    rw [List.length_cons, List.length_append]
    have ha := encodeUvarint_length_pos (M.compress c).length
    have hb := h9 c
    omega
  · subst h
    show 11 ≤ (0x01 :: (encodeUvarint rid ++ encodeUvarint (M.compressD sd c).length ++
      M.compressD sd c)).length
    simp only [List.length_cons, List.length_append]
    have ha := encodeUvarint_length_pos rid
    have hb := encodeUvarint_length_pos (M.compressD sd c).length
    have hc := h9d sd c
    omega
  · subst h
    show 11 ≤ (0x03 :: (encodeUvarint dids.length ++ (dids.map encodeUvarint).flatten ++
      encodeUvarint (M.compressD dict c).length ++ M.compressD dict c)).length
    simp only [List.length_cons, List.length_append]
    have ha := encodeUvarint_length_pos dids.length
    have hb := encodeUvarint_length_pos (M.compressD dict c).length
    have hc := h9d dict c
    omega

/-- Pointwise: a REF re-encode never serialises longer than the original
token (REFs repeat identically; compressed forms are at least 11 bytes
against a REF's at most 10). -/
theorem sum_serialize_le (M : Ext) (st1 : MemStore)
    (h9 : ∀ s, 9 ≤ (M.compress s).length)
    (h9d : ∀ d s, 9 ≤ (M.compressD d s).length)
    (hbound : st1.next_id ≤ 2 ^ 63) :
    ∀ (chunks : List (List Nat)) (toks1 toks2 : List Token),
      List.Forall₂ (fun tok c => TokC4 M st1 tok c) toks1 chunks →
      List.Forall₂ (fun tok c => ∃ cid, tok = .ref cid ∧
        alistGet st1.by_sha (M.sha c) = some cid ∧ cid < st1.next_id) toks2 chunks →
      ((toks2.map serializeToken).flatten).length ≤
        ((toks1.map serializeToken).flatten).length := by
  intro chunks
  induction chunks with
  | nil =>
    intro toks1 toks2 h1 h2
    cases h1
    cases h2
    simp
  | cons c rest ih =>
    intro toks1 toks2 h1 h2
    cases h1 with
    | cons hh1 ht1 =>
      rename_i t1 ts1
      cases h2 with
      | cons hh2 ht2 =>
        rename_i t2 ts2
        simp only [List.map_cons, List.flatten_cons, List.length_append]
        have htail := ih ts1 ts2 ht1 ht2
        obtain ⟨cid2, ht2eq, hbind2, hlt2⟩ := hh2
        have hle2 : (serializeToken t2).length ≤ 10 := by
          rw [ht2eq]
          exact serialize_ref_length_le cid2 (by omega)
        rcases hh1 with ⟨cid1, ht1eq, hbind1, _⟩ | hsh
        · have hcc : cid1 = cid2 := Option.some.inj (hbind1.symm.trans hbind2)
          rw [ht1eq, ht2eq, hcc]
          omega
        · have hge := serialize_shape_length_ge M h9 h9d t1 c hsh
          omega

theorem update_after_encode_fields (M : Ext) (st : MemStore) (p : Predictor)
    (ids : List Nat) :
    (p.update_after_encode st ids).1.by_sha = st.by_sha ∧
    (p.update_after_encode st ids).1.next_id = st.next_id := by
  unfold Predictor.update_after_encode
  by_cases hlen : ids.length < 2
  · rw [if_pos hlen]
    exact ⟨rfl, rfl⟩
  · rw [if_neg hlen]
    exact ⟨rfl, rfl⟩

/-- The shared second-encode argument: from the first encode's final store,
re-encoding the same chunk list yields all-REF stats and a strictly shorter
token stream (the first chunk was a FULL token the first time). -/
theorem encode_twice_core (M : Ext) (now2 : Nat) (x : List Nat) (c0 : List Nat)
    (rest : List (List Nat))
    (h9 : ∀ s, 9 ≤ (M.compress s).length)
    (h9d : ∀ d s, 9 ≤ (M.compressD d s).length)
    (st1f st1 : MemStore) (toks1 : List Token)
    (hch : encodeChunkList x = c0 :: rest)
    (hSB : st1.by_sha = st1f.by_sha) (hNI : st1.next_id = st1f.next_id)
    (hWF1 : WF M st1) (hbound : st1f.next_id ≤ 2 ^ 63)
    (F5 : List.Forall₂ (fun tok c => TokenOK M st1f tok c ∧ TokC4 M st1f tok c)
      toks1 (c0 :: rest))
    (F6 : ∀ c ∈ c0 :: rest, ∃ cid, alistGet st1f.by_sha (M.sha c) = some cid ∧
      cid < st1f.next_id)
    (F9 : ∃ ts, toks1 = Token.full (M.compress c0) :: ts)
    (b2 : List Nat) (s2 : Stats) (st2 : MemStore) (p2 : Option Predictor)
    (h2 : cogdedup_encode M now2 x st1 "" none = .ok (b2, s2, st2, p2)) :
    s2.ref = s2.chunks ∧ s2.full + s2.delta + s2.pred_delta = 0 ∧
    b2.length < (MAGIC ++ [VERSION] ++ encodeUvarint (c0 :: rest).length ++
      ((toks1.map serializeToken).flatten)).length := by
  unfold cogdedup_encode at h2
  dsimp only at h2
  obtain ⟨r2, hfold2, hpost2⟩ := Except_bind_eq_ok h2
  obtain ⟨toks2v, stats2v, st2f, p2f, ids2v⟩ := r2
  rw [hch] at hfold2 hpost2
  have hSha2 : ∀ c ∈ c0 :: rest,
      ∃ cid, alistGet st1.by_sha (M.sha c) = some cid ∧ cid < st1.next_id := by
    intro c hc
    obtain ⟨cid, hbind, hlt⟩ := F6 c hc
    exact ⟨cid, by rw [hSB]; exact hbind, by omega⟩
  obtain ⟨toksR, stH, idsH, hhit, hHB, hHN, hHW, hHF⟩ :=
    encodeFoldHit M now2 (c0 :: rest) [] _ st1 none [] hWF1 hSha2
  rw [hhit] at hfold2
  have h4 := Except.ok.inj hfold2
  simp only [Prod.mk.injEq] at h4
  obtain ⟨hv1, hv2, hv3, hv4, hv5⟩ := h4
  subst hv1
  subst hv2
  subst hv3
  subst hv4
  dsimp only at hpost2
  rw [if_neg (by decide : ¬ (("" : String) ≠ ""))] at hpost2
  have h5 := Except.ok.inj hpost2
  simp only [Prod.mk.injEq] at h5
  obtain ⟨hb2, hs2, hst2, hp2⟩ := h5
  subst hb2
  subst hs2
  refine ⟨by simp [Stats.zero], by simp [Stats.zero], ?_⟩
  simp only [List.nil_append]
  obtain ⟨ts, hts⟩ := F9
  subst hts
  cases F5 with
  | cons hAll0 htsAll =>
    cases hHF with
    | cons hr2h htr2 =>
      rename_i t2h ts2
      have hle2 : (serializeToken t2h).length ≤ 10 := by
        obtain ⟨cid2, ht2eq, _, hlt2⟩ := hr2h
        rw [ht2eq]
        exact serialize_ref_length_le cid2 (by omega)
      have hge1 : 11 ≤ (serializeToken (Token.full (M.compress c0))).length :=
        serialize_shape_length_ge M h9 h9d _ c0 (Or.inl rfl)
      have hkeep : st1.KeepsSha st1f := fun k cc hh => by rw [← hSB]; exact hh
      have htails := sum_serialize_le M st1 h9 h9d (by omega) rest ts ts2
        (List.Forall₂.imp
          (fun a b hab => TokC4_mono (fun k cc hh => by rw [hSB]; exact hh)
            (by omega) hab.2) htsAll)
        htr2
      simp only [List.map_cons, List.flatten_cons, List.length_append,
        List.length_cons]
      omega

/-- C4 as amended: starting from a fresh store (and with the realistic
codec assumptions that a zstd frame is at least 9 bytes and the input is
addressable, below 2^63 bytes), encoding `x` twice yields second-encode
stats with `ref = chunks` and `full + delta + pred_delta = 0`, and a second
blob strictly smaller than the first. -/
theorem claim_C4_encode_twice (M : Ext) (now1 now2 : Nat) (x : List Nat)
    (h9 : ∀ s, 9 ≤ (M.compress s).length)
    (h9d : ∀ d s, 9 ≤ (M.compressD d s).length)
    (hx : x.length < 2 ^ 63)
    (b1 b2 : List Nat) (s1 s2 : Stats) (st1 st2 : MemStore)
    (p1 p2 : Option Predictor)
    (h1 : cogdedup_encode M now1 x MemStore.empty "" none = .ok (b1, s1, st1, p1))
    (h2 : cogdedup_encode M now2 x st1 "" none = .ok (b2, s2, st2, p2)) :
    s2.ref = s2.chunks ∧ s2.full + s2.delta + s2.pred_delta = 0 ∧
    b2.length < b1.length := by
  unfold cogdedup_encode at h1
  dsimp only at h1
  obtain ⟨r1, hfold1, hpost1⟩ := Except_bind_eq_ok h1
  obtain ⟨toks1, stats1, st1f, p1f, ids1⟩ := r1
  cases hch : encodeChunkList x with
  | nil => exact absurd hch (encodeChunkList_ne_nil x)
  | cons c0 rest =>
  rw [hch] at hfold1 hpost1
  rw [List.foldlM_cons] at hfold1
  dsimp only at hfold1
  rw [encodeChunkStep_empty M now1 c0, Except_bind_ok] at hfold1
  dsimp only at hfold1
  rw [Except_pure_bind] at hfold1
  simp only [List.nil_append] at hfold1
  obtain ⟨E1, E2, E3, E4, E5, E6, E7, E8⟩ := store_spec M MemStore.empty now1 c0
    (WF_empty M)
  obtain ⟨F1, F2, F3, F4, F5, F6, F7, F8, F9⟩ := encodeFold_spec M now1 rest
    [Token.full (M.compress c0)] _ (MemStore.store M MemStore.empty now1 c0).2 none
    [(MemStore.store M MemStore.empty now1 c0).1.chunk_id] [c0]
    toks1 stats1 st1f p1f ids1 E1 trivial
    (List.Forall₂.cons ⟨M.decompress_compress c0, Or.inr (Or.inl rfl)⟩ List.Forall₂.nil)
    (fun c hc => by rw [List.mem_singleton] at hc; subst hc; exact ⟨_, E5, E6⟩)
    hfold1
  have hlenb := encodeChunkList_length_le x
  rw [hch] at hlenb
  simp only [List.length_cons] at hlenb
  have hbound : st1f.next_id ≤ 2 ^ 63 := by
    have hz : MemStore.empty.next_id = 0 := rfl
    omega
  have hF9' : ∃ ts, toks1 = Token.full (M.compress c0) :: ts := by
    obtain ⟨ts, hts⟩ := F9
    exact ⟨ts, by rw [hts]; rfl⟩
  have hF5' : List.Forall₂ (fun tok c => TokenOK M st1f tok c ∧ TokC4 M st1f tok c)
      toks1 (c0 :: rest) := F5
  have hF6' : ∀ c ∈ c0 :: rest, ∃ cid, alistGet st1f.by_sha (M.sha c) = some cid ∧
      cid < st1f.next_id := F6
  cases p1f with
  | none =>
    dsimp only at hpost1
    rw [if_neg (by decide : ¬ (("" : String) ≠ ""))] at hpost1
    have h5 := Except.ok.inj hpost1
    simp only [Prod.mk.injEq] at h5
    obtain ⟨hb1, hs1, hst1, hp1⟩ := h5
    subst hb1
    subst hst1
    exact encode_twice_core M now2 x c0 rest h9 h9d st1f st1f toks1 hch rfl rfl F1 hbound
      hF5' hF6' hF9' b2 s2 st2 p2 h2
  | some pr =>
    dsimp only at hpost1
    by_cases hl : ids1.length ≥ 2
    · rw [if_pos hl] at hpost1
      dsimp only at hpost1
      rw [if_neg (by decide : ¬ (("" : String) ≠ ""))] at hpost1
      have h5 := Except.ok.inj hpost1
      simp only [Prod.mk.injEq] at h5
      obtain ⟨hb1, hs1, hst1, hp1⟩ := h5
      subst hb1
      subst hst1
      obtain ⟨hub, hun⟩ := update_after_encode_fields M st1f pr ids1
      obtain ⟨hu1, _, _, _, _⟩ := update_after_encode_spec M st1f pr ids1 F1 F2
      exact encode_twice_core M now2 x c0 rest h9 h9d st1f _ toks1 hch hub hun hu1 hbound
        hF5' hF6' hF9' b2 s2 st2 p2 h2
    · rw [if_neg hl] at hpost1
      dsimp only at hpost1
      rw [if_neg (by decide : ¬ (("" : String) ≠ ""))] at hpost1
      have h5 := Except.ok.inj hpost1
      simp only [Prod.mk.injEq] at h5
      obtain ⟨hb1, hs1, hst1, hp1⟩ := h5
      subst hb1
      subst hst1
      exact encode_twice_core M now2 x c0 rest h9 h9d st1f st1f toks1 hch rfl rfl F1 hbound
        hF5' hF6' hF9' b2 s2 st2 p2 h2

/-- C4 counterexample: if the store already holds the input's chunk, the
"second blob strictly smaller" part fails — a second and a third encode of
`[7]` against the same (warm) store produce byte-identical blobs. -/
theorem claim_C4_counterexample :
    cogdedup_encode padExt 1 [7] c4St1 "" none =
      .ok (MAGIC ++ [VERSION] ++ encodeUvarint 1 ++ serializeToken (.ref 0),
        ⟨1, 0, 0, 0, 1⟩, c4St2, none) ∧
    cogdedup_encode padExt 2 [7] c4St2 "" none =
      .ok (MAGIC ++ [VERSION] ++ encodeUvarint 1 ++ serializeToken (.ref 0),
        ⟨1, 0, 0, 0, 1⟩, c4St3, none) ∧
    ¬ ((MAGIC ++ [VERSION] ++ encodeUvarint 1 ++ serializeToken (.ref 0)).length <
       (MAGIC ++ [VERSION] ++ encodeUvarint 1 ++ serializeToken (.ref 0)).length) := by
  refine ⟨?_, ?_, by omega⟩
  · have h0 : cogdedup_encode padExt 1 [7] c4St1 "" none =
        .ok (MAGIC ++ [VERSION] ++ encodeUvarint 1 ++ (serializeToken (.ref 0) ++ []),
          ⟨1, 0, 0, 0, 1⟩, c4St2, none) := rfl
    rw [h0, List.append_nil]
  · have h0 : cogdedup_encode padExt 2 [7] c4St2 "" none =
        .ok (MAGIC ++ [VERSION] ++ encodeUvarint 1 ++ (serializeToken (.ref 0) ++ []),
          ⟨1, 0, 0, 0, 1⟩, c4St3, none) := rfl
    rw [h0, List.append_nil]

/-- Witness: encoding `[7]` twice against a fresh store (19-byte first blob,
8-byte second blob). -/
theorem claim_C4_encode_twice_witness :
    (∀ s : List Nat, 9 ≤ (padExt.compress s).length) ∧
    (∀ d s : List Nat, 9 ≤ (padExt.compressD d s).length) ∧
    (([7] : List Nat).length < 2 ^ 63) ∧
    ((⟨1, 0, 0, 0, 1⟩ : Stats).ref = (⟨1, 0, 0, 0, 1⟩ : Stats).chunks ∧
     (⟨1, 0, 0, 0, 1⟩ : Stats).full + (⟨1, 0, 0, 0, 1⟩ : Stats).delta +
       (⟨1, 0, 0, 0, 1⟩ : Stats).pred_delta = 0 ∧
     (MAGIC ++ [VERSION] ++ encodeUvarint 1 ++ serializeToken (.ref 0)).length <
       (MAGIC ++ [VERSION] ++ encodeUvarint 1 ++
         serializeToken (.full (padExt.compress [7]))).length) := by
  have hc : ∀ s : List Nat, 9 ≤ (padExt.compress s).length := by
    intro s
    show 9 ≤ (List.replicate 9 0 ++ s).length
    simp
  have hcd : ∀ d s : List Nat, 9 ≤ (padExt.compressD d s).length := by
    intro d s
    show 9 ≤ (List.replicate 9 0 ++ s).length
    simp
  refine ⟨hc, hcd, by decide, ?_⟩
  exact claim_C4_encode_twice padExt 0 1 [7] hc hcd (by decide)
    (MAGIC ++ [VERSION] ++ encodeUvarint 1 ++ serializeToken (.full (padExt.compress [7])))
    (MAGIC ++ [VERSION] ++ encodeUvarint 1 ++ serializeToken (.ref 0))
    ⟨0, 0, 1, 0, 1⟩ ⟨1, 0, 0, 0, 1⟩ c4St1 c4St2 none none
    (by
      have h0 : cogdedup_encode padExt 0 [7] MemStore.empty "" none =
          .ok (MAGIC ++ [VERSION] ++ encodeUvarint 1 ++
            (serializeToken (.full (padExt.compress [7])) ++ []),
            ⟨0, 0, 1, 0, 1⟩, c4St1, none) := rfl
      rw [h0, List.append_nil])
    (by
      have h0 : cogdedup_encode padExt 1 [7] c4St1 "" none =
          .ok (MAGIC ++ [VERSION] ++ encodeUvarint 1 ++
            (serializeToken (.ref 0) ++ []),
            ⟨1, 0, 0, 0, 1⟩, c4St2, none) := rfl
      rw [h0, List.append_nil])

/-! ## C2 infrastructure: the streaming encoder -/

/-- `cdcStep` only ever appends to the accumulated chunk list. -/
theorem cdcStep_chunks (chunks : List (List Nat)) (buf : List Nat) (fp b : Nat) :
    cdcStep (chunks, buf, fp) b =
      (chunks ++ (cdcStep ([], buf, fp) b).1,
       (cdcStep ([], buf, fp) b).2.1, (cdcStep ([], buf, fp) b).2.2) := by
  unfold cdcStep
  dsimp only
  by_cases h1 : (buf ++ [b]).length < MIN_CHUNK
  · rw [if_pos h1, if_pos h1]
    simp
  · rw [if_neg h1, if_neg h1]
    by_cases h2 : (buf ++ [b]).length ≥ MAX_CHUNK ∨
        ((fp * 2 ^^^ b) % 2 ^ 64) &&& MASK = 0
    · rw [if_pos h2, if_pos h2]
      simp
    · rw [if_neg h2, if_neg h2]
      simp

/-- The CDC fold from a non-empty chunk accumulator is the fold from the
empty accumulator with the old chunks in front. -/
theorem cdcFold_chunks_prefix (bytes : List Nat) :
    ∀ (chunks : List (List Nat)) (buf : List Nat) (fp : Nat),
      bytes.foldl cdcStep (chunks, buf, fp) =
        (chunks ++ (bytes.foldl cdcStep ([], buf, fp)).1,
         (bytes.foldl cdcStep ([], buf, fp)).2.1,
         (bytes.foldl cdcStep ([], buf, fp)).2.2) := by
  induction bytes with
  | nil =>
    intro chunks buf fp
    simp
  | cons b bs ih =>
    intro chunks buf fp
    rw [List.foldl_cons, List.foldl_cons, cdcStep_chunks]
    rcases hs : cdcStep ([], buf, fp) b with ⟨cks, buf1, fp1⟩
    rw [ih (chunks ++ cks) buf1 fp1, ih cks buf1 fp1]
    simp [List.append_assoc]

/-- Below the minimum chunk size the CDC loop yields the whole input as the
single chunk. -/
theorem cdcPython_small (x : List Nat) (hx : x ≠ []) (hlen : x.length ≤ MIN_CHUNK) :
    cdcPython x = [x] := by
  have hS : ∀ y : List Nat, y.length ≤ MIN_CHUNK →
      (∃ fp, y.foldl cdcStep ([], [], 0) = ([], y, fp)) ∨
      (y.length = MIN_CHUNK ∧ y.foldl cdcStep ([], [], 0) = ([y], [], 0)) := by
    intro y
    induction y using List.reverseRecOn with
    | nil => intro _; exact Or.inl ⟨0, rfl⟩
    | append_singleton xs b ih =>
      intro hl
      have hxs : xs.length < MIN_CHUNK := by
        rw [List.length_append, List.length_cons, List.length_nil] at hl
        omega
      rcases ih (by omega) with ⟨fp, hfp⟩ | ⟨hmin, _⟩
      · rw [List.foldl_append, hfp]
        simp only [List.foldl_cons, List.foldl_nil]
        unfold cdcStep
        dsimp only
        by_cases h1 : (xs ++ [b]).length < MIN_CHUNK
        · rw [if_pos h1]
          exact Or.inl ⟨_, rfl⟩
        · rw [if_neg h1]
          by_cases h2 : (xs ++ [b]).length ≥ MAX_CHUNK ∨
              ((fp * 2 ^^^ b) % 2 ^ 64) &&& MASK = 0
          · rw [if_pos h2]
            refine Or.inr ⟨?_, rfl⟩
            rw [List.length_append, List.length_cons, List.length_nil]
            rw [List.length_append, List.length_cons, List.length_nil] at h1
            omega
          · rw [if_neg h2]
            exact Or.inl ⟨_, rfl⟩
      · omega
  rcases hS x hlen with ⟨fp, hfp⟩ | ⟨_, hcut⟩
  · unfold cdcPython
    rw [hfp]
    dsimp only
    rw [if_neg (by rw [List.isEmpty_iff]; exact hx)]
    rfl
  · unfold cdcPython
    rw [hcut]
    rfl

/-- For non-empty input, the batch encoder's chunk list is exactly what the
CDC loop produces. -/
theorem encodeChunkList_eq_cdc (x : List Nat) (hx : x ≠ []) :
    encodeChunkList x = cdcPython x := by
  have hne : cdcPython x ≠ [] := by
    intro hC
    have hfl := cdcPython_flatten x
    rw [hC] at hfl
    exact hx hfl.symm
  have hcontent : content_defined_chunks x = cdcPython x := by
    unfold content_defined_chunks
    by_cases hm : x.length ≤ MIN_CHUNK
    · rw [if_pos hm]
      rw [if_neg (show ¬ x.isEmpty = true from by rw [List.isEmpty_iff]; exact hx)]
      exact (cdcPython_small x hx hm).symm
    · rw [if_neg hm]
  unfold encodeChunkList
  rw [hcontent]
  rw [if_neg (show ¬ (cdcPython x).isEmpty = true from by
    rw [List.isEmpty_iff]; exact hne)]

theorem bump_setChunks (s : Stats) (N : Nat) (t : Token) :
    Stats.bump { s with chunks := N } t = { s.bump t with chunks := N } := by
  cases t <;> rfl

/-- Setting the `chunks` stats field commutes with the encode loop (the
loop only bumps the per-kind counters). -/
theorem encodeFold_setChunks (M : Ext) (now : Nat) (chunks : List (List Nat)) :
    ∀ (toks : List Token) (stats : Stats) (N : Nat) (st : MemStore)
      (arg : Option Predictor) (ids : List Nat),
      chunks.foldlM
        (fun (acc : List Token × Stats × MemStore × Option Predictor × List Nat) chunk => do
          let (toks, stats, st, p, ids) := acc
          let (tok, st, p, ids) ← encodeChunkStep M now st p ids chunk
          return (toks ++ [tok], stats.bump tok, st, p, ids))
        (toks, { stats with chunks := N }, st, arg, ids) =
      (chunks.foldlM
        (fun (acc : List Token × Stats × MemStore × Option Predictor × List Nat) chunk => do
          let (toks, stats, st, p, ids) := acc
          let (tok, st, p, ids) ← encodeChunkStep M now st p ids chunk
          return (toks ++ [tok], stats.bump tok, st, p, ids))
        (toks, stats, st, arg, ids)).map
        (fun r : List Token × Stats × MemStore × Option Predictor × List Nat =>
          (r.1, { r.2.1 with chunks := N }, r.2.2)) := by
  induction chunks with
  | nil =>
    intro toks stats N st arg ids
    rfl
  | cons c rest ih =>
    intro toks stats N st arg ids
    rw [List.foldlM_cons, List.foldlM_cons]
    dsimp only
    cases hstep : encodeChunkStep M now st arg ids c with
    | error m =>
      simp only [Except_bind_error]
      rfl
    | ok v =>
      obtain ⟨tok, st2, p2, ids2⟩ := v
      simp only [Except_bind_ok, Except_pure_bind]
      rw [bump_setChunks]
      exact ih (toks ++ [tok]) (stats.bump tok) N st2 p2 ids2

/-- `_emit_chunk` is the batch per-chunk step plus stream bookkeeping. -/
theorem emitChunk_eq (M : Ext) (now : Nat) (st : MemStore) (s : CogdedupStream)
    (chunk : List Nat) :
    CogdedupStream.emitChunk M now st s chunk =
      (encodeChunkStep M now st s.predictorState s.chunk_ids chunk).map
        (fun r => (r.2.1,
          { s with tokens := s.tokens ++ [r.1], stats := s.stats.bump r.1,
                   chunk_ids := r.2.2.2, predictorState := r.2.2.1,
                   n_chunks := s.n_chunks + 1 })) := by
  unfold CogdedupStream.emitChunk encodeChunkStep
  dsimp only
  cases hE : (st.lookup_exact now (M.sha chunk)).1 with
  | some e =>
    rfl
  | none =>
    dsimp only
    cases hS : (st.lookup_exact now (M.sha chunk)).2.lookup_similar now
        (simhash64 chunk) with
    | error msg =>
      rfl
    | ok v =>
      obtain ⟨similar, st2⟩ := v
      simp only [Except_bind_ok]
      cases similar with
      | none => rfl
      | some sim =>
        dsimp only
        cases hSD : sim.data with
        | none =>
          rfl
        | some sdata =>
          rfl

theorem Except_map_ok {ε α β : Type} (f : α → β) (a : α) :
    Except.map f (.ok a : Except ε α) = .ok (f a) := rfl

theorem Except_map_error {ε α β : Type} (f : α → β) (e : ε) :
    Except.map f (.error e : Except ε α) = .error e := rfl

theorem Except_map_pure {ε α β : Type} (f : α → β) (a : α) :
    Except.map f (pure a : Except ε α) = pure (f a) := rfl

/-- `cdcStep` below a boundary: extend the current chunk. -/
theorem cdcStep_keep (chunks : List (List Nat)) (buf : List Nat) (fp b : Nat)
    (h : (buf ++ [b]).length < MIN_CHUNK ∨
      ¬ ((buf ++ [b]).length ≥ MAX_CHUNK ∨ ((fp * 2 ^^^ b) % 2 ^ 64) &&& MASK = 0)) :
    cdcStep (chunks, buf, fp) b = (chunks, buf ++ [b], (fp * 2 ^^^ b) % 2 ^ 64) := by
  unfold cdcStep
  dsimp only
  rcases h with h | h
  · rw [if_pos h]
  · by_cases h1 : (buf ++ [b]).length < MIN_CHUNK
    · rw [if_pos h1]
    · rw [if_neg h1, if_neg h]

/-- `cdcStep` at a boundary: close the current chunk and reset. -/
theorem cdcStep_cut (chunks : List (List Nat)) (buf : List Nat) (fp b : Nat)
    (h1 : ¬ (buf ++ [b]).length < MIN_CHUNK)
    (h2 : (buf ++ [b]).length ≥ MAX_CHUNK ∨ ((fp * 2 ^^^ b) % 2 ^ 64) &&& MASK = 0) :
    cdcStep (chunks, buf, fp) b = (chunks ++ [buf ++ [b]], [], 0) := by
  unfold cdcStep
  dsimp only
  rw [if_neg h1, if_pos h2]

/-- `feed` on a byte below a boundary (stream chunker state at the buffer
start): only the buffer, fingerprint and byte count move. -/
theorem feedByte_keep (M : Ext) (now : Nat) (st : MemStore) (s : CogdedupStream)
    (b : Nat) (hcs : s.chunk_start = 0)
    (h : (s.buf ++ [b]).length < MIN_CHUNK ∨
      ¬ ((s.buf ++ [b]).length ≥ MAX_CHUNK ∨
        ((s.fp * 2 ^^^ b) % 2 ^ 64) &&& MASK = 0)) :
    CogdedupStream.feedByte M now (st, s) b =
      .ok (st, { s with buf := s.buf ++ [b], fp := (s.fp * 2 ^^^ b) % 2 ^ 64,
                        total_fed := s.total_fed + 1 }) := by
  unfold CogdedupStream.feedByte
  dsimp only
  rw [hcs]
  simp only [Nat.sub_zero]
  rcases h with h | h
  · rw [if_pos h]
  · by_cases h1 : (s.buf ++ [b]).length < MIN_CHUNK
    · rw [if_pos h1]
    · rw [if_neg h1, if_neg h]

/-- `feed` on a boundary byte (stream chunker state at the buffer start):
the closed chunk goes through the shared per-chunk encode step and the
chunker state resets. -/
theorem feedByte_cut (M : Ext) (now : Nat) (st : MemStore) (s : CogdedupStream)
    (b : Nat) (hcs : s.chunk_start = 0)
    (h1 : ¬ (s.buf ++ [b]).length < MIN_CHUNK)
    (h2 : (s.buf ++ [b]).length ≥ MAX_CHUNK ∨
      ((s.fp * 2 ^^^ b) % 2 ^ 64) &&& MASK = 0) :
    CogdedupStream.feedByte M now (st, s) b =
      (encodeChunkStep M now st s.predictorState s.chunk_ids (s.buf ++ [b])).map
        (fun r => (r.2.1,
          { s with tokens := s.tokens ++ [r.1], stats := s.stats.bump r.1,
                   chunk_ids := r.2.2.2, predictorState := r.2.2.1,
                   n_chunks := s.n_chunks + 1, buf := [], chunk_start := 0,
                   fp := 0, total_fed := s.total_fed + 1 })) := by
  unfold CogdedupStream.feedByte
  dsimp only
  rw [hcs]
  simp only [Nat.sub_zero, List.drop_zero]
  rw [if_neg h1, if_pos h2]
  rw [emitChunk_eq]
  dsimp only
  cases hE : encodeChunkStep M now st s.predictorState s.chunk_ids (s.buf ++ [b]) with
  | error m =>
    rfl
  | ok v =>
    rfl

/-- Feed fusion: feeding bytes into the stream (chunker state at the buffer
start) runs the batch per-chunk encode fold over exactly the chunks the
batch CDC loop closes on those bytes, leaving the open partial chunk in the
stream buffer. -/
theorem feedBytes_eq (M : Ext) (now : Nat) (bytes : List Nat) :
    ∀ (st : MemStore) (s : CogdedupStream), s.chunk_start = 0 →
      bytes.foldlM (CogdedupStream.feedByte M now) (st, s) =
        ((bytes.foldl cdcStep ([], s.buf, s.fp)).1.foldlM
          (fun (acc : List Token × Stats × MemStore × Option Predictor × List Nat) chunk => do
            let (toks, stats, st, p, ids) := acc
            let (tok, st, p, ids) ← encodeChunkStep M now st p ids chunk
            return (toks ++ [tok], stats.bump tok, st, p, ids))
          (s.tokens, s.stats, st, s.predictorState, s.chunk_ids)).map
        (fun r : List Token × Stats × MemStore × Option Predictor × List Nat =>
          (r.2.2.1,
            (⟨s.dataId, r.2.2.2.1,
             (bytes.foldl cdcStep ([], s.buf, s.fp)).2.2,
             (bytes.foldl cdcStep ([], s.buf, s.fp)).2.1,
             0, r.1,
             s.n_chunks + (bytes.foldl cdcStep ([], s.buf, s.fp)).1.length,
             r.2.2.2.2, r.2.1,
             s.total_fed + bytes.length, s.finished⟩ : CogdedupStream))) := by
  induction bytes with
  | nil =>
    intro st s hcs
    obtain ⟨d, ps, fp, buf, cs, tk, nc, ci, stt, tf, fin⟩ := s
    dsimp only at hcs
    subst hcs
    rfl
  | cons b bs ih =>
    intro st s hcs
    rw [List.foldlM_cons]
    by_cases h1 : (s.buf ++ [b]).length < MIN_CHUNK
    · rw [feedByte_keep M now st s b hcs (Or.inl h1), Except_bind_ok]
      rw [ih st ({ s with buf := s.buf ++ [b], fp := (s.fp * 2 ^^^ b) % 2 ^ 64,
                          total_fed := s.total_fed + 1 }) hcs]
      rw [List.foldl_cons, cdcStep_keep [] s.buf s.fp b (Or.inl h1)]
      dsimp only [List.length_cons]
      rw [show s.total_fed + 1 + bs.length = s.total_fed + (bs.length + 1) from by omega]
    · by_cases h2 : (s.buf ++ [b]).length ≥ MAX_CHUNK ∨
          ((s.fp * 2 ^^^ b) % 2 ^ 64) &&& MASK = 0
      · rw [feedByte_cut M now st s b hcs h1 h2]
        cases hE : encodeChunkStep M now st s.predictorState s.chunk_ids
            (s.buf ++ [b]) with
        | error m =>
          rw [List.foldl_cons, cdcStep_cut [] s.buf s.fp b h1 h2,
              List.nil_append, cdcFold_chunks_prefix bs [s.buf ++ [b]] [] 0]
          dsimp only
          rw [List.singleton_append, List.foldlM_cons]
          dsimp only
          rw [hE]
          simp only [Except_bind_error, Except_map_error]
        | ok v =>
          obtain ⟨tok, st2, p2, ids2⟩ := v
          simp only [Except_map_ok, Except_bind_ok]
          rw [ih st2 ({ s with tokens := s.tokens ++ [tok], stats := s.stats.bump tok,
                               chunk_ids := ids2, predictorState := p2,
                               n_chunks := s.n_chunks + 1, buf := [], chunk_start := 0,
                               fp := 0, total_fed := s.total_fed + 1 }) rfl]
          rw [List.foldl_cons, cdcStep_cut [] s.buf s.fp b h1 h2,
              List.nil_append, cdcFold_chunks_prefix bs [s.buf ++ [b]] [] 0]
          dsimp only
          rw [List.singleton_append, List.foldlM_cons]
          dsimp only
          rw [hE]
          simp only [Except_bind_ok, Except_pure_bind]
          dsimp only [List.length_cons]
          rw [show s.n_chunks + 1 + (bs.foldl cdcStep ([], [], 0)).1.length
                = s.n_chunks + ((bs.foldl cdcStep ([], [], 0)).1.length + 1) from by omega,
              show s.total_fed + 1 + bs.length = s.total_fed + (bs.length + 1) from by omega]
      · rw [feedByte_keep M now st s b hcs (Or.inr h2), Except_bind_ok]
        rw [ih st ({ s with buf := s.buf ++ [b], fp := (s.fp * 2 ^^^ b) % 2 ^ 64,
                            total_fed := s.total_fed + 1 }) hcs]
        rw [List.foldl_cons, cdcStep_keep [] s.buf s.fp b (Or.inr h2)]
        dsimp only [List.length_cons]
        rw [show s.total_fed + 1 + bs.length = s.total_fed + (bs.length + 1) from by omega]

/-- `feed` on an unfinished stream is the byte fold. -/
theorem feed_not_finished (M : Ext) (now : Nat) (st : MemStore) (s : CogdedupStream)
    (hf : s.finished = false) (data : List Nat) :
    CogdedupStream.feed M now st s data =
      data.foldlM (CogdedupStream.feedByte M now) (st, s) := by
  unfold CogdedupStream.feed
  rw [hf]
  rw [if_neg Bool.false_ne_true]

set_option maxHeartbeats 1000000 in
/-- Single-`feed` case of the streaming/batch agreement: feeding a whole
non-empty input in one `feed` call and calling `finish` produces the same
blob, stats, store and predictor as the batch encoder. -/
theorem stream_eq_batch_single (M : Ext) (now : Nat) (x : List Nat)
    (hx : x ≠ []) (st : MemStore) (dataId : String) (arg : Option Predictor) :
    (CogdedupStream.feed M now st (CogdedupStream.init dataId arg) x >>=
      fun r => CogdedupStream.finish M now r.1 r.2).map
      (fun r => (r.1, r.2.1, r.2.2.1, r.2.2.2.predictorState)) =
    (cogdedup_encode M now x st dataId arg).map
      (fun r => (r.1, r.2.1, r.2.2.1, r.2.2.2)) := by
  rw [feed_not_finished M now st (CogdedupStream.init dataId arg) rfl x]
  rw [feedBytes_eq M now x st (CogdedupStream.init dataId arg) rfl]
  unfold cogdedup_encode
  rw [encodeChunkList_eq_cdc x hx]
  unfold cdcPython
  dsimp only [CogdedupStream.init]
  by_cases hb : (x.foldl cdcStep ([], [], 0)).2.1.isEmpty
  · rw [if_pos hb]
    rw [encodeFold_setChunks M now (x.foldl cdcStep ([], [], 0)).1 [] Stats.zero
      (x.foldl cdcStep ([], [], 0)).1.length st arg []]
    cases hX : (x.foldl cdcStep ([], [], 0)).1.foldlM
        (fun (acc : List Token × Stats × MemStore × Option Predictor × List Nat) chunk => do
          let (toks, stats, st, p, ids) := acc
          let (tok, st, p, ids) ← encodeChunkStep M now st p ids chunk
          return (toks ++ [tok], stats.bump tok, st, p, ids))
        ([], Stats.zero, st, arg, []) with
    | error m => rfl
    | ok r =>
      obtain ⟨toks, stats, st1, p1, ids1⟩ := r
      simp only [Except_map_ok, Except_bind_ok]
      unfold CogdedupStream.finish
      dsimp only
      rw [if_neg Bool.false_ne_true]
      simp only [List.drop_zero]
      rw [if_pos hb]
      simp only [Except_pure_bind, Except_bind_ok, Except_map_ok]
      cases p1 with
      | none =>
        dsimp only
        simp only [Nat.zero_add]
        rfl
      | some pr =>
        dsimp only
        by_cases hl : ids1.length ≥ 2
        · rw [if_pos hl, if_pos hl]
          dsimp only
          simp only [Nat.zero_add]
          rfl
        · rw [if_neg hl, if_neg hl]
          dsimp only
          simp only [Nat.zero_add]
          rfl
  · rw [if_neg hb]
    rw [encodeFold_setChunks M now
      ((x.foldl cdcStep ([], [], 0)).1 ++ [(x.foldl cdcStep ([], [], 0)).2.1]) [] Stats.zero
      ((x.foldl cdcStep ([], [], 0)).1 ++ [(x.foldl cdcStep ([], [], 0)).2.1]).length st arg []]
    rw [List.foldlM_append]
    cases hX : (x.foldl cdcStep ([], [], 0)).1.foldlM
        (fun (acc : List Token × Stats × MemStore × Option Predictor × List Nat) chunk => do
          let (toks, stats, st, p, ids) := acc
          let (tok, st, p, ids) ← encodeChunkStep M now st p ids chunk
          return (toks ++ [tok], stats.bump tok, st, p, ids))
        ([], Stats.zero, st, arg, []) with
    | error m => rfl
    | ok r =>
      obtain ⟨toks, stats, st1, p1, ids1⟩ := r
      simp only [Except_map_ok, Except_bind_ok]
      unfold CogdedupStream.finish
      dsimp only
      rw [if_neg Bool.false_ne_true]
      simp only [List.drop_zero]
      rw [if_neg hb]
      rw [emitChunk_eq]
      dsimp only
      cases hE : encodeChunkStep M now st1 p1 ids1 (x.foldl cdcStep ([], [], 0)).2.1 with
      | error m =>
        simp only [List.foldlM_cons, List.foldlM_nil]
        rw [hE]
        rfl
      | ok v =>
        obtain ⟨tok2, stOut, pOut, idsOut⟩ := v
        simp only [Except_map_ok, Except_bind_ok, Except_pure_bind, List.foldlM_cons,
          List.foldlM_nil]
        rw [hE]
        simp only [Except_bind_ok, Except_pure_bind, Except_map_ok]
        simp only [List.length_append, List.length_singleton, Nat.zero_add]
        simp only [Except_map_pure, Except_pure_bind]
        cases pOut with
        | none =>
          rfl
        | some pr =>
          dsimp only
          by_cases hl : idsOut.length ≥ 2
          · rw [if_pos hl, if_pos hl]
          · rw [if_neg hl, if_neg hl]

/-- C2 counterexample: on the empty input the streaming encoder emits the
bare header (zero tokens) while the batch encoder emits one FULL token for
the empty chunk, so the two blobs differ byte-for-byte. -/
theorem claim_C2_counterexample :
    ¬ ((CogdedupStream.feed padExt 0 MemStore.empty (CogdedupStream.init "" none) [] >>=
        fun r => CogdedupStream.finish padExt 0 r.1 r.2).map (fun r => r.1) =
       (cogdedup_encode padExt 0 [] MemStore.empty "" none).map (fun r => r.1)) := by
  decide


/-- `_emit_chunk` never touches the `finished` flag. -/
theorem emitChunk_finished (M : Ext) (now : Nat) (st : MemStore) (s : CogdedupStream)
    (chunk : List Nat) (st' : MemStore) (s' : CogdedupStream)
    (h : CogdedupStream.emitChunk M now st s chunk = .ok (st', s')) :
    s'.finished = s.finished := by
  rw [emitChunk_eq] at h
  cases hE : encodeChunkStep M now st s.predictorState s.chunk_ids chunk with
  | error m =>
    rw [hE] at h
    simp only [Except_map_error] at h
    exact Except.noConfusion h
  | ok v =>
    rw [hE] at h
    simp only [Except_map_ok] at h
    injection h with h2
    injection h2 with ha hb
    rw [← hb]

/-- One byte of `feed` never touches the `finished` flag. -/
theorem feedByte_finished (M : Ext) (now : Nat) (st : MemStore) (s : CogdedupStream)
    (b : Nat) (st' : MemStore) (s' : CogdedupStream)
    (h : CogdedupStream.feedByte M now (st, s) b = .ok (st', s')) :
    s'.finished = s.finished := by
  unfold CogdedupStream.feedByte at h
  dsimp only at h
  by_cases h1 : (s.buf ++ [b]).length - s.chunk_start < MIN_CHUNK
  · rw [if_pos h1] at h
    injection h with h2
    injection h2 with ha hb
    rw [← hb]
  · rw [if_neg h1] at h
    by_cases h2c : (s.buf ++ [b]).length - s.chunk_start ≥ MAX_CHUNK ∨
        ((s.fp * 2 ^^^ b) % 2 ^ 64) &&& MASK = 0
    · rw [if_pos h2c] at h
      cases hEm : CogdedupStream.emitChunk M now st
          ({ s with buf := s.buf ++ [b], fp := (s.fp * 2 ^^^ b) % 2 ^ 64,
                    total_fed := s.total_fed + 1 })
          ((s.buf ++ [b]).drop s.chunk_start) with
      | error m =>
        rw [hEm] at h
        simp only [Except_bind_error] at h
        exact Except.noConfusion h
      | ok v =>
        obtain ⟨st1, s1⟩ := v
        rw [hEm] at h
        simp only [Except_bind_ok] at h
        injection h with h2
        injection h2 with ha hb
        rw [← hb]
        exact emitChunk_finished M now st
          ({ s with buf := s.buf ++ [b], fp := (s.fp * 2 ^^^ b) % 2 ^ 64,
                    total_fed := s.total_fed + 1 })
          ((s.buf ++ [b]).drop s.chunk_start) st1 s1 hEm
    · rw [if_neg h2c] at h
      injection h with h2
      injection h2 with ha hb
      rw [← hb]

/-- The byte fold of `feed` never touches the `finished` flag. -/
theorem feedFold_finished (M : Ext) (now : Nat) (bytes : List Nat) :
    ∀ (st : MemStore) (s : CogdedupStream) (st' : MemStore) (s' : CogdedupStream),
      bytes.foldlM (CogdedupStream.feedByte M now) (st, s) = .ok (st', s') →
      s'.finished = s.finished := by
  induction bytes with
  | nil =>
    intro st s st' s' h
    injection h with h2
    injection h2 with ha hb
    rw [← hb]
  | cons b bs ih =>
    intro st s st' s' h
    rw [List.foldlM_cons] at h
    cases hF : CogdedupStream.feedByte M now (st, s) b with
    | error m =>
      rw [hF] at h
      simp only [Except_bind_error] at h
      exact Except.noConfusion h
    | ok v =>
      obtain ⟨st1, s1⟩ := v
      rw [hF] at h
      rw [Except_bind_ok] at h
      rw [ih st1 s1 st' s' h, feedByte_finished M now st s b st1 s1 hF]

/-- Feeding the input in any succession of slices is the single byte fold
over their concatenation: `feed` simply resumes the same per-byte loop, and
no `feed` call flips the `finished` flag. -/
theorem feed_slices_eq (M : Ext) (now : Nat) (slices : List (List Nat)) :
    ∀ (st : MemStore) (s : CogdedupStream), s.finished = false →
      slices.foldlM
        (fun acc piece => CogdedupStream.feed M now acc.1 acc.2 piece) (st, s) =
      slices.flatten.foldlM (CogdedupStream.feedByte M now) (st, s) := by
  induction slices with
  | nil =>
    intro st s hf
    rfl
  | cons p ps ih =>
    intro st s hf
    rw [List.foldlM_cons]
    dsimp only
    rw [feed_not_finished M now st s hf p]
    rw [List.flatten_cons, List.foldlM_append]
    cases hF : p.foldlM (CogdedupStream.feedByte M now) (st, s) with
    | error m => rfl
    | ok v =>
      obtain ⟨st1, s1⟩ := v
      rw [Except_bind_ok, Except_bind_ok]
      exact ih st1 s1 (by rw [feedFold_finished M now p st s st1 s1 hF]; exact hf)

/-- C2: feeding a non-empty input to the streaming encoder in ANY slicing
and calling `finish` produces the same blob, stats, store and predictor as
the batch encoder run on the concatenation of all fed bytes, started from
the same store and predictor configuration. -/
theorem claim_C2_streaming_eq_batch (M : Ext) (now : Nat)
    (slices : List (List Nat)) (hne : slices.flatten ≠ [])
    (st : MemStore) (dataId : String) (arg : Option Predictor) :
    (slices.foldlM
        (fun acc piece => CogdedupStream.feed M now acc.1 acc.2 piece)
        (st, CogdedupStream.init dataId arg) >>=
      fun r => CogdedupStream.finish M now r.1 r.2).map
      (fun r => (r.1, r.2.1, r.2.2.1, r.2.2.2.predictorState)) =
    (cogdedup_encode M now slices.flatten st dataId arg).map
      (fun r => (r.1, r.2.1, r.2.2.1, r.2.2.2)) := by
  rw [feed_slices_eq M now slices st (CogdedupStream.init dataId arg) rfl]
  rw [← feed_not_finished M now st (CogdedupStream.init dataId arg) rfl slices.flatten]
  exact stream_eq_batch_single M now slices.flatten hne st dataId arg

/-- Witness: the any-slicing agreement theorem applied to the two-byte input
`[7, 8]` fed one byte per `feed` call against a fresh store. -/
theorem claim_C2_streaming_eq_batch_witness :
    ([[7], [8]] : List (List Nat)).flatten ≠ [] ∧
      (([[7], [8]] : List (List Nat)).foldlM
          (fun acc piece => CogdedupStream.feed padExt 0 acc.1 acc.2 piece)
          (MemStore.empty, CogdedupStream.init "" none) >>=
        fun r => CogdedupStream.finish padExt 0 r.1 r.2).map
        (fun r => (r.1, r.2.1, r.2.2.1, r.2.2.2.predictorState)) =
      (cogdedup_encode padExt 0 ([[7], [8]] : List (List Nat)).flatten
          MemStore.empty "" none).map
        (fun r => (r.1, r.2.1, r.2.2.1, r.2.2.2)) :=
  ⟨by decide,
   claim_C2_streaming_eq_batch padExt 0 [[7], [8]] (by decide) MemStore.empty "" none⟩

end Cogdedup
